import Mathlib

/-!
# The gold template parser (generator.go)

A shallow embedding of the line classifier, the tree builder
(appendChildren and appendChild) and the top-level loop of Generator.Parse,
followed by the properties proved about them.

Go strings are embedded as Lean strings and read through their list of
characters; Go ints are natural numbers (every counter of the parser starts at
zero and only grows).  Go pointers to a Template are indices into a store kept
next to the generator's fields.
-/

namespace Gold

/-! ## Constants -/

/-- The constant unicodeTab (9). -/
def unicodeTab : Char := Char.ofNat 9

/-- The constant unicodeSpace (32). -/
def unicodeSpace : Char := Char.ofNat 32

/-- The constant indentTop. -/
def indentTop : Nat := 0

/-- The constant extendsBlockTokensLen. -/
def extendsBlockTokensLen : Nat := 2

/-- The constant goldExtension. -/
def goldExtension : String := ".gold"

/-! ## Library functions of package strings used by the parser -/

/-- The white space of unicode.IsSpace, which strings.TrimSpace removes. -/
def isSpace (c : Char) : Bool :=
  let n := c.toNat
  n == 9 || n == 10 || n == 11 || n == 12 || n == 13 || n == 32 || n == 0x85 || n == 0xA0 ||
  n == 0x1680 || (0x2000 ≤ n && n ≤ 0x200A) || n == 0x2028 || n == 0x2029 || n == 0x202F ||
  n == 0x205F || n == 0x3000

/-- The function strings.TrimSpace: white space is removed at both ends. -/
def TrimSpace (s : String) : String :=
  ⟨((s.data.dropWhile isSpace).reverse.dropWhile isSpace).reverse⟩

/-- The function strings.HasPrefix. -/
def HasPrefix (s pre : String) : Bool := pre.data.isPrefixOf s.data

/-- Splitting a list of characters at every occurrence of one character. -/
def splitChars (sep : Char) : List Char → List (List Char)
  | [] => [[]]
  | c :: rest =>
    if c = sep then [] :: splitChars sep rest
    else
      match splitChars sep rest with
      | [] => [[c]]
      | tok :: toks => (c :: tok) :: toks

/-- The function strings.Split for a separator of one character. -/
def Split (s : String) (sep : Char) : List String :=
  (splitChars sep s.data).map String.mk

/-- Replacing every CR LF pair by LF, from left to right. -/
def replaceCrLf : List Char → List Char
  | [] => []
  | [c] => [c]
  | c :: d :: rest =>
    if c = '\r' ∧ d = '\n' then '\n' :: replaceCrLf rest else c :: replaceCrLf (d :: rest)

/-- Replacing every CR by LF. -/
def replaceCr (cs : List Char) : List Char :=
  cs.map fun c => if c = '\r' then '\n' else c

/-- The function formatLf: the line feed codes are replaced with LF. -/
def formatLf (s : String) : String := ⟨replaceCr (replaceCrLf s.data)⟩

/-! ## The line classifier -/

/-- The loop of indent: the counter i and the flag space are the loop state. -/
def indentLoop : List Char → Nat → Bool → Nat
  | [], i, _ => i
  | b :: rest, i, space =>
    if b = unicodeTab then indentLoop rest (i + 1) space
    else if b = unicodeSpace then
      if space then indentLoop rest (i + 1) false else indentLoop rest i true
    else i

/-- The function indent: the indent of a string. -/
def indent (s : String) : Nat := indentLoop s.data 0 false

/-- The function empty. -/
def empty (s : String) : Bool := TrimSpace s == ""

/-- The function topElement. -/
def topElement (s : String) : Bool := indent s == indentTop

/-- The function isExtends. -/
def isExtends (line : String) : Bool := HasPrefix line "extends " || line == "extends"

/-- The function isBlock. -/
def isBlock (line : String) : Bool := HasPrefix line "block " || line == "block"

/-! ## The node model -/

/-- The type Element, one markup node.  Its declaration (element.go) is not
among the sources read here: the fields are those the parser passes to
NewElement or reads back from it (Typ is the field Type of the source). -/
structure Element where
  Text : String
  LineNo : Nat
  Indent : Nat
  RawContent : Bool
  Typ : String
  Children : List Element

/-- A pointer to a Template: an index into the store of the generator. -/
abbrev Ptr := Nat

/-- The type Block, a named subtree owned by a Template. -/
structure Block where
  Name : String
  Template : Ptr
  Children : List Element

/-- The interface Container: a Block or an Element, both accept children. -/
inductive Container where
  | block (b : Block)
  | element (e : Element)

/-- The children a container holds. -/
def Container.Children : Container → List Element
  | .block b => b.Children
  | .element e => e.Children

/-- Modelled from the spec: the method AppendChild of Block and of Element is
declared outside the sources read here; it appends the child at the end of the
container's child sequence. -/
def Container.AppendChild : Container → Element → Container
  | .block b, child => .block { b with Children := b.Children ++ [child] }
  | .element e, child => .element { e with Children := e.Children ++ [child] }

/-- What NewElement decides about a line: the raw-content flag and the kind. -/
structure Kind where
  RawContent : Bool
  Typ : String

/-- The parts of the program that the parser calls and that are declared
outside generator.go, taken as parameters: the file system read by
ioutil.ReadFile, the classification NewElement computes from its arguments
(it may fail), the method Dir of Template as a function of the path, and the
element kinds TypeContent and TypeBlock. -/
structure Env where
  ReadFile : String → Except String String
  classify : String → Nat → Nat → Option Element → Option Ptr → Option Block → Except String Kind
  Dir : String → String
  TypeContent : String
  TypeBlock : String

/-- Modelled from the spec: NewElement is declared in element.go, which is not
among the sources read here.  It builds the Element of one line, recording the
line, its 1-based number and its indent, with no children yet; the raw-content
flag and the kind come from the classification, whose failure is NewElement's
error. -/
def NewElement (env : Env) (text : String) (lineNo indent : Nat) (parent : Option Element)
    (tpl : Option Ptr) (block : Option Block) : Except String Element :=
  match env.classify text lineNo indent parent tpl block with
  | .error err => .error err
  | .ok k =>
    .ok { Text := text, LineNo := lineNo, Indent := indent, RawContent := k.RawContent,
          Typ := k.Typ, Children := [] }

/-! ## The tree builder -/

/-- The outcome of appendChildren or appendChild: the child sequence the parent
holds when the call returns, the cursor, and the error returned (none for nil). -/
structure Res where
  children : List Element
  cursor : Nat
  err : Option String

/-- The error appendChildren returns under a parent of kind block. -/
def blockChildError (lineNo : Nat) : String :=
  "The indent of the line " ++ toString lineNo ++
    " is invalid. Block element can not have child elements."

/-- The error appendChildren returns for a line indented too deep. -/
def indentError (lineNo : Nat) : String :=
  "The indent of the line " ++ toString lineNo ++ " is invalid."

/-- The call of NewElement made by appendChild: the parent is passed as a Block
or as an Element, according to its dynamic type. -/
def newChild (env : Env) (parent : Container) (line : String) (i indent : Nat) :
    Except String Element :=
  match parent with
  | .block p => NewElement env line (i + 1) indent none none (some p)
  | .element p => NewElement env line (i + 1) indent (some p) none none

/-- The function appendChild.  The recursive call of appendChildren on the new
child is the argument recur; the child is appended to the parent before the
recursion and is held by pointer, so the parent ends with the child as the
recursion left it, also when the recursion fails. -/
def appendChild (env : Env)
    (recur : Container → List String → Nat → Nat → Bool → String → Option Res)
    (parent : Container) (line : String) (indent : Nat) (lines : List String) (i : Nat) :
    Option Res :=
  match newChild env parent line i indent with
  | .error err => some { children := parent.Children, cursor := i, err := some err }
  | .ok child =>
    match recur (.element child) lines (i + 1) child.Indent child.RawContent child.Typ with
    | none => none
    | some r =>
      some { children := (parent.AppendChild { child with Children := r.children }).Children,
             cursor := r.cursor, err := r.err }

/-- Putting back into a container the child sequence appendChild returned. -/
def Container.withChildren : Container → List Element → Container
  | .block b, cs => .block { b with Children := cs }
  | .element e, cs => .element { e with Children := cs }

/-- The admission of the line under the cursor as a child, as the loop of
appendChildren does it in two of its cases: the call of appendChild, the
return of its error if it has one, and otherwise the next turn of the loop. -/
def admitChild (env : Env)
    (recur : Container → List String → Nat → Nat → Bool → String → Option Res)
    (parent : Container) (line : String) (indent : Nat) (lines : List String) (i : Nat)
    (parentIndent : Nat) (parentRawContent : Bool) (parentType : String) : Option Res :=
  match appendChild env recur parent line indent lines i with
  | none => none
  | some r =>
    match r.err with
    | some _ => some r
    | none =>
      recur (parent.withChildren r.children) lines r.cursor parentIndent parentRawContent
        parentType

/-- The body of appendChildren: the test of the loop and one turn of it.  The
nested calls of appendChildren, the next turn of the loop and the call made by
appendChild on the new child, are the argument recur.  The parameter l of the
source always holds len(lines) and is read off the list. -/
def appendChildrenBody (env : Env)
    (recur : Container → List String → Nat → Nat → Bool → String → Option Res)
    (parent : Container) (lines : List String) (i : Nat) (parentIndent : Nat)
    (parentRawContent : Bool) (parentType : String) : Option Res :=
  match lines[i]? with
  | none => some { children := parent.Children, cursor := i, err := none }
  | some line =>
    if empty line then
      recur parent lines (i + 1) parentIndent parentRawContent parentType
    else
      let indent := indent line
      if parentRawContent || parentType == env.TypeContent then
        if indent < parentIndent + 1 then
          some { children := parent.Children, cursor := i, err := none }
        else
          admitChild env recur parent line indent lines i parentIndent parentRawContent parentType
      else if parentType == env.TypeBlock then
        if indent < parentIndent + 1 then
          some { children := parent.Children, cursor := i, err := none }
        else
          some { children := parent.Children, cursor := i, err := some (blockChildError (i + 1)) }
      else
        if indent < parentIndent + 1 then
          some { children := parent.Children, cursor := i, err := none }
        else if indent = parentIndent + 1 then
          admitChild env recur parent line indent lines i parentIndent parentRawContent parentType
        else
          some { children := parent.Children, cursor := i, err := some (indentError (i + 1)) }

/-- The function appendChildren with the depth of nested calls bounded by fuel
(none: the bound was reached). -/
def appendChildrenFuel (env : Env) :
    Nat → Container → List String → Nat → Nat → Bool → String → Option Res
  | 0 => fun _ _ _ _ _ _ => none
  | fuel + 1 => appendChildrenBody env (appendChildrenFuel env fuel)

/-- The function appendChildren: every nested call starts at least one line
further than its caller, so one more call than there are lines left is enough. -/
def appendChildren (env : Env) (parent : Container) (lines : List String) (i : Nat)
    (parentIndent : Nat) (parentRawContent : Bool) (parentType : String) : Option Res :=
  appendChildrenFuel env (lines.length - i + 1) parent lines i parentIndent parentRawContent
    parentType

/-- The maximal leading run of tabs and spaces of a line. -/
def leadingRun (cs : List Char) : List Char :=
  cs.takeWhile fun c => c == unicodeTab || c == unicodeSpace

/-! ## Templates and the generator -/

/-- The type Template, one parsed source file.  Its declaration (template.go)
is not among the sources read here: the fields are those the parser sets, with
the block map as an association list. -/
structure Template where
  Path : String
  Super : Option Ptr
  Sub : Option Ptr
  Blocks : List (String × Block)
  Elements : List Element

/-- The type Generator, with the Templates allocated so far next to it: store
gives the Template behind each pointer and next is the first unused pointer.
The map templates of ParseFile is not read by Parse and is left out. -/
structure Generator where
  cache : Bool
  gtemplates : List (String × Ptr)
  store : Ptr → Template
  next : Nat

/-- The function NewGenerator: both maps start empty. -/
def NewGenerator (cache : Bool) : Generator :=
  { cache := cache, gtemplates := [], store := fun _ => ⟨"", none, none, [], []⟩, next := 0 }

/-- Writing a Template through its pointer. -/
def Generator.modify (g : Generator) (p : Ptr) (f : Template → Template) : Generator :=
  { g with store := Function.update g.store p (f (g.store p)) }

/-- Modelled from the spec: NewTemplate is declared in template.go, which is not
among the sources read here.  The new Template has the path, no Super, no Sub,
no blocks and no elements; it is allocated at the first unused pointer. -/
def NewTemplate (g : Generator) (path : String) : Generator × Ptr :=
  ({ g with store := Function.update g.store g.next ⟨path, none, none, [], []⟩,
            next := g.next + 1 }, g.next)

/-- Modelled from the spec: the method AddBlock of Template is declared outside
the sources read here; a later block under the same name replaces the earlier. -/
def Template.AddBlock (t : Template) (name : String) (block : Block) : Template :=
  { t with Blocks := t.Blocks.filter (fun kv => kv.1 != name) ++ [(name, block)] }

/-- Modelled from the spec: the method AppendElement of Template is declared
outside the sources read here; the element goes to the end of Elements. -/
def Template.AppendElement (t : Template) (e : Element) : Template :=
  { t with Elements := t.Elements ++ [e] }

/-- The assignment g.gtemplates[path] = tpl. -/
def Generator.storeTemplate (g : Generator) (path : String) (tpl : Ptr) : Generator :=
  { g with gtemplates := g.gtemplates.filter (fun kv => kv.1 != path) ++ [(path, tpl)] }

/-- The arity error of an extends line. -/
def extendsTokensError (actual lineNo : Nat) : String :=
  "The line tokens length is invalid. (expected: " ++ toString extendsBlockTokensLen ++
    ", actual: " ++ toString actual ++ ", line no: " ++ toString lineNo ++ ")"

/-- The arity error of a block line, spelled as the source spells it. -/
def blockTokensError (actual lineNo : Nat) : String :=
  "The lien tokens length is invalid. (expected: " ++ toString extendsBlockTokensLen ++
    ", actual: " ++ toString actual ++ ", line no: " ++ toString lineNo ++ ")"

/-- What one turn of the loop of Parse leads to: the next turn, at cursor i, or
the return of an error. -/
inductive Step where
  | next (i : Nat) (g : Generator)
  | fail (g : Generator) (err : String)

/-- One turn of the loop of Parse, for the line under the cursor i.  The
recursive call of Parse is the argument recur (none: it does not return).  A
Block and a top-level Element are held by pointer, so the template ends with
the children appendChildren gave them, also when appendChildren fails. -/
def parseStep (env : Env) (recur : Generator → String → Option (Generator × Except String Ptr))
    (lines : List String) (tpl : Ptr) (i : Nat) (g : Generator) (line : String) : Option Step :=
  let i := i + 1
  if empty line then some (.next i g)
  else if topElement line then
    if isExtends line then
      let tokens := Split (TrimSpace line) ' '
      if tokens.length ≠ extendsBlockTokensLen then
        some (.fail g (extendsTokensError tokens.length i))
      else
        match recur g (env.Dir (g.store tpl).Path ++ tokens.getD 1 "" ++ goldExtension) with
        | none => none
        | some (g, .error err) => some (.fail g err)
        | some (g, .ok superTpl) =>
          let g := g.modify superTpl fun t => { t with Sub := some tpl }
          let g := g.modify tpl fun t => { t with Super := some superTpl }
          some (.next i g)
    else if (g.store tpl).Super.isSome && isBlock line then
      let tokens := Split (TrimSpace line) ' '
      if tokens.length ≠ extendsBlockTokensLen then
        some (.fail g (blockTokensError tokens.length i))
      else
        let block : Block := { Name := tokens.getD 1 "", Template := tpl, Children := [] }
        match appendChildren env (.block block) lines i indentTop false "" with
        | none => none
        | some r =>
          let g := g.modify tpl fun t =>
            t.AddBlock block.Name { block with Children := r.children }
          match r.err with
          | some err => some (.fail g err)
          | none => some (.next r.cursor g)
    else
      match NewElement env line i indentTop none (some tpl) none with
      | .error err => some (.fail g err)
      | .ok e =>
        match appendChildren env (.element e) lines i indentTop e.RawContent e.Typ with
        | none => none
        | some r =>
          let g := g.modify tpl fun t => t.AppendElement { e with Children := r.children }
          match r.err with
          | some err => some (.fail g err)
          | none => some (.next r.cursor g)
  else some (.next i g)

/-- The loop of Parse from cursor i, with the number of turns bounded by fuel
(none: the bound was reached, or a nested call did not return).  The result is
the generator and the error returned, none when the loop ran to the end. -/
def parseLoop (env : Env) (recur : Generator → String → Option (Generator × Except String Ptr))
    (lines : List String) (tpl : Ptr) : Nat → Nat → Generator → Option (Generator × Option String)
  | fuel, i, g =>
    match lines[i]? with
    | none => some (g, none)
    | some line =>
      match fuel with
      | 0 => none
      | fuel + 1 =>
        match parseStep env recur lines tpl i g line with
        | none => none
        | some (.fail g err) => some (g, some err)
        | some (.next i g) => parseLoop env recur lines tpl fuel i g

/-- The loop of Parse over all the lines of a file: every turn moves the cursor
forward, so as many turns as there are lines are enough. -/
def parseLines (env : Env) (recur : Generator → String → Option (Generator × Except String Ptr))
    (lines : List String) (tpl : Ptr) (g : Generator) : Option (Generator × Option String) :=
  parseLoop env recur lines tpl lines.length 0 g

/-- The loop of Parse from cursor i on, with as many turns as there are lines
left. -/
def parseFrom (env : Env) (recur : Generator → String → Option (Generator × Except String Ptr))
    (lines : List String) (tpl : Ptr) (i : Nat) (g : Generator) :
    Option (Generator × Option String) :=
  parseLoop env recur lines tpl (lines.length - i) i g

/-- The loop of Parse, having its cursor at i and the generator in state g,
later has its cursor at j and the generator in state h. -/
inductive LoopReaches (env : Env)
    (recur : Generator → String → Option (Generator × Except String Ptr))
    (lines : List String) (tpl : Ptr) : Nat → Generator → Nat → Generator → Prop where
  | here (i : Nat) (g : Generator) : LoopReaches env recur lines tpl i g i g
  | turn (i : Nat) (g : Generator) (line : String) (i2 : Nat) (g2 : Generator) (j : Nat)
      (h : Generator) :
      lines[i]? = some line →
      parseStep env recur lines tpl i g line = some (.next i2 g2) →
      LoopReaches env recur lines tpl i2 g2 j h →
      LoopReaches env recur lines tpl i g j h

/-- The method Parse of Generator, with the depth of the recursion through
extends lines bounded by fuel (none: the bound was reached). -/
def Parse (env : Env) : Nat → Generator → String → Option (Generator × Except String Ptr)
  | 0, _, _ => none
  | fuel + 1, g, path =>
    match (if g.cache then g.gtemplates.lookup path else none) with
    | some tpl => some (g, .ok tpl)
    | none =>
      match env.ReadFile path with
      | .error err => some (g, .error err)
      | .ok b =>
        let lines := Split (formatLf b) '\n'
        let (g, tpl) := NewTemplate g path
        match parseLines env (Parse env fuel) lines tpl g with
        | none => none
        | some (g, some err) => some (g, .error err)
        | some (g, none) =>
          let g := if g.cache then g.storeTemplate path tpl else g
          some (g, .ok tpl)

/-- The generator a turn of the loop of Parse leaves. -/
def Step.gen : Step → Generator
  | .next _ g => g
  | .fail g _ => g

/-- What a run of the parser leaves untouched, from generator g to generator
g2: no pointer is given back, the cache switch is not written, and a Template
allocated before the run keeps its path and, unless it is the Template tpl
under construction, its Super link, its blocks and its elements.  The Sub link
is not among them: extends lines write it. -/
def Generator.Frame (tpl : Option Ptr) (g g2 : Generator) : Prop :=
  g.next ≤ g2.next ∧ g2.cache = g.cache ∧
  ∀ p, p < g.next →
    (g2.store p).Path = (g.store p).Path ∧
    (some p ≠ tpl →
      (g2.store p).Super = (g.store p).Super ∧ (g2.store p).Blocks = (g.store p).Blocks ∧
      (g2.store p).Elements = (g.store p).Elements)

/-- The top-level lines of a file, each with its 1-based number: the non-blank
lines of indent 0.  The argument k is the number of lines before the list. -/
def topLevelFrom : List String → Nat → List (Nat × String)
  | [], _ => []
  | line :: rest, k =>
    if !empty line && topElement line then (k + 1, line) :: topLevelFrom rest (k + 1)
    else topLevelFrom rest (k + 1)

/-- The top-level lines of a file, each with its 1-based number. -/
def topLevelLines (lines : List String) : List (Nat × String) := topLevelFrom lines 0

/-! ## Two indentations of one template source -/

/-- A line of a template source: its nesting level and the rest of the line. -/
structure SourceLine where
  depth : Nat
  body : String

/-- The line with 2 spaces for each nesting level. -/
def SourceLine.withSpaces (l : SourceLine) : String :=
  ⟨List.replicate (2 * l.depth) unicodeSpace ++ l.body.data⟩

/-- The line with 1 tab for each nesting level. -/
def SourceLine.withTabs (l : SourceLine) : String :=
  ⟨List.replicate l.depth unicodeTab ++ l.body.data⟩

/-- The characters indent counts. -/
def isIndentChar (c : Char) : Bool := c == unicodeTab || c == unicodeSpace

/-- A line with its leading tabs and spaces removed. -/
def stripIndent (s : String) : String := ⟨s.data.dropWhile isIndentChar⟩

/-- The classification of an element depends only on its line with the leading
white space removed.  A classification that depends only on the line trimmed of
white space of every kind is of this form too. -/
def Env.ClassifiesByContent (env : Env) : Prop :=
  ∃ f : String → Except String Kind,
    ∀ line lineNo indent parent tpl block,
      env.classify line lineNo indent parent tpl block = f (stripIndent line)

/-- What two lists of lines have in common when they are two indentations of
one source: the same number of lines, and line by line the same blankness, the
same indent, the same text after the indentation, and the same line at indent 0. -/
def LinesAlike (ls lt : List String) : Prop :=
  ls.length = lt.length ∧
  ∀ (i : Nat) (l l2 : String), ls[i]? = some l → lt[i]? = some l2 →
    empty l = empty l2 ∧ indent l = indent l2 ∧ stripIndent l = stripIndent l2 ∧
    (indent l = 0 → l = l2)

mutual
/-- An Element without the texts of its lines: its shape, line numbers,
indentation depths and classification. -/
def Element.eraseText : Element → Element
  | ⟨_, lineNo, indent, raw, typ, children⟩ => ⟨"", lineNo, indent, raw, typ, eraseTexts children⟩
/-- A child sequence without the texts of its lines. -/
def eraseTexts : List Element → List Element
  | [] => []
  | e :: es => e.eraseText :: eraseTexts es
end

/-- A Block without the texts of its lines. -/
def Block.eraseText (b : Block) : Block := { b with Children := eraseTexts b.Children }

/-- A container without the texts of its lines. -/
def Container.eraseText : Container → Container
  | .block b => .block b.eraseText
  | .element e => .element e.eraseText

/-- An outcome of appendChildren without the texts of its lines. -/
def Res.eraseText (r : Res) : Res := { r with children := eraseTexts r.children }

/-- A Template without the texts of its lines. -/
def Template.eraseText (t : Template) : Template :=
  { t with Blocks := t.Blocks.map (fun kv => (kv.1, kv.2.eraseText)),
           Elements := eraseTexts t.Elements }

/-- A generator whose Templates are without the texts of their lines. -/
def Generator.eraseText (g : Generator) : Generator :=
  { g with store := fun p => (g.store p).eraseText }

/-- A turn of the loop of Parse without the texts of the lines. -/
def Step.eraseText : Step → Step
  | .next i g => .next i g.eraseText
  | .fail g err => .fail g.eraseText err

/-- A recursive call of Parse that the texts of the lines parsed so far do not
steer: on two generators that differ in these texts only, it returns the same
pointer or error and again two generators that differ in these texts only, or
it returns on neither. -/
def TextBlind (recur : Generator → String → Option (Generator × Except String Ptr)) : Prop :=
  ∀ g1 g2 path, g1.eraseText = g2.eraseText →
    (recur g1 path).map (fun r => (r.1.eraseText, r.2)) =
      (recur g2 path).map (fun r => (r.1.eraseText, r.2))

/-! ## Sequences of calls of Parse -/

/-- The Super links of the Templates allocated so far are sound: a Super link
goes to a Template allocated later, and the Sub link of that Template comes
back. -/
def Generator.LinksSound (g : Generator) : Prop :=
  ∀ p q : Nat, p < g.next → (g.store p).Super = some q →
    p < q ∧ q < g.next ∧ (g.store q).Sub = some p

/-- What a call of Parse without caching does to the generator: caching stays
off, the links stay sound, the Templates allocated before are not written, and
the Template returned is a new one that no Template has as its Super. -/
def ReturnsFresh (recur : Generator → String → Option (Generator × Except String Ptr)) :
    Prop :=
  ∀ g path g2 res, g.cache = false → g.LinksSound → recur g path = some (g2, res) →
    g2.cache = false ∧ g2.LinksSound ∧ g.next ≤ g2.next ∧
    (∀ p, p < g.next → g2.store p = g.store p) ∧
    (∀ t : Nat, res = .ok t → g.next ≤ t ∧ t < g2.next ∧
      ∀ p, p < g2.next → (g2.store p).Super ≠ some t)

/-- What the loop of Parse keeps, without caching, while it builds the Template
tpl allocated in generator g0: caching off, sound links, and the Templates
allocated before tpl as they were in g0. -/
def LoopSound (g0 : Generator) (tpl : Nat) (g : Generator) : Prop :=
  g.cache = false ∧ g.LinksSound ∧ tpl < g.next ∧ ∀ p, p < tpl → g.store p = g0.store p

/-- A sequence of calls of Parse on one generator, each with its own bound on
the recursion; none when one of the calls does not return within its bound. -/
def parseAll (env : Env) : Generator → List (Nat × String) → Option Generator
  | g, [] => some g
  | g, (fuel, path) :: rest =>
    match Parse env fuel g path with
    | none => none
    | some (g2, _) => parseAll env g2 rest

/-! ## A small instance, for the examples -/

/-- Some files: a.gold and b.gold extend base.gold, bad.gold skips a level, and
the directives of arity.gold and arity2.gold have a token too many. -/
def sampleFiles : String → Except String String
  | "a.gold" => .ok "extends base\nblock title\n\tp hello\n"
  | "b.gold" => .ok "extends base\n"
  | "base.gold" => .ok "html\n  body\n    p\n"
  | "bad.gold" => .ok "div\n\t\tp"
  | "empty.gold" => .ok ""
  | "plain.gold" => .ok "block greeting\n"
  | "arity.gold" => .ok "\nextends a b\n"
  | "arity2.gold" => .ok "extends empty\nblock a b\n"
  | _ => .error "no such file"

/-- An instance of the parameters: script and style elements hold raw content,
the lines under them and the lines starting with a bar are of the content kind,
and files are looked up by name in the current directory. -/
def sampleEnv : Env :=
  { ReadFile := sampleFiles
    classify := fun line _ _ parent _ _ =>
      let t := TrimSpace line
      let inRaw := match parent with
        | some p => p.RawContent
        | none => false
      .ok { RawContent := HasPrefix t "script" || HasPrefix t "style"
            Typ := if inRaw || HasPrefix t "|" then "content"
                   else if HasPrefix t "block" then "block" else "tag" }
    Dir := fun _ => ""
    TypeContent := "content"
    TypeBlock := "block" }

/-- The same instance after b.gold was edited: its extends line has three tokens. -/
def sampleEnvLater : Env :=
  { sampleEnv with
    ReadFile := fun path =>
      if path = "b.gold" then .ok "extends base too\n" else sampleFiles path }

/-- A classification by content: the kind is read off the start of the line
after its indentation. -/
def contentKind (text : String) : Except String Kind :=
  .ok { RawContent := HasPrefix text "script" || HasPrefix text "style"
        Typ := if HasPrefix text "|" then "content"
               else if HasPrefix text "block" then "block" else "tag" }

/-- The instance with the classification by content. -/
def contentEnv : Env :=
  { sampleEnv with classify := fun line _ _ _ _ _ => contentKind (stripIndent line) }

/-- A structural element at depth 0, standing on line 1. -/
def sampleDiv : Element :=
  { Text := "div", LineNo := 1, Indent := 0, RawContent := false, Typ := "tag", Children := [] }

/-- A raw-content element at depth 0, standing on line 1. -/
def sampleScript : Element :=
  { Text := "script", LineNo := 1, Indent := 0, RawContent := true, Typ := "tag", Children := [] }

/-- The Element of a line 3 of depth 1 under a structural parent. -/
def sampleParagraph : Element :=
  { Text := "  p", LineNo := 3, Indent := 1, RawContent := false, Typ := "tag", Children := [] }

/-- The Element of a line 2 of depth 3 under a raw-content parent. -/
def sampleRawChild : Element :=
  { Text := "\t\t\tx", LineNo := 2, Indent := 3, RawContent := false, Typ := "content",
    Children := [] }

/-- An element of the block kind at depth 0, standing on line 1. -/
def sampleBlockElement : Element :=
  { Text := "block greeting", LineNo := 1, Indent := 0, RawContent := false, Typ := "block",
    Children := [] }

/-- A generator whose Template 0 has a Super link, to Template 1. -/
def sampleExtending : Generator :=
  (NewGenerator false).modify 0 fun t => { t with Super := some 1 }

/-! ## ParseFile and the two caches -/

/-- What a call of Parse keeps of the cache of parsed Templates: the switch, and
every entry stored before the call. -/
def Generator.CacheKept (g g2 : Generator) : Prop :=
  g2.cache = g.cache ∧
  ∀ p t, g.gtemplates.lookup p = some t → g2.gtemplates.lookup p = some t

/-- A compiled template of package html/template: its name and the text it was
parsed from. -/
structure HtmlTemplate where
  Name : String
  Text : String

/-- A pointer to a compiled template: an index into the store of the generator. -/
abbrev HtmlPtr := Nat

/-- The parts of the program that ParseFile calls and that are declared outside
generator.go, taken as parameters: the method Html of Template, which reads the
Template through the pointers of the generator, and the parser of package
html/template behind template.New(path).Parse(html); both may fail. -/
structure Renderer where
  Html : Generator → Ptr → Except String String
  compile : String → String → Except String HtmlTemplate

/-- The Generator with its map templates: gen holds the fields Parse works on,
and compiled gives the compiled template behind each pointer, nextCompiled
being the first unused one. -/
structure FileGenerator where
  gen : Generator
  templates : List (String × HtmlPtr)
  compiled : HtmlPtr → HtmlTemplate
  nextCompiled : Nat

/-- The method ParseFile of Generator; fuel bounds the recursion of Parse. -/
def ParseFile (env : Env) (rd : Renderer) (fuel : Nat) (G : FileGenerator) (path : String) :
    Option (FileGenerator × Except String HtmlPtr) :=
  match (if G.gen.cache then G.templates.lookup path else none) with
  | some tpl => some (G, .ok tpl)
  | none =>
    match Parse env fuel G.gen path with
    | none => none
    | some (g, .error err) => some ({ G with gen := g }, .error err)
    | some (g, .ok gtpl) =>
      match rd.Html g gtpl with
      | .error err => some ({ G with gen := g }, .error err)
      | .ok html =>
        match rd.compile path html with
        | .error err => some ({ G with gen := g }, .error err)
        | .ok t =>
          let tpl := G.nextCompiled
          let templates :=
            if g.cache then G.templates.filter (fun kv => kv.1 != path) ++ [(path, tpl)]
            else G.templates
          some ({ gen := g, templates := templates,
                  compiled := Function.update G.compiled tpl t,
                  nextCompiled := G.nextCompiled + 1 }, .ok tpl)

/-- The generator NewGenerator returns, with its map templates. -/
def NewFileGenerator (cache : Bool) : FileGenerator :=
  { gen := NewGenerator cache, templates := [], compiled := fun _ => ⟨"", ""⟩, nextCompiled := 0 }

/-- An instance of the renderer: the text is the path of the Template, and
every text compiles. -/
def sampleRenderer : Renderer :=
  { Html := fun g t => .ok (g.store t).Path
    compile := fun name text => .ok ⟨name, text⟩ }

/-- A renderer that fails. -/
def failingRenderer : Renderer :=
  { Html := fun _ _ => .error "no html"
    compile := fun _ _ => .error "no template" }

/-- A file system without files. -/
def emptyEnv : Env :=
  { sampleEnv with ReadFile := fun _ => .error "no such file" }

/-! ## The runs of spaces in the indentation -/

/-- The lengths of the maximal runs of adjacent spaces in the leading tabs and
spaces of a line; run is the length of the run being read. -/
def spaceRunsLoop : List Char → Nat → List Nat
  | [], run => if run = 0 then [] else [run]
  | c :: rest, run =>
    if c = unicodeSpace then spaceRunsLoop rest (run + 1)
    else if c = unicodeTab then
      if run = 0 then spaceRunsLoop rest 0 else run :: spaceRunsLoop rest 0
    else if run = 0 then [] else [run]

/-- The lengths of the maximal runs of adjacent spaces in the leading tabs and
spaces of a line. -/
def spaceRuns (s : String) : List Nat := spaceRunsLoop s.data 0

/-- The number of tabs in the leading tabs and spaces of a line. -/
def tabCount (s : String) : Nat := (leadingRun s.data).count unicodeTab

/-- The indent by runs, as a reading of pairs of consecutive spaces has it: the
tab count plus, for each maximal run of adjacent spaces, half its length
rounded down. -/
def indentByRuns (s : String) : Nat := tabCount s + ((spaceRuns s).map (· / 2)).sum

/-! ## Files as lines -/

/-- A file made of the given lines, with the line ending sep between them. -/
def joinLines (sep : String) : List String → String
  | [] => ""
  | [l] => l
  | l :: l2 :: rest => l ++ sep ++ joinLines sep (l2 :: rest)

/-! ## Indented lines at the top level -/

/-- The lines from a up to b, b excluded, are blank or indented. -/
def Passed (lines : List String) (a b : Nat) : Prop :=
  ∀ j, a ≤ j → j < b → ∃ l, lines[j]? = some l ∧ (empty l = true ∨ topElement l = false)

/-- Line i has no top-level line that is not blank before it, or the nearest
one is an extends line. -/
def AfterExtendsOrStart (lines : List String) (i : Nat) : Prop :=
  Passed lines 0 i ∨
  ∃ k l, k < i ∧ lines[k]? = some l ∧ empty l = false ∧ topElement l = true ∧
    isExtends l = true ∧ Passed lines (k + 1) i

/-! ## Chains of extends lines -/

/-- The file at path exists and its first top-level line that is not blank is a
well-formed extends line, which names the file at target. -/
def ExtendsFirst (env : Env) (path target : String) : Prop :=
  ∃ src k line, env.ReadFile path = .ok src ∧
    Passed (Split (formatLf src) '\n') 0 k ∧
    (Split (formatLf src) '\n')[k]? = some line ∧ isExtends line = true ∧
    (Split (TrimSpace line) ' ').length = 2 ∧
    env.Dir path ++ (Split (TrimSpace line) ' ').getD 1 "" ++ goldExtension = target

/-- Parse does not find the path in the cache: caching is off, or no Template
is stored for the path. -/
def Uncached (g : Generator) (path : String) : Prop :=
  (if g.cache then g.gtemplates.lookup path else none) = none

/-- Two files that extend each other. -/
def cyclicEnv : Env :=
  { sampleEnv with
    ReadFile := fun path =>
      if path = "x.gold" then .ok "extends y\n"
      else if path = "y.gold" then .ok "\nextends x\n"
      else .error "no such file" }

/-! ## The elements of a Template in source order -/

mutual
/-- An Element followed by its descendants, in pre-order. -/
def Element.preorder : Element → List Element
  | ⟨text, lineNo, indent, raw, typ, children⟩ =>
    ⟨text, lineNo, indent, raw, typ, children⟩ :: preorderAll children
/-- The Elements of a child sequence with their descendants, in pre-order. -/
def preorderAll : List Element → List Element
  | [] => []
  | e :: es => e.preorder ++ preorderAll es
end

/-- The Elements under the blocks of a block map, in pre-order, block after
block. -/
def blocksPreorder : List (String × Block) → List Element
  | [] => []
  | kv :: rest => preorderAll kv.2.Children ++ blocksPreorder rest

/-- An Element records its line: its line number is the 1-based index of a
line, its text is that line, its indentation is the indent of the line, and its
children are indented deeper by 1 at least. -/
def Element.Recorded (lines : List String) (e : Element) : Prop :=
  1 ≤ e.LineNo ∧ lines[e.LineNo - 1]? = some e.Text ∧ e.Indent = indent e.Text ∧
  ∀ c ∈ e.Children, e.Indent + 1 ≤ c.Indent

/-- A sequence of Elements stands in source order between two cursors: the line
numbers are strictly increasing, lie after lo and not after hi, and every
Element records its line. -/
def Placed (lines : List String) (lo hi : Nat) (es : List Element) : Prop :=
  (es.map (·.LineNo)).Pairwise (· < ·) ∧
  ∀ e ∈ es, lo < e.LineNo ∧ e.LineNo ≤ hi ∧ e.Recorded lines

/-- The Elements of a Template stand in source order up to the cursor hi: those
under the top-level Elements and those under the blocks, each in pre-order; no
line gave an Element to both; and the children of a block are of depth 1 at
least. -/
def Template.Placed (lines : List String) (hi : Nat) (t : Template) : Prop :=
  Gold.Placed lines 0 hi (preorderAll t.Elements) ∧
  Gold.Placed lines 0 hi (blocksPreorder t.Blocks) ∧
  (∀ e ∈ preorderAll t.Elements, ∀ c ∈ blocksPreorder t.Blocks, e.LineNo ≠ c.LineNo) ∧
  ∀ kv ∈ t.Blocks, ∀ c ∈ kv.2.Children, indentTop + 1 ≤ c.Indent

/-! ## Blank lines -/

/-- The lines that are not blank. -/
def nonBlank (lines : List String) : List String := lines.filter fun l => !empty l

/-- The number of lines before the cursor i that are not blank: the cursor
that stands for i once the blank lines are deleted. -/
def nonBlankBefore (lines : List String) (i : Nat) : Nat := (nonBlank (lines.take i)).length

mutual
/-- An Element without its line numbers: its shape, texts, indentation depths
and classification. -/
def Element.eraseLineNo : Element → Element
  | ⟨text, _, indent, raw, typ, children⟩ => ⟨text, 0, indent, raw, typ, eraseLineNos children⟩
/-- A child sequence without its line numbers. -/
def eraseLineNos : List Element → List Element
  | [] => []
  | e :: es => e.eraseLineNo :: eraseLineNos es
end

/-- A Block without its line numbers. -/
def Block.eraseLineNo (b : Block) : Block := { b with Children := eraseLineNos b.Children }

/-- A container without its line numbers. -/
def Container.eraseLineNo : Container → Container
  | .block b => .block b.eraseLineNo
  | .element e => .element e.eraseLineNo

/-- A Template without its line numbers. -/
def Template.eraseLineNo (t : Template) : Template :=
  { t with Blocks := t.Blocks.map (fun kv => (kv.1, kv.2.eraseLineNo)),
           Elements := eraseLineNos t.Elements }

/-- A generator whose Templates are without their line numbers. -/
def Generator.eraseLineNo (g : Generator) : Generator :=
  { g with store := fun p => (g.store p).eraseLineNo }

/-- The classification of an element does not depend on line numbers: neither
on the number of its line nor on the line numbers held by its parent. -/
def Env.IgnoresLineNo (env : Env) : Prop :=
  ∀ line n m indent (parent parent2 : Option Element) tpl (block block2 : Option Block),
    parent.map Element.eraseLineNo = parent2.map Element.eraseLineNo →
    block.map Block.eraseLineNo = block2.map Block.eraseLineNo →
    env.classify line n indent parent tpl block = env.classify line m indent parent2 tpl block2

/-- Two generators are the same but for the line numbers held by the Template
tpl. -/
def SameButLineNo (tpl : Nat) (g1 g2 : Generator) : Prop :=
  g1.cache = g2.cache ∧ g1.gtemplates = g2.gtemplates ∧ g1.next = g2.next ∧
  (∀ p : Nat, p ≠ tpl → g1.store p = g2.store p) ∧
  (g1.store tpl).eraseLineNo = (g2.store tpl).eraseLineNo

/-- A recursive call of Parse that the line numbers held by the Template tpl do
not steer: on two generators that are the same but for these, it returns on
neither, or it returns the same pointer or error and two generators that are
again the same but for these. -/
def LineNoBlind (tpl : Nat)
    (recur : Generator → String → Option (Generator × Except String Ptr)) : Prop :=
  ∀ g1 g2 path, tpl < g1.next → SameButLineNo tpl g1 g2 →
    (recur g1 path = none ∧ recur g2 path = none) ∨
    ∃ h1 h2 res, recur g1 path = some (h1, res) ∧ recur g2 path = some (h2, res) ∧
      SameButLineNo tpl h1 h2 ∧ g1.next ≤ h1.next

/-! ## Properties of the line classifier -/

theorem tab_ne_space : unicodeTab ≠ unicodeSpace := by decide

theorem indentLoop_eq (cs : List Char) (i : Nat) (space : Bool) :
    indentLoop cs i space =
      i + (leadingRun cs).count unicodeTab +
        ((leadingRun cs).count unicodeSpace + (if space then 1 else 0)) / 2 := by
  induction cs generalizing i space with
  | nil => cases space <;> simp [indentLoop, leadingRun]
  | cons b rest ih =>
    unfold indentLoop
    by_cases hb : b = unicodeTab
    · subst hb
      have h := ih (i + 1) space
      simp only [leadingRun] at h ⊢
      simp [List.takeWhile_cons, List.count_cons, tab_ne_space, h]
      omega
    · by_cases hs : b = unicodeSpace
      · subst hs
        have hne : unicodeSpace ≠ unicodeTab := fun h => tab_ne_space h.symm
        cases space
        · have h := ih i true
          simp only [leadingRun] at h ⊢
          simp [List.takeWhile_cons, List.count_cons, hne, h]
        · have h := ih (i + 1) false
          simp only [leadingRun] at h ⊢
          simp [List.takeWhile_cons, List.count_cons, hne, h]
          omega
      · cases space <;> simp [hb, hs, leadingRun, List.takeWhile_cons]

/-- C2: the indent of a line is the number of tabs plus half the number of
spaces (rounded down) in its maximal leading run of tabs and spaces. -/
theorem indent_eq_tabs_add_half_spaces (line : String) :
    indent line =
      (leadingRun line.data).count unicodeTab + (leadingRun line.data).count unicodeSpace / 2 := by
  simp [indent, indentLoop_eq]

/-! ## The tree builder returns: fuel and cursor -/

/-- What decides a turn of the loop of appendChildren: the line under the
cursor and the parent, whatever the nested calls return. -/
theorem appendChildrenBody_cases (env : Env)
    (parent : Container) (lines : List String) (i pI : Nat) (raw : Bool) (ty : String) :
    (lines[i]? = none ∧ ∀ recur,
      appendChildrenBody env recur parent lines i pI raw ty = some ⟨parent.Children, i, none⟩) ∨
    (∃ line, lines[i]? = some line ∧ empty line = true ∧ ∀ recur,
      appendChildrenBody env recur parent lines i pI raw ty = recur parent lines (i + 1) pI raw ty) ∨
    (∃ line, lines[i]? = some line ∧ empty line = false ∧ indent line < pI + 1 ∧ ∀ recur,
      appendChildrenBody env recur parent lines i pI raw ty = some ⟨parent.Children, i, none⟩) ∨
    (∃ line, lines[i]? = some line ∧ empty line = false ∧ pI + 1 ≤ indent line ∧ ∀ recur,
      appendChildrenBody env recur parent lines i pI raw ty =
        admitChild env recur parent line (indent line) lines i pI raw ty) ∨
    (∃ line, lines[i]? = some line ∧ empty line = false ∧ pI + 1 ≤ indent line ∧
      ∃ msg, ∀ recur, appendChildrenBody env recur parent lines i pI raw ty =
        some ⟨parent.Children, i, some msg⟩) := by
  cases hl : lines[i]? with
  | none => left; simp [appendChildrenBody, hl]
  | some line =>
    right
    cases hE : empty line with
    | true => left; exact ⟨line, rfl, hE, by simp [appendChildrenBody, hl, hE]⟩
    | false =>
      right
      by_cases hlt : indent line < pI + 1
      · left; exact ⟨line, rfl, hE, hlt, by simp [appendChildrenBody, hl, hE, hlt]⟩
      · right
        by_cases h1 : (raw || ty == env.TypeContent) = true
        · left
          refine ⟨line, rfl, hE, by omega, fun recur => ?_⟩
          simp only [appendChildrenBody, hl, hE, h1, hlt]; simp
        · by_cases h2 : (ty == env.TypeBlock) = true
          · right
            refine ⟨line, rfl, hE, by omega, blockChildError (i + 1), fun recur => ?_⟩
            simp only [appendChildrenBody, hl, hE, h1, h2, hlt]; simp
          · by_cases h3 : indent line = pI + 1
            · left
              refine ⟨line, rfl, hE, by omega, fun recur => ?_⟩
              simp only [appendChildrenBody, hl, hE, h1, h2, hlt, h3]; simp
            · right
              refine ⟨line, rfl, hE, by omega, indentError (i + 1), fun recur => ?_⟩
              simp only [appendChildrenBody, hl, hE, h1, h2, hlt, h3]; simp

theorem Container.children_appendChild (parent : Container) (child : Element) :
    (parent.AppendChild child).Children = parent.Children ++ [child] := by
  cases parent <;> rfl

theorem Container.children_withChildren (parent : Container) (cs : List Element) :
    (parent.withChildren cs).Children = cs := by
  cases parent <;> rfl

theorem newChild_fields (env : Env) (parent : Container) (line : String) (i ind : Nat)
    (child : Element) (h : newChild env parent line i ind = .ok child) :
    child.Text = line ∧ child.LineNo = i + 1 ∧ child.Indent = ind ∧ child.Children = [] := by
  have key : ∀ a b c, NewElement env line (i + 1) ind a b c = .ok child →
      child.Text = line ∧ child.LineNo = i + 1 ∧ child.Indent = ind ∧ child.Children = [] := by
    intro a b c h
    unfold NewElement at h
    split at h
    · exact absurd h (by simp)
    · simp only [Except.ok.injEq] at h
      subst h
      exact ⟨rfl, rfl, rfl, rfl⟩
  cases parent with
  | block p => exact key _ _ _ h
  | element p => exact key _ _ _ h

/-- The two outcomes of appendChild. -/
theorem appendChild_cases (env : Env)
    (recur : Container → List String → Nat → Nat → Bool → String → Option Res)
    (parent : Container) (line : String) (ind : Nat) (lines : List String) (i : Nat) :
    (∃ err, newChild env parent line i ind = .error err ∧
      appendChild env recur parent line ind lines i = some ⟨parent.Children, i, some err⟩) ∨
    (∃ child, newChild env parent line i ind = .ok child ∧
      appendChild env recur parent line ind lines i =
        (recur (.element child) lines (i + 1) ind child.RawContent child.Typ).map fun r =>
          ⟨parent.Children ++ [{ child with Children := r.children }], r.cursor, r.err⟩) := by
  cases h : newChild env parent line i ind with
  | error err => left; exact ⟨err, rfl, by simp [appendChild, h]⟩
  | ok child =>
    right
    refine ⟨child, rfl, ?_⟩
    have hf := newChild_fields env parent line i ind child h
    simp only [appendChild, h, hf.2.2.1, Container.children_appendChild]
    cases recur (.element child) lines (i + 1) ind child.RawContent child.Typ <;> rfl

theorem appendChild_mono (env : Env)
    (recur1 recur2 : Container → List String → Nat → Nat → Bool → String → Option Res)
    (h : ∀ p ls j a b c r, recur1 p ls j a b c = some r → recur2 p ls j a b c = some r)
    (parent : Container) (line : String) (ind : Nat) (lines : List String) (i : Nat) (r : Res)
    (hr : appendChild env recur1 parent line ind lines i = some r) :
    appendChild env recur2 parent line ind lines i = some r := by
  rcases appendChild_cases env recur1 parent line ind lines i with ⟨err, he, h1⟩ | ⟨child, hc, h1⟩
  · rcases appendChild_cases env recur2 parent line ind lines i with ⟨err2, he2, h2⟩ | ⟨c2, hc2, _⟩
    · rw [he] at he2; cases he2; rw [h2, ← h1, hr]
    · rw [he] at hc2; cases hc2
  · rcases appendChild_cases env recur2 parent line ind lines i with ⟨err2, he2, _⟩ | ⟨c2, hc2, h2⟩
    · rw [hc] at he2; cases he2
    · rw [hc] at hc2; cases hc2
      rw [h1] at hr
      rw [h2]
      cases hrec : recur1 (.element child) lines (i + 1) ind child.RawContent child.Typ with
      | none => rw [hrec] at hr; exact absurd hr (by simp)
      | some r1 =>
        rw [hrec] at hr
        rw [h _ _ _ _ _ _ _ hrec]
        exact hr

theorem admitChild_mono (env : Env)
    (recur1 recur2 : Container → List String → Nat → Nat → Bool → String → Option Res)
    (h : ∀ p ls j a b c r, recur1 p ls j a b c = some r → recur2 p ls j a b c = some r)
    (parent : Container) (line : String) (ind : Nat) (lines : List String) (i pI : Nat)
    (raw : Bool) (ty : String) (r : Res)
    (hr : admitChild env recur1 parent line ind lines i pI raw ty = some r) :
    admitChild env recur2 parent line ind lines i pI raw ty = some r := by
  unfold admitChild at hr ⊢
  cases h1 : appendChild env recur1 parent line ind lines i with
  | none => rw [h1] at hr; exact absurd hr (by simp)
  | some r1 =>
    rw [h1] at hr
    rw [appendChild_mono env recur1 recur2 h _ _ _ _ _ _ h1]
    cases he : r1.err with
    | some e => simp only [he] at hr ⊢; exact hr
    | none => simp only [he] at hr ⊢; exact h _ _ _ _ _ _ _ hr

theorem appendChildrenBody_mono (env : Env)
    (recur1 recur2 : Container → List String → Nat → Nat → Bool → String → Option Res)
    (h : ∀ p ls j a b c r, recur1 p ls j a b c = some r → recur2 p ls j a b c = some r)
    (parent : Container) (lines : List String) (i pI : Nat) (raw : Bool) (ty : String) (r : Res)
    (hr : appendChildrenBody env recur1 parent lines i pI raw ty = some r) :
    appendChildrenBody env recur2 parent lines i pI raw ty = some r := by
  rcases appendChildrenBody_cases env parent lines i pI raw ty with
    ⟨_, h1⟩ | ⟨line, _, _, h1⟩ | ⟨line, _, _, _, h1⟩ | ⟨line, _, _, _, h1⟩ |
    ⟨line, _, _, _, msg, h1⟩
  · rw [h1] at hr ⊢; exact hr
  · rw [h1] at hr ⊢; exact h _ _ _ _ _ _ _ hr
  · rw [h1] at hr ⊢; exact hr
  · rw [h1] at hr ⊢; exact admitChild_mono env recur1 recur2 h _ _ _ _ _ _ _ _ _ hr
  · rw [h1] at hr ⊢; exact hr

theorem appendChildrenFuel_succ (env : Env) (fuel : Nat) :
    ∀ parent lines i pI raw ty r,
      appendChildrenFuel env fuel parent lines i pI raw ty = some r →
      appendChildrenFuel env (fuel + 1) parent lines i pI raw ty = some r := by
  induction fuel with
  | zero => intro _ _ _ _ _ _ _ h; simp [appendChildrenFuel] at h
  | succ n ih =>
    intro parent lines i pI raw ty r h
    exact appendChildrenBody_mono env _ _ ih parent lines i pI raw ty r h

theorem appendChildrenFuel_le (env : Env) (fuel fuel2 : Nat) (hle : fuel ≤ fuel2)
    (parent : Container) (lines : List String) (i pI : Nat) (raw : Bool) (ty : String) (r : Res)
    (h : appendChildrenFuel env fuel parent lines i pI raw ty = some r) :
    appendChildrenFuel env fuel2 parent lines i pI raw ty = some r := by
  induction hle with
  | refl => exact h
  | step _ ih => exact appendChildrenFuel_succ env _ _ _ _ _ _ _ _ ih

/-- The cursor never moves back, and never past the end of the lines. -/
theorem appendChildrenFuel_cursor (env : Env) (fuel : Nat) :
    ∀ parent lines i pI raw ty r,
      appendChildrenFuel env fuel parent lines i pI raw ty = some r →
      i ≤ r.cursor ∧ (i ≤ lines.length → r.cursor ≤ lines.length) := by
  induction fuel with
  | zero => intro _ _ _ _ _ _ _ h; simp [appendChildrenFuel] at h
  | succ n ih =>
    intro parent lines i pI raw ty r h
    simp only [appendChildrenFuel] at h
    rcases appendChildrenBody_cases env parent lines i pI raw ty with
      ⟨_, h1⟩ | ⟨line, hl, _, h1⟩ | ⟨line, _, _, _, h1⟩ | ⟨line, hl, _, _, h1⟩ |
      ⟨line, _, _, _, msg, h1⟩
    · rw [h1] at h; cases h; simp
    · rw [h1] at h
      have hlt : i < lines.length := (List.getElem?_eq_some_iff.mp hl).1
      have := ih _ _ _ _ _ _ _ h
      omega
    · rw [h1] at h; cases h; simp
    · rw [h1] at h
      have hlt : i < lines.length := (List.getElem?_eq_some_iff.mp hl).1
      unfold admitChild at h
      rcases appendChild_cases env (appendChildrenFuel env n) parent line (indent line) lines i with
        ⟨err, _, h2⟩ | ⟨child, _, h2⟩
      · rw [h2] at h; simp only at h; cases h; simp
      · rw [h2] at h
        cases hrec : appendChildrenFuel env n (.element child) lines (i + 1) (indent line)
            child.RawContent child.Typ with
        | none => rw [hrec] at h; simp at h
        | some r1 =>
          rw [hrec] at h
          simp only [Option.map_some'] at h
          have hc := ih _ _ _ _ _ _ _ hrec
          cases he : r1.err with
          | some e => simp only [he] at h; cases h; simp only; omega
          | none =>
            simp only [he] at h
            have := ih _ _ _ _ _ _ _ h
            omega
    · rw [h1] at h; cases h; simp

theorem appendChildrenFuel_isSome (env : Env) (fuel : Nat) :
    ∀ parent lines i pI raw ty, lines.length - i < fuel →
      ∃ r, appendChildrenFuel env fuel parent lines i pI raw ty = some r := by
  induction fuel with
  | zero => intro _ _ _ _ _ _ h; omega
  | succ n ih =>
    intro parent lines i pI raw ty hf
    simp only [appendChildrenFuel]
    rcases appendChildrenBody_cases env parent lines i pI raw ty with
      ⟨_, h1⟩ | ⟨line, hl, _, h1⟩ | ⟨line, _, _, _, h1⟩ | ⟨line, hl, _, _, h1⟩ |
      ⟨line, _, _, _, msg, h1⟩
    · exact ⟨_, h1 _⟩
    · have hlt : i < lines.length := (List.getElem?_eq_some_iff.mp hl).1
      rw [h1]; exact ih _ _ _ _ _ _ (by omega)
    · exact ⟨_, h1 _⟩
    · have hlt : i < lines.length := (List.getElem?_eq_some_iff.mp hl).1
      rw [h1]
      unfold admitChild
      rcases appendChild_cases env (appendChildrenFuel env n) parent line (indent line) lines i with
        ⟨err, _, h2⟩ | ⟨child, _, h2⟩
      · rw [h2]; exact ⟨_, rfl⟩
      · rw [h2]
        obtain ⟨r1, hrec⟩ := ih (.element child) lines (i + 1) (indent line) child.RawContent
          child.Typ (by omega)
        rw [hrec]
        have hc := appendChildrenFuel_cursor env n _ _ _ _ _ _ _ hrec
        simp only [Option.map_some']
        cases he : r1.err with
        | some e => exact ⟨_, rfl⟩
        | none => exact ih _ _ _ _ _ _ (by omega)
    · exact ⟨_, h1 _⟩

/-- Whatever a bounded run of appendChildren returns, appendChildren returns. -/
theorem appendChildren_of_fuel (env : Env) (fuel : Nat) (parent : Container)
    (lines : List String) (i pI : Nat) (raw : Bool) (ty : String) (r : Res)
    (h : appendChildrenFuel env fuel parent lines i pI raw ty = some r) :
    appendChildren env parent lines i pI raw ty = some r := by
  unfold appendChildren
  obtain ⟨r2, h2⟩ := appendChildrenFuel_isSome env (lines.length - i + 1) parent lines i pI raw ty
    (by omega)
  rcases Nat.le_total fuel (lines.length - i + 1) with hle | hle
  · exact appendChildrenFuel_le env _ _ hle _ _ _ _ _ _ _ h
  · have := appendChildrenFuel_le env _ _ hle _ _ _ _ _ _ _ h2
    rw [h] at this; cases this; exact h2

/-- The function appendChildren always returns. -/
theorem appendChildren_isSome (env : Env) (parent : Container)
    (lines : List String) (i pI : Nat) (raw : Bool) (ty : String) :
    ∃ r, appendChildren env parent lines i pI raw ty = some r :=
  appendChildrenFuel_isSome env _ parent lines i pI raw ty (by omega)

/-- The function appendChildren satisfies the recursive equation of the source:
it is its own body, with itself for the nested calls. -/
theorem appendChildren_eq (env : Env) (parent : Container)
    (lines : List String) (i pI : Nat) (raw : Bool) (ty : String) :
    appendChildren env parent lines i pI raw ty =
      appendChildrenBody env (appendChildren env) parent lines i pI raw ty := by
  obtain ⟨r, hr⟩ := appendChildren_isSome env parent lines i pI raw ty
  rw [hr]
  have h : appendChildrenBody env (appendChildrenFuel env (lines.length - i)) parent lines i pI
      raw ty = some r := hr
  exact (appendChildrenBody_mono env _ _
    (fun p ls j a b c r1 h1 => appendChildren_of_fuel env _ p ls j a b c r1 h1) _ _ _ _ _ _ _ h).symm

/-! ## One turn of the loop of appendChildren -/

/-- The loop of appendChildren passes over blank lines. -/
theorem appendChildren_skip_blank (env : Env) (parent : Container) (lines : List String)
    (pI : Nat) (raw : Bool) (ty : String) (n : Nat) :
    ∀ i, (∀ k, i ≤ k → k < i + n → ∃ l, lines[k]? = some l ∧ empty l = true) →
      appendChildren env parent lines i pI raw ty =
        appendChildren env parent lines (i + n) pI raw ty := by
  induction n with
  | zero => intro i _; rfl
  | succ n ih =>
    intro i h
    obtain ⟨l, hl, hE⟩ := h i (Nat.le_refl i) (by omega)
    rw [appendChildren_eq]
    simp only [appendChildrenBody, hl, hE, if_true]
    rw [ih (i + 1) (fun k h1 h2 => h k (by omega) (by omega))]
    congr 1
    omega

/-- The turn of the loop on a non-blank line that is not deeper than the
parent: the parent is complete, whatever its kind. -/
theorem appendChildren_stop (env : Env) (parent : Container) (lines : List String)
    (i pI : Nat) (raw : Bool) (ty : String) (line : String)
    (hl : lines[i]? = some line) (hE : empty line = false) (hlt : indent line < pI + 1) :
    appendChildren env parent lines i pI raw ty = some ⟨parent.Children, i, none⟩ := by
  rw [appendChildren_eq]
  simp [appendChildrenBody, hl, hE, hlt]

/-- The admission of a line whose Element was built: the recursion into the
child, then the return of its error or the next turn of the loop. -/
theorem admitChild_ok (env : Env) (parent : Container) (lines : List String)
    (i pI : Nat) (raw : Bool) (ty : String) (line : String) (ind : Nat) (child : Element)
    (hc : newChild env parent line i ind = .ok child) :
    ∃ r, appendChildren env (.element child) lines (i + 1) ind child.RawContent child.Typ = some r ∧
      admitChild env (appendChildren env) parent line ind lines i pI raw ty =
        match r.err with
        | some err =>
          some ⟨parent.Children ++ [{ child with Children := r.children }], r.cursor, some err⟩
        | none =>
          appendChildren env
            (parent.withChildren (parent.Children ++ [{ child with Children := r.children }]))
            lines r.cursor pI raw ty := by
  obtain ⟨r, hr⟩ := appendChildren_isSome env (.element child) lines (i + 1) ind
    child.RawContent child.Typ
  refine ⟨r, hr, ?_⟩
  unfold admitChild
  rcases appendChild_cases env (appendChildren env) parent line ind lines i with
    ⟨err, he, _⟩ | ⟨c2, hc2, h2⟩
  · rw [hc] at he; cases he
  · rw [hc] at hc2; cases hc2
    rw [h2, hr]
    simp only [Option.map_some']
    cases he : r.err <;> simp [he]

/-- The admission of a line whose Element could not be built. -/
theorem admitChild_error (env : Env) (parent : Container) (lines : List String)
    (i pI : Nat) (raw : Bool) (ty : String) (line : String) (ind : Nat) (err : String)
    (hc : newChild env parent line i ind = .error err) :
    admitChild env (appendChildren env) parent line ind lines i pI raw ty =
      some ⟨parent.Children, i, some err⟩ := by
  unfold admitChild
  rcases appendChild_cases env (appendChildren env) parent line ind lines i with
    ⟨e2, he, h2⟩ | ⟨c2, hc2, _⟩
  · rw [hc] at he; cases he; rw [h2]
  · rw [hc] at hc2; cases hc2

/-- The children a parent holds on entry are kept, in order, at the front. -/
theorem appendChildrenFuel_children (env : Env) (fuel : Nat) :
    ∀ parent lines i pI raw ty r,
      appendChildrenFuel env fuel parent lines i pI raw ty = some r →
      ∃ more, r.children = parent.Children ++ more := by
  induction fuel with
  | zero => intro _ _ _ _ _ _ _ h; simp [appendChildrenFuel] at h
  | succ n ih =>
    intro parent lines i pI raw ty r h
    simp only [appendChildrenFuel] at h
    rcases appendChildrenBody_cases env parent lines i pI raw ty with
      ⟨_, h1⟩ | ⟨line, hl, _, h1⟩ | ⟨line, _, _, _, h1⟩ | ⟨line, hl, _, _, h1⟩ |
      ⟨line, _, _, _, msg, h1⟩
    · rw [h1] at h; cases h; exact ⟨[], by simp⟩
    · rw [h1] at h; exact ih _ _ _ _ _ _ _ h
    · rw [h1] at h; cases h; exact ⟨[], by simp⟩
    · rw [h1] at h
      unfold admitChild at h
      rcases appendChild_cases env (appendChildrenFuel env n) parent line (indent line) lines i with
        ⟨err, _, h2⟩ | ⟨child, _, h2⟩
      · rw [h2] at h; simp only at h; cases h; exact ⟨[], by simp⟩
      · rw [h2] at h
        cases hrec : appendChildrenFuel env n (.element child) lines (i + 1) (indent line)
            child.RawContent child.Typ with
        | none => rw [hrec] at h; simp at h
        | some r1 =>
          rw [hrec] at h
          simp only [Option.map_some'] at h
          cases he : r1.err with
          | some e => simp only [he] at h; cases h; exact ⟨_, rfl⟩
          | none =>
            simp only [he] at h
            obtain ⟨more, hm⟩ := ih _ _ _ _ _ _ _ h
            rw [Container.children_withChildren] at hm
            exact ⟨_, by rw [hm, List.append_assoc]⟩
    · rw [h1] at h; cases h; exact ⟨[], by simp⟩

theorem appendChildren_children (env : Env) (parent : Container) (lines : List String)
    (i pI : Nat) (raw : Bool) (ty : String) (r : Res)
    (h : appendChildren env parent lines i pI raw ty = some r) :
    ∃ more, r.children = parent.Children ++ more :=
  appendChildrenFuel_children env _ _ _ _ _ _ _ _ h

theorem appendChildren_cursor (env : Env) (parent : Container) (lines : List String)
    (i pI : Nat) (raw : Bool) (ty : String) (r : Res)
    (h : appendChildren env parent lines i pI raw ty = some r) :
    i ≤ r.cursor ∧ (i ≤ lines.length → r.cursor ≤ lines.length) :=
  appendChildrenFuel_cursor env _ _ _ _ _ _ _ _ h

/-- What the admission of a line gives once its Element is built: the Element
records the line, its 1-based number and the indent; appendChildren is run on
it from the next line; the parent gets it, with the children that run gave it,
as one more child; the error of that run is returned, and without one the loop
of the parent goes on from where that run stopped. -/
theorem admitChild_result (env : Env) (parent : Container) (lines : List String)
    (i pI : Nat) (raw : Bool) (ty : String) (line : String) (ind : Nat) (child : Element)
    (hc : newChild env parent line i ind = .ok child) :
    child.Text = line ∧ child.LineNo = i + 1 ∧ child.Indent = ind ∧
    ∃ r, appendChildren env (.element child) lines (i + 1) ind child.RawContent child.Typ = some r ∧
      ∃ res more, admitChild env (appendChildren env) parent line ind lines i pI raw ty = some res ∧
        res.children = parent.Children ++ { child with Children := r.children } :: more ∧
        (∀ err, r.err = some err →
          res = ⟨parent.Children ++ [{ child with Children := r.children }], r.cursor, some err⟩) ∧
        (r.err = none →
          appendChildren env
            (parent.withChildren (parent.Children ++ [{ child with Children := r.children }]))
            lines r.cursor pI raw ty = some res) := by
  have hf := newChild_fields env parent line i ind child hc
  refine ⟨hf.1, hf.2.1, hf.2.2.1, ?_⟩
  obtain ⟨r, hr, hadm⟩ := admitChild_ok env parent lines i pI raw ty line ind child hc
  refine ⟨r, hr, ?_⟩
  rw [hadm]
  cases he : r.err with
  | some e =>
    refine ⟨_, [], rfl, rfl, ?_, ?_⟩
    · intro err h; cases h; rfl
    · intro h; cases h
  | none =>
    simp only
    obtain ⟨res, hres⟩ := appendChildren_isSome env
      (parent.withChildren (parent.Children ++ [{ child with Children := r.children }]))
      lines r.cursor pI raw ty
    obtain ⟨more, hm⟩ := appendChildren_children env _ _ _ _ _ _ _ hres
    rw [Container.children_withChildren] at hm
    refine ⟨res, more, hres, ?_, ?_, ?_⟩
    · rw [hm]; simp
    · intro err h; cases h
    · intro _; exact hres

/-- The turn of the loop under a raw-content or content parent, on a non-blank
line deep enough: the line is admitted. -/
theorem appendChildren_raw_admits (env : Env) (parent : Container) (lines : List String)
    (i pI : Nat) (raw : Bool) (ty : String) (line : String)
    (hraw : raw = true ∨ ty = env.TypeContent)
    (hl : lines[i]? = some line) (hE : empty line = false) (hge : pI + 1 ≤ indent line) :
    appendChildren env parent lines i pI raw ty =
      admitChild env (appendChildren env) parent line (indent line) lines i pI raw ty := by
  rw [appendChildren_eq]
  have h1 : (raw || ty == env.TypeContent) = true := by
    rcases hraw with h | h <;> simp [h]
  have hlt : ¬ indent line < pI + 1 := by omega
  simp only [appendChildrenBody, hl, hE, h1, hlt]; simp

/-- The turn of the loop under a structural parent, on a non-blank line exactly
one level deeper: the line is admitted. -/
theorem appendChildren_structural_admits (env : Env) (parent : Container) (lines : List String)
    (i pI : Nat) (ty : String) (line : String)
    (hty1 : ty ≠ env.TypeContent) (hty2 : ty ≠ env.TypeBlock)
    (hl : lines[i]? = some line) (hE : empty line = false) (heq : indent line = pI + 1) :
    appendChildren env parent lines i pI false ty =
      admitChild env (appendChildren env) parent line (pI + 1) lines i pI false ty := by
  rw [appendChildren_eq]
  have h1 : (false || ty == env.TypeContent) = false := by simp [hty1]
  have h2 : (ty == env.TypeBlock) = false := by simp [hty2]
  simp only [appendChildrenBody, hl, hE, h1, h2, heq]; simp

/-- The turn of the loop under a structural parent, on a non-blank line more
than one level deeper: the indentation error, for that line. -/
theorem appendChildren_structural_error (env : Env) (parent : Container) (lines : List String)
    (i pI : Nat) (ty : String) (line : String)
    (hty1 : ty ≠ env.TypeContent) (hty2 : ty ≠ env.TypeBlock)
    (hl : lines[i]? = some line) (hE : empty line = false) (hgt : pI + 1 < indent line) :
    appendChildren env parent lines i pI false ty =
      some ⟨parent.Children, i, some (indentError (i + 1))⟩ := by
  rw [appendChildren_eq]
  have h1 : (false || ty == env.TypeContent) = false := by simp [hty1]
  have h2 : (ty == env.TypeBlock) = false := by simp [hty2]
  have hlt : ¬ indent line < pI + 1 := by omega
  have hne : ¬ indent line = pI + 1 := by omega
  simp only [appendChildrenBody, hl, hE, h1, h2, hlt, hne]; simp

/-- The turn of the loop under a parent of kind block, on a non-blank line
deeper than the parent: the error of the block kind, for that line. -/
theorem appendChildren_block_error (env : Env) (parent : Container) (lines : List String)
    (i pI : Nat) (ty : String) (line : String)
    (hty1 : ty ≠ env.TypeContent) (hty2 : ty = env.TypeBlock)
    (hl : lines[i]? = some line) (hE : empty line = false) (hge : pI + 1 ≤ indent line) :
    appendChildren env parent lines i pI false ty =
      some ⟨parent.Children, i, some (blockChildError (i + 1))⟩ := by
  rw [appendChildren_eq]
  have h1 : (false || ty == env.TypeContent) = false := by simp [hty1]
  have h2 : (ty == env.TypeBlock) = true := by simp [hty2]
  have hlt : ¬ indent line < pI + 1 := by omega
  simp only [appendChildrenBody, hl, hE, h1, h2, hlt]; simp

/-! ## The child-admission rules -/

/-- C3: under a structural parent (not raw-content, kind neither content nor
block) at depth p, the first non-blank line after the cursor, when its depth is
exactly p+1, is admitted: once its Element is built it becomes one more child
of the parent and appendChildren is run on it from the next line; when its
depth is greater than p+1, appendChildren returns the indentation error naming
the 1-based number of that line, and the parent keeps the children it had. -/
theorem appendChildren_structural_parent (env : Env) (parent : Container)
    (lines : List String) (i n p : Nat) (ty : String) (line : String)
    (hty1 : ty ≠ env.TypeContent) (hty2 : ty ≠ env.TypeBlock)
    (hblank : ∀ k, i ≤ k → k < i + n → ∃ l, lines[k]? = some l ∧ empty l = true)
    (hl : lines[i + n]? = some line) (hE : empty line = false) :
    (indent line = p + 1 →
      ∀ child, newChild env parent line (i + n) (p + 1) = .ok child →
        child.Text = line ∧ child.LineNo = i + n + 1 ∧ child.Indent = p + 1 ∧
        ∃ r, appendChildren env (.element child) lines (i + n + 1) (p + 1) child.RawContent
              child.Typ = some r ∧
          ∃ res more, appendChildren env parent lines i p false ty = some res ∧
            res.children = parent.Children ++ { child with Children := r.children } :: more ∧
            (∀ err, r.err = some err →
              res = ⟨parent.Children ++ [{ child with Children := r.children }], r.cursor,
                some err⟩) ∧
            (r.err = none →
              appendChildren env
                (parent.withChildren (parent.Children ++ [{ child with Children := r.children }]))
                lines r.cursor p false ty = some res)) ∧
    (p + 1 < indent line →
      appendChildren env parent lines i p false ty =
        some ⟨parent.Children, i + n,
          some ("The indent of the line " ++ toString (i + n + 1) ++ " is invalid.")⟩) := by
  rw [appendChildren_skip_blank env parent lines p false ty n i hblank]
  constructor
  · intro heq child hc
    rw [appendChildren_structural_admits env parent lines (i + n) p ty line hty1 hty2 hl hE heq]
    exact admitChild_result env parent lines (i + n) p false ty line (p + 1) child hc
  · intro hgt
    exact appendChildren_structural_error env parent lines (i + n) p ty line hty1 hty2 hl hE hgt

/-- C3, on an instance: under a div on line 1 and after a blank line, the line
of depth 1 is admitted as a child, and a line of depth 2 in its place gives the
indentation error for line 3. -/
theorem appendChildren_structural_parent_witness :
    (sampleParagraph.Text = "  p" ∧ sampleParagraph.LineNo = 3 ∧ sampleParagraph.Indent = 1 ∧
      ∃ r, appendChildren sampleEnv (.element sampleParagraph) ["div", "", "  p"] 3 1
            sampleParagraph.RawContent sampleParagraph.Typ = some r ∧
        ∃ res more, appendChildren sampleEnv (.element sampleDiv) ["div", "", "  p"] 1 0 false
            "tag" = some res ∧
          res.children =
            (Container.element sampleDiv).Children ++
              { sampleParagraph with Children := r.children } :: more ∧
          (∀ err, r.err = some err →
            res = ⟨(Container.element sampleDiv).Children ++
              [{ sampleParagraph with Children := r.children }], r.cursor, some err⟩) ∧
          (r.err = none →
            appendChildren sampleEnv
              ((Container.element sampleDiv).withChildren
                ((Container.element sampleDiv).Children ++
                  [{ sampleParagraph with Children := r.children }]))
              ["div", "", "  p"] r.cursor 0 false "tag" = some res)) ∧
    appendChildren sampleEnv (.element sampleDiv) ["div", "", "\t\tp"] 1 0 false "tag" =
      some ⟨[], 2, some "The indent of the line 3 is invalid."⟩ :=
  ⟨(appendChildren_structural_parent sampleEnv (.element sampleDiv) ["div", "", "  p"] 1 1 0
      "tag" "  p" (by decide) (by decide)
      (fun k h1 h2 => by
        have hk : k = 1 := by omega
        subst hk
        exact ⟨"", rfl, by decide⟩)
      rfl (by decide)).1 (by decide) sampleParagraph rfl,
   (appendChildren_structural_parent sampleEnv (.element sampleDiv) ["div", "", "\t\tp"] 1 1 0
      "tag" "\t\tp" (by decide) (by decide)
      (fun k h1 h2 => by
        have hk : k = 1 := by omega
        subst hk
        exact ⟨"", rfl, by decide⟩)
      rfl (by decide)).2 (by decide)⟩

/-- C4: under a parent of the block kind that is not raw-content, at depth p,
the first non-blank line after the cursor makes appendChildren fail with the
error of the block kind naming the 1-based number of that line when its depth
is at least p+1, and ends the parent with no error, the cursor left on that
line, when its depth is less than p+1. -/
theorem appendChildren_block_parent (env : Env) (parent : Container)
    (lines : List String) (i n p : Nat) (line : String)
    (hkinds : env.TypeBlock ≠ env.TypeContent)
    (hblank : ∀ k, i ≤ k → k < i + n → ∃ l, lines[k]? = some l ∧ empty l = true)
    (hl : lines[i + n]? = some line) (hE : empty line = false) :
    (p + 1 ≤ indent line →
      appendChildren env parent lines i p false env.TypeBlock =
        some ⟨parent.Children, i + n,
          some ("The indent of the line " ++ toString (i + n + 1) ++
            " is invalid. Block element can not have child elements.")⟩) ∧
    (indent line < p + 1 →
      appendChildren env parent lines i p false env.TypeBlock =
        some ⟨parent.Children, i + n, none⟩) := by
  rw [appendChildren_skip_blank env parent lines p false env.TypeBlock n i hblank]
  constructor
  · intro hge
    exact appendChildren_block_error env parent lines (i + n) p env.TypeBlock line hkinds rfl hl hE
      hge
  · intro hlt
    exact appendChildren_stop env parent lines (i + n) p false env.TypeBlock line hl hE hlt

/-- C4, on an instance: under an element of the block kind on line 1, an
indented line 3 gives the error for line 3, a line 3 at depth 0 ends the parent. -/
theorem appendChildren_block_parent_witness :
    appendChildren sampleEnv (.element sampleBlockElement) ["block greeting", "", "    p"] 1 0 false
        "block" =
      some ⟨[], 2, some
        "The indent of the line 3 is invalid. Block element can not have child elements."⟩ ∧
    appendChildren sampleEnv (.element sampleBlockElement) ["block greeting", "", "p"] 1 0 false
        "block" = some ⟨[], 2, none⟩ :=
  ⟨(appendChildren_block_parent sampleEnv (.element sampleBlockElement) ["block greeting", "", "    p"]
      1 1 0 "    p" (by decide)
      (fun k h1 h2 => by
        have hk : k = 1 := by omega
        subst hk
        exact ⟨"", rfl, by decide⟩)
      rfl (by decide)).1 (by decide),
   (appendChildren_block_parent sampleEnv (.element sampleBlockElement) ["block greeting", "", "p"]
      1 1 0 "p" (by decide)
      (fun k h1 h2 => by
        have hk : k = 1 := by omega
        subst hk
        exact ⟨"", rfl, by decide⟩)
      rfl (by decide)).2 (by decide)⟩

/-- C10: under a parent that is raw-content or of the content kind, at depth p,
with the cursor on a non-blank line of any depth d at least p+1: when the
Element of the line cannot be built, that error is returned; otherwise the
Element, of indentation d, becomes one more direct child of the parent, with
the children appendChildren gives it from the next line; the error of that run
is returned, and without one the loop of the parent goes on.  No indentation
error of appendChildren is among these outcomes. -/
theorem appendChildren_raw_parent (env : Env) (parent : Container)
    (lines : List String) (i p : Nat) (raw : Bool) (ty : String) (line : String)
    (hraw : raw = true ∨ ty = env.TypeContent)
    (hl : lines[i]? = some line) (hE : empty line = false) (hge : p + 1 ≤ indent line) :
    (∀ err, newChild env parent line i (indent line) = .error err →
      appendChildren env parent lines i p raw ty = some ⟨parent.Children, i, some err⟩) ∧
    (∀ child, newChild env parent line i (indent line) = .ok child →
      child.Text = line ∧ child.LineNo = i + 1 ∧ child.Indent = indent line ∧
      ∃ r, appendChildren env (.element child) lines (i + 1) (indent line) child.RawContent
            child.Typ = some r ∧
        ∃ res more, appendChildren env parent lines i p raw ty = some res ∧
          res.children = parent.Children ++ { child with Children := r.children } :: more ∧
          (∀ err, r.err = some err →
            res = ⟨parent.Children ++ [{ child with Children := r.children }], r.cursor,
              some err⟩) ∧
          (r.err = none →
            appendChildren env
              (parent.withChildren (parent.Children ++ [{ child with Children := r.children }]))
              lines r.cursor p raw ty = some res)) := by
  rw [appendChildren_raw_admits env parent lines i p raw ty line hraw hl hE hge]
  constructor
  · intro err hc
    exact admitChild_error env parent lines i p raw ty line (indent line) err hc
  · intro child hc
    exact admitChild_result env parent lines i p raw ty line (indent line) child hc

/-- C10, on an instance: under a script on line 1, a line 2 of depth 3 becomes
its child, of indentation 3. -/
theorem appendChildren_raw_parent_witness :
    sampleRawChild.Text = "\t\t\tx" ∧ sampleRawChild.LineNo = 1 + 1 ∧
    sampleRawChild.Indent = indent "\t\t\tx" ∧
    ∃ r, appendChildren sampleEnv (.element sampleRawChild) ["script", "\t\t\tx"] (1 + 1)
          (indent "\t\t\tx") sampleRawChild.RawContent sampleRawChild.Typ = some r ∧
      ∃ res more, appendChildren sampleEnv (.element sampleScript) ["script", "\t\t\tx"] 1 0
          true "tag" = some res ∧
        res.children = (Container.element sampleScript).Children ++
          { sampleRawChild with Children := r.children } :: more ∧
        (∀ err, r.err = some err →
          res = ⟨(Container.element sampleScript).Children ++
            [{ sampleRawChild with Children := r.children }], r.cursor, some err⟩) ∧
        (r.err = none →
          appendChildren sampleEnv
            ((Container.element sampleScript).withChildren
              ((Container.element sampleScript).Children ++
                [{ sampleRawChild with Children := r.children }]))
            ["script", "\t\t\tx"] r.cursor 0 true "tag" = some res) :=
  (appendChildren_raw_parent sampleEnv (.element sampleScript) ["script", "\t\t\tx"] 1 0 true
    "tag" "\t\t\tx" (Or.inl rfl) rfl (by decide) (by decide)).2 sampleRawChild rfl

theorem Element.with_nil_children (c : Element) (h : c.Children = []) :
    { c with Children := [] } = c := by
  cases c
  simp only [Element.mk.injEq] at h ⊢
  simp [h]

/-- Under a parent that can hold children, a line one level deeper than the
parent followed by a line that is not deeper than the parent: the first line
becomes the only child, without children of its own, and the cursor stops on
the second line. -/
theorem appendChildren_single_child (env : Env) (parent : Container) (lines : List String)
    (i p : Nat) (raw : Bool) (ty : String) (l1 l2 : String) (child : Element)
    (hkind : raw = true ∨ ty = env.TypeContent ∨ ty ≠ env.TypeBlock)
    (h1 : lines[i]? = some l1) (hE1 : empty l1 = false) (hd1 : indent l1 = p + 1)
    (h2 : lines[i + 1]? = some l2) (hE2 : empty l2 = false) (hd2 : indent l2 < p + 1)
    (hc : newChild env parent l1 i (p + 1) = .ok child) :
    appendChildren env parent lines i p raw ty =
      some ⟨parent.Children ++ [child], i + 1, none⟩ := by
  have hadm : appendChildren env parent lines i p raw ty =
      admitChild env (appendChildren env) parent l1 (p + 1) lines i p raw ty := by
    by_cases hr : raw = true ∨ ty = env.TypeContent
    · rw [appendChildren_raw_admits env parent lines i p raw ty l1 hr h1 hE1 (by omega), hd1]
    · have hraw : raw = false := by
        cases raw
        · rfl
        · exact absurd (Or.inl rfl) hr
      have hty1 : ty ≠ env.TypeContent := fun h => hr (Or.inr h)
      have hty2 : ty ≠ env.TypeBlock := by
        rcases hkind with h | h | h
        · rw [hraw] at h; cases h
        · exact absurd h hty1
        · exact h
      subst hraw
      exact appendChildren_structural_admits env parent lines i p ty l1 hty1 hty2 h1 hE1 hd1
  rw [hadm]
  obtain ⟨r, hr, hres⟩ := admitChild_ok env parent lines i p raw ty l1 (p + 1) child hc
  have hf := newChild_fields env parent l1 i (p + 1) child hc
  have hstop := appendChildren_stop env (.element child) lines (i + 1) (p + 1) child.RawContent
    child.Typ l2 h2 hE2 (by omega)
  rw [hstop] at hr
  cases hr
  rw [hres]
  simp only
  have hch : (Container.element child).Children = [] := hf.2.2.2
  rw [hch, Element.with_nil_children child hf.2.2.2]
  rw [appendChildren_stop env _ lines (i + 1) p raw ty l2 h2 hE2 hd2,
    Container.children_withChildren]

theorem Container.withChildren_withChildren (parent : Container) (a b : List Element) :
    (parent.withChildren a).withChildren b = parent.withChildren b := by
  cases parent <;> rfl

/-- C9, as amended: under a raw-content parent at depth p, three non-blank lines
of depths p+1, p+2, p+1 whose Elements are built, the first of them able to
hold children: the first and the third line become direct children of the
parent, in that order, and the second line becomes the only child of the first;
appendChildren raises no indentation error for the three lines, and goes on
with the lines after them under the third. -/
theorem appendChildren_raw_three_lines (env : Env) (parent : Container)
    (lines : List String) (i p : Nat) (ty : String) (l1 l2 l3 : String) (c1 c2 c3 : Element)
    (h1 : lines[i]? = some l1) (hE1 : empty l1 = false) (hd1 : indent l1 = p + 1)
    (h2 : lines[i + 1]? = some l2) (hE2 : empty l2 = false) (hd2 : indent l2 = p + 2)
    (h3 : lines[i + 2]? = some l3) (hE3 : empty l3 = false) (hd3 : indent l3 = p + 1)
    (hc1 : newChild env parent l1 i (p + 1) = .ok c1)
    (hkind : c1.RawContent = true ∨ c1.Typ = env.TypeContent ∨ c1.Typ ≠ env.TypeBlock)
    (hc2 : newChild env (.element c1) l2 (i + 1) (p + 2) = .ok c2)
    (hc3 : newChild env (parent.withChildren (parent.Children ++ [{ c1 with Children := [c2] }]))
      l3 (i + 2) (p + 1) = .ok c3) :
    ∃ r3, appendChildren env (.element c3) lines (i + 3) (p + 1) c3.RawContent c3.Typ = some r3 ∧
      ∃ res more, appendChildren env parent lines i p true ty = some res ∧
        res.children = parent.Children ++
          { c1 with Children := [c2] } :: { c3 with Children := r3.children } :: more ∧
        c2.Children = [] ∧
        (∀ err, r3.err = some err →
          res = ⟨parent.Children ++
            [{ c1 with Children := [c2] }, { c3 with Children := r3.children }], r3.cursor,
            some err⟩) ∧
        (r3.err = none →
          appendChildren env
            (parent.withChildren (parent.Children ++
              [{ c1 with Children := [c2] }, { c3 with Children := r3.children }]))
            lines r3.cursor p true ty = some res) := by
  have hf1 := newChild_fields env parent l1 i (p + 1) c1 hc1
  have hf2 := newChild_fields env (.element c1) l2 (i + 1) (p + 2) c2 hc2
  have hinner := appendChildren_single_child env (.element c1) lines (i + 1) (p + 1)
    c1.RawContent c1.Typ l2 l3 c2 hkind h2 hE2 hd2 h3 hE3 (by omega) hc2
  have hch : (Container.element c1).Children = [] := hf1.2.2.2
  rw [hch, List.nil_append] at hinner
  obtain ⟨r1, hr1, hadm⟩ := admitChild_ok env parent lines i p true ty l1 (p + 1) c1 hc1
  rw [hinner] at hr1
  cases hr1
  simp only at hadm
  have hstart : appendChildren env parent lines i p true ty =
      appendChildren env (parent.withChildren (parent.Children ++ [{ c1 with Children := [c2] }]))
        lines (i + 2) p true ty := by
    rw [appendChildren_raw_admits env parent lines i p true ty l1 (Or.inl rfl) h1 hE1 (by omega),
      hd1, hadm]
  rw [hstart,
    appendChildren_raw_admits env _ lines (i + 2) p true ty l3 (Or.inl rfl) h3 hE3 (by omega), hd3]
  obtain ⟨_, _, _, r3, hr3, res, more, hres, hchild, herr, hok⟩ :=
    admitChild_result env _ lines (i + 2) p true ty l3 (p + 1) c3 hc3
  rw [Container.children_withChildren] at hchild herr hok
  refine ⟨r3, hr3, res, more, hres, ?_, hf2.2.2.2, ?_, ?_⟩
  · rw [hchild]; simp
  · intro err he
    rw [herr err he]; simp
  · intro he
    have := hok he
    rw [Container.withChildren_withChildren] at this
    simpa using this

/-- C9, as amended, on an instance: under a script on line 1, lines 2, 3, 4 of
depths 1, 2, 1. -/
theorem appendChildren_raw_three_lines_witness :
    ∃ c1 c2 c3 : Element, c1.LineNo = 2 ∧ c2.LineNo = 3 ∧ c3.LineNo = 4 ∧
      ∃ r3, appendChildren sampleEnv (.element c3) ["script", "  a", "    b", "  c"] 4 1
            c3.RawContent c3.Typ = some r3 ∧
        ∃ res more, appendChildren sampleEnv (.element sampleScript)
            ["script", "  a", "    b", "  c"] 1 0 true "tag" = some res ∧
          res.children = (Container.element sampleScript).Children ++
            { c1 with Children := [c2] } :: { c3 with Children := r3.children } :: more ∧
          c2.Children = [] ∧
          (∀ err, r3.err = some err →
            res = ⟨(Container.element sampleScript).Children ++
              [{ c1 with Children := [c2] }, { c3 with Children := r3.children }], r3.cursor,
              some err⟩) ∧
          (r3.err = none →
            appendChildren sampleEnv
              ((Container.element sampleScript).withChildren
                ((Container.element sampleScript).Children ++
                  [{ c1 with Children := [c2] }, { c3 with Children := r3.children }]))
              ["script", "  a", "    b", "  c"] r3.cursor 0 true "tag" = some res) :=
  ⟨⟨"  a", 2, 1, false, "content", []⟩, ⟨"    b", 3, 2, false, "tag", []⟩,
    ⟨"  c", 4, 1, false, "content", []⟩, rfl, rfl, rfl,
    appendChildren_raw_three_lines sampleEnv (.element sampleScript)
      ["script", "  a", "    b", "  c"] 1 0 "tag" "  a" "    b" "  c" _ _ _
      rfl (by decide) (by decide) rfl (by decide) (by decide) rfl (by decide) (by decide)
      rfl (Or.inr (Or.inl rfl)) rfl rfl⟩

/-- C9 fails as stated: under a script (raw content) on line 1, with lines 2, 3,
4 of depths 1, 2, 1, appendChildren returns without error and the direct
children of the script are lines 2 and 4 only; line 3 is the child of line 2. -/
theorem appendChildren_raw_three_lines_counterexample :
    sampleScript.RawContent = true ∧ sampleScript.Indent = 0 ∧
    indent "  a" = 1 ∧ indent "    b" = 2 ∧ indent "  c" = 1 ∧
    (appendChildren sampleEnv (.element sampleScript) ["script", "  a", "    b", "  c"] 1 0 true
        "tag").map (fun r =>
          (r.children.map (fun c => c.LineNo), r.children.map (fun c => c.Children.map
            (fun d => d.LineNo)), r.cursor, r.err)) =
      some ([2, 4], [[3], []], 4, none) ∧
    ¬ ∃ r, appendChildren sampleEnv (.element sampleScript) ["script", "  a", "    b", "  c"] 1 0
        true "tag" = some r ∧ r.children.map (fun c => c.LineNo) = [2, 3, 4] := by
  have heval : (appendChildren sampleEnv (.element sampleScript)
      ["script", "  a", "    b", "  c"] 1 0 true "tag").map (fun r =>
          (r.children.map (fun c => c.LineNo), r.children.map (fun c => c.Children.map
            (fun d => d.LineNo)), r.cursor, r.err)) =
      some ([2, 4], [[3], []], 4, none) := by decide!
  refine ⟨rfl, rfl, by decide, by decide, by decide, heval, ?_⟩
  rintro ⟨r, hr, hlines⟩
  rw [hr] at heval
  simp only [Option.map_some', Option.some.injEq, Prod.mk.injEq] at heval
  rw [hlines] at heval
  exact absurd heval.1 (by decide)

/-! ## One turn of the loop of Parse -/

theorem parseStep_blank (env : Env)
    (recur : Generator → String → Option (Generator × Except String Ptr))
    (lines : List String) (tpl : Ptr) (i : Nat) (g : Generator) (line : String)
    (hE : empty line = true) :
    parseStep env recur lines tpl i g line = some (.next (i + 1) g) := by
  simp [parseStep, hE]

theorem parseStep_indented (env : Env)
    (recur : Generator → String → Option (Generator × Except String Ptr))
    (lines : List String) (tpl : Ptr) (i : Nat) (g : Generator) (line : String)
    (hE : empty line = false) (hT : topElement line = false) :
    parseStep env recur lines tpl i g line = some (.next (i + 1) g) := by
  simp [parseStep, hE, hT]

theorem parseStep_extends_arity (env : Env)
    (recur : Generator → String → Option (Generator × Except String Ptr))
    (lines : List String) (tpl : Ptr) (i : Nat) (g : Generator) (line : String)
    (hE : empty line = false) (hT : topElement line = true) (hX : isExtends line = true)
    (hn : (Split (TrimSpace line) ' ').length ≠ 2) :
    parseStep env recur lines tpl i g line =
      some (.fail g (extendsTokensError (Split (TrimSpace line) ' ').length (i + 1))) := by
  simp [parseStep, hE, hT, hX, hn, extendsBlockTokensLen]

theorem parseStep_extends (env : Env)
    (recur : Generator → String → Option (Generator × Except String Ptr))
    (lines : List String) (tpl : Ptr) (i : Nat) (g : Generator) (line : String)
    (hE : empty line = false) (hT : topElement line = true) (hX : isExtends line = true)
    (hn : (Split (TrimSpace line) ' ').length = 2) :
    parseStep env recur lines tpl i g line =
      match recur g (env.Dir (g.store tpl).Path ++ (Split (TrimSpace line) ' ').getD 1 "" ++
          goldExtension) with
      | none => none
      | some (g2, .error err) => some (.fail g2 err)
      | some (g2, .ok superTpl) =>
        some (.next (i + 1)
          ((g2.modify superTpl fun t => { t with Sub := some tpl }).modify tpl
            fun t => { t with Super := some superTpl })) := by
  simp [parseStep, hE, hT, hX, hn, extendsBlockTokensLen]

theorem parseStep_block_arity (env : Env)
    (recur : Generator → String → Option (Generator × Except String Ptr))
    (lines : List String) (tpl : Ptr) (i : Nat) (g : Generator) (line : String)
    (hE : empty line = false) (hT : topElement line = true) (hX : isExtends line = false)
    (hS : (g.store tpl).Super.isSome = true) (hB : isBlock line = true)
    (hn : (Split (TrimSpace line) ' ').length ≠ 2) :
    parseStep env recur lines tpl i g line =
      some (.fail g (blockTokensError (Split (TrimSpace line) ' ').length (i + 1))) := by
  simp [parseStep, hE, hT, hX, hS, hB, hn, extendsBlockTokensLen]

theorem parseStep_block (env : Env)
    (recur : Generator → String → Option (Generator × Except String Ptr))
    (lines : List String) (tpl : Ptr) (i : Nat) (g : Generator) (line : String)
    (hE : empty line = false) (hT : topElement line = true) (hX : isExtends line = false)
    (hS : (g.store tpl).Super.isSome = true) (hB : isBlock line = true)
    (hn : (Split (TrimSpace line) ' ').length = 2) :
    parseStep env recur lines tpl i g line =
      match appendChildren env
          (.block ⟨(Split (TrimSpace line) ' ').getD 1 "", tpl, []⟩) lines (i + 1) indentTop
          false "" with
      | none => none
      | some r =>
        match r.err with
        | some err =>
          some (.fail (g.modify tpl fun t => t.AddBlock ((Split (TrimSpace line) ' ').getD 1 "")
            ⟨(Split (TrimSpace line) ' ').getD 1 "", tpl, r.children⟩) err)
        | none =>
          some (.next r.cursor
            (g.modify tpl fun t => t.AddBlock ((Split (TrimSpace line) ' ').getD 1 "")
              ⟨(Split (TrimSpace line) ' ').getD 1 "", tpl, r.children⟩)) := by
  simp only [parseStep, hE, hT, hX, hS, hB, hn, extendsBlockTokensLen]
  simp

theorem parseStep_element (env : Env)
    (recur : Generator → String → Option (Generator × Except String Ptr))
    (lines : List String) (tpl : Ptr) (i : Nat) (g : Generator) (line : String)
    (hE : empty line = false) (hT : topElement line = true) (hX : isExtends line = false)
    (hSB : ((g.store tpl).Super.isSome && isBlock line) = false) :
    parseStep env recur lines tpl i g line =
      match NewElement env line (i + 1) indentTop none (some tpl) none with
      | .error err => some (.fail g err)
      | .ok e =>
        match appendChildren env (.element e) lines (i + 1) indentTop e.RawContent e.Typ with
        | none => none
        | some r =>
          match r.err with
          | some err =>
            some (.fail (g.modify tpl fun t => t.AppendElement { e with Children := r.children })
              err)
          | none =>
            some (.next r.cursor
              (g.modify tpl fun t => t.AppendElement { e with Children := r.children })) := by
  simp only [parseStep, hE, hT, hX, hSB]
  simp

/-- Every turn of the loop of Parse moves the cursor forward, not past the end. -/
theorem parseStep_cursor (env : Env)
    (recur : Generator → String → Option (Generator × Except String Ptr))
    (lines : List String) (tpl : Ptr) (i : Nat) (g : Generator) (line : String)
    (i2 : Nat) (g2 : Generator)
    (h : parseStep env recur lines tpl i g line = some (.next i2 g2)) :
    i < i2 ∧ (i < lines.length → i2 ≤ lines.length) := by
  cases hE : empty line with
  | true =>
    rw [parseStep_blank env recur lines tpl i g line hE] at h
    cases h; omega
  | false =>
    cases hT : topElement line with
    | false =>
      rw [parseStep_indented env recur lines tpl i g line hE hT] at h
      cases h; omega
    | true =>
      cases hX : isExtends line with
      | true =>
        by_cases hn : (Split (TrimSpace line) ' ').length = 2
        · rw [parseStep_extends env recur lines tpl i g line hE hT hX hn] at h
          split at h
          · cases h
          · cases h
          · cases h; omega
        · rw [parseStep_extends_arity env recur lines tpl i g line hE hT hX hn] at h
          cases h
      | false =>
        cases hSB : ((g.store tpl).Super.isSome && isBlock line) with
        | true =>
          simp only [Bool.and_eq_true] at hSB
          by_cases hn : (Split (TrimSpace line) ' ').length = 2
          · rw [parseStep_block env recur lines tpl i g line hE hT hX hSB.1 hSB.2 hn] at h
            split at h
            · cases h
            · rename_i r hr
              have hc := appendChildren_cursor env _ _ _ _ _ _ _ hr
              split at h
              · cases h
              · cases h; omega
          · rw [parseStep_block_arity env recur lines tpl i g line hE hT hX hSB.1 hSB.2 hn] at h
            cases h
        | false =>
          rw [parseStep_element env recur lines tpl i g line hE hT hX hSB] at h
          split at h
          · cases h
          · split at h
            · cases h
            · rename_i r hr
              have hc := appendChildren_cursor env _ _ _ _ _ _ _ hr
              split at h
              · cases h
              · cases h; omega

theorem parseLoop_succ (env : Env)
    (recur : Generator → String → Option (Generator × Except String Ptr))
    (lines : List String) (tpl : Ptr) (fuel : Nat) :
    ∀ i g, lines.length - i ≤ fuel →
      parseLoop env recur lines tpl (fuel + 1) i g = parseLoop env recur lines tpl fuel i g := by
  induction fuel with
  | zero =>
    intro i g hf
    have hnone : lines[i]? = none := List.getElem?_eq_none (by omega)
    simp [parseLoop, hnone]
  | succ m ih =>
    intro i g hf
    cases hl : lines[i]? with
    | none => simp [parseLoop, hl]
    | some line =>
      have hlt : i < lines.length := (List.getElem?_eq_some_iff.mp hl).1
      rw [parseLoop, parseLoop]
      simp only [hl]
      cases hs : parseStep env recur lines tpl i g line with
      | none => rfl
      | some st =>
        cases st with
        | fail g2 err => rfl
        | next i2 g2 =>
          have hc := parseStep_cursor env recur lines tpl i g line i2 g2 hs
          exact ih i2 g2 (by omega)

theorem parseLoop_fuel (env : Env)
    (recur : Generator → String → Option (Generator × Except String Ptr))
    (lines : List String) (tpl : Ptr) (i : Nat) (g : Generator) (fuel : Nat)
    (hf : lines.length - i ≤ fuel) :
    parseLoop env recur lines tpl fuel i g = parseFrom env recur lines tpl i g := by
  unfold parseFrom
  induction fuel with
  | zero =>
    have h0 : lines.length - i = 0 := by omega
    rw [h0]
  | succ m ih =>
    by_cases hm : lines.length - i ≤ m
    · rw [parseLoop_succ env recur lines tpl m i g hm]; exact ih hm
    · have heq : lines.length - i = m + 1 := by omega
      rw [heq]

/-- The loop of Parse satisfies the equation of the source: at the end of the
lines it returns nil, and otherwise it does one turn and goes on. -/
theorem parseFrom_eq (env : Env)
    (recur : Generator → String → Option (Generator × Except String Ptr))
    (lines : List String) (tpl : Ptr) (i : Nat) (g : Generator) :
    parseFrom env recur lines tpl i g =
      match lines[i]? with
      | none => some (g, none)
      | some line =>
        match parseStep env recur lines tpl i g line with
        | none => none
        | some (.fail g2 err) => some (g2, some err)
        | some (.next i2 g2) => parseFrom env recur lines tpl i2 g2 := by
  cases hl : lines[i]? with
  | none =>
    unfold parseFrom
    cases hfu : lines.length - i <;> simp [parseLoop, hl]
  | some line =>
    have hlt : i < lines.length := (List.getElem?_eq_some_iff.mp hl).1
    unfold parseFrom
    obtain ⟨m, hm⟩ : ∃ m, lines.length - i = m + 1 := ⟨lines.length - i - 1, by omega⟩
    rw [hm, parseLoop]
    simp only [hl]
    cases hs : parseStep env recur lines tpl i g line with
    | none => rfl
    | some st =>
      cases st with
      | fail g2 err => rfl
      | next i2 g2 =>
        have hc := parseStep_cursor env recur lines tpl i g line i2 g2 hs
        exact parseLoop_fuel env recur lines tpl i2 g2 m (by omega)

theorem parseLines_eq_parseFrom (env : Env)
    (recur : Generator → String → Option (Generator × Except String Ptr))
    (lines : List String) (tpl : Ptr) (g : Generator) :
    parseLines env recur lines tpl g = parseFrom env recur lines tpl 0 g := rfl

/-- What the loop returns from a state it reaches is what it returns. -/
theorem parseFrom_of_reaches (env : Env)
    (recur : Generator → String → Option (Generator × Except String Ptr))
    (lines : List String) (tpl : Ptr) (i : Nat) (g : Generator) (j : Nat) (h : Generator)
    (hr : LoopReaches env recur lines tpl i g j h) :
    parseFrom env recur lines tpl i g = parseFrom env recur lines tpl j h := by
  induction hr with
  | here => rfl
  | turn i g line i2 g2 j h hl hs _ ih =>
    rw [parseFrom_eq env recur lines tpl i g]
    simp only [hl, hs]
    exact ih

theorem LoopReaches.append (env : Env)
    (recur : Generator → String → Option (Generator × Except String Ptr))
    (lines : List String) (tpl : Ptr) (i : Nat) (g : Generator) (j : Nat) (h : Generator)
    (k : Nat) (f : Generator)
    (h1 : LoopReaches env recur lines tpl i g j h) (h2 : LoopReaches env recur lines tpl j h k f) :
    LoopReaches env recur lines tpl i g k f := by
  induction h1 with
  | here => exact h2
  | turn i g line i2 g2 j h hl hs _ ih => exact .turn i g line i2 g2 k f hl hs (ih h2)

/-- The loop of Parse passes over blank lines without any effect. -/
theorem LoopReaches.blank (env : Env)
    (recur : Generator → String → Option (Generator × Except String Ptr))
    (lines : List String) (tpl : Ptr) (g : Generator) (n : Nat) :
    ∀ i, (∀ k, i ≤ k → k < i + n → ∃ l, lines[k]? = some l ∧ empty l = true) →
      LoopReaches env recur lines tpl i g (i + n) g := by
  induction n with
  | zero => intro i _; exact .here i g
  | succ n ih =>
    intro i h
    obtain ⟨l, hl, hE⟩ := h i (Nat.le_refl i) (by omega)
    have hrest := ih (i + 1) (fun k h1 h2 => h k (by omega) (by omega))
    have heq : i + 1 + n = i + (n + 1) := by omega
    rw [heq] at hrest
    exact .turn i g l (i + 1) g _ g hl (parseStep_blank env recur lines tpl i g l hE) hrest

theorem isBlock_head (line : String) (h : isBlock line = true) :
    ∃ rest, line.data = 'b' :: rest := by
  obtain ⟨cs⟩ := line
  cases cs with
  | nil => exact absurd h (by decide)
  | cons c rest =>
    refine ⟨rest, ?_⟩
    simp only [isBlock, HasPrefix, Bool.or_eq_true, beq_iff_eq] at h
    rcases h with h | h
    · simp only [List.isPrefixOf, Bool.and_eq_true, beq_iff_eq] at h
      rw [h.1]
    · have : (String.mk (c :: rest)).data = "block".data := by rw [h]
      have h2 : "block".data = ['b', 'l', 'o', 'c', 'k'] := rfl
      rw [h2] at this
      simp only [List.cons.injEq] at this
      rw [this.1]

theorem isExtends_head (line : String) (h : isExtends line = true) :
    ∃ rest, line.data = 'e' :: rest := by
  obtain ⟨cs⟩ := line
  cases cs with
  | nil => exact absurd h (by decide)
  | cons c rest =>
    refine ⟨rest, ?_⟩
    simp only [isExtends, HasPrefix, Bool.or_eq_true, beq_iff_eq] at h
    rcases h with h | h
    · simp only [List.isPrefixOf, Bool.and_eq_true, beq_iff_eq] at h
      rw [h.1]
    · have : (String.mk (c :: rest)).data = "extends".data := by rw [h]
      have h2 : "extends".data = ['e', 'x', 't', 'e', 'n', 'd', 's'] := rfl
      rw [h2] at this
      simp only [List.cons.injEq] at this
      rw [this.1]

/-- A line cannot be a block line and an extends line at once. -/
theorem isBlock_not_isExtends (line : String) (h : isBlock line = true) :
    isExtends line = false := by
  cases hX : isExtends line with
  | false => rfl
  | true =>
    obtain ⟨r1, h1⟩ := isBlock_head line h
    obtain ⟨r2, h2⟩ := isExtends_head line hX
    rw [h1] at h2
    simp only [List.cons.injEq] at h2
    exact absurd h2.1 (by decide)

/-- The method Parse when the path is not served from the cache and the file
is read: a new Template, the loop over the lines, and the storing of the
Template when the loop returns nil. -/
theorem Parse_miss (env : Env) (fuel : Nat) (g : Generator) (path : String) (b : String)
    (hmiss : (if g.cache then g.gtemplates.lookup path else none) = none)
    (hread : env.ReadFile path = .ok b) :
    Parse env (fuel + 1) g path =
      match parseFrom env (Parse env fuel) (Split (formatLf b) '\n') g.next 0
          (NewTemplate g path).1 with
      | none => none
      | some (g2, some err) => some (g2, .error err)
      | some (g2, none) =>
        some (if g2.cache then g2.storeTemplate path g.next else g2, .ok g.next) := by
  rw [Parse]
  simp only [hmiss, hread, parseLines_eq_parseFrom, NewTemplate]

/-- The method Parse when the path is served from the cache. -/
theorem Parse_hit (env : Env) (fuel : Nat) (g : Generator) (path : String) (tpl : Ptr)
    (hc : g.cache = true) (hhit : g.gtemplates.lookup path = some tpl) :
    Parse env (fuel + 1) g path = some (g, .ok tpl) := by
  rw [Parse]
  simp [hc, hhit]

/-! ## The directives of the loop of Parse -/

/-- C5, as amended: when the path is not served from the cache (caching is off,
or the cache holds no Template for the path) and the file is read, a first
non-blank line that is a top-level extends line of n tokens, n other than 2,
makes Parse return the arity error with the expected count 2, the count n and
the 1-based number of the line, and no Template; a top-level block line of n
tokens, n other than 2, that the loop reaches while Super is set makes Parse
return the arity error of block lines with the same three numbers. -/
theorem Parse_directive_arity (env : Env) (fuel : Nat) (g : Generator) (path : String)
    (b : String)
    (hmiss : (if g.cache then g.gtemplates.lookup path else none) = none)
    (hread : env.ReadFile path = .ok b) :
    (∀ k line,
      (∀ j, j < k → ∃ l, (Split (formatLf b) '\n')[j]? = some l ∧ empty l = true) →
      (Split (formatLf b) '\n')[k]? = some line → empty line = false →
      topElement line = true → isExtends line = true →
      (Split (TrimSpace line) ' ').length ≠ 2 →
      Parse env (fuel + 1) g path =
        some ((NewTemplate g path).1,
          .error ("The line tokens length is invalid. (expected: " ++ toString 2 ++
            ", actual: " ++ toString (Split (TrimSpace line) ' ').length ++
            ", line no: " ++ toString (k + 1) ++ ")"))) ∧
    (∀ i gi line,
      LoopReaches env (Parse env fuel) (Split (formatLf b) '\n') g.next 0 (NewTemplate g path).1
        i gi →
      (Split (formatLf b) '\n')[i]? = some line → empty line = false →
      topElement line = true → isBlock line = true →
      (gi.store g.next).Super.isSome = true →
      (Split (TrimSpace line) ' ').length ≠ 2 →
      Parse env (fuel + 1) g path =
        some (gi,
          .error ("The lien tokens length is invalid. (expected: " ++ toString 2 ++
            ", actual: " ++ toString (Split (TrimSpace line) ' ').length ++
            ", line no: " ++ toString (i + 1) ++ ")"))) := by
  constructor
  · intro k line hblank hl hE hT hX hn
    have hreach := LoopReaches.blank env (Parse env fuel) (Split (formatLf b) '\n') g.next
      (NewTemplate g path).1 k 0 (fun j _ h2 => hblank j (by omega))
    rw [Parse_miss env fuel g path b hmiss hread,
      parseFrom_of_reaches env _ _ _ _ _ _ _ hreach, parseFrom_eq]
    simp only [Nat.zero_add, hl,
      parseStep_extends_arity env _ _ g.next k _ line hE hT hX hn]
    rfl
  · intro i gi line hreach hl hE hT hB hS hn
    rw [Parse_miss env fuel g path b hmiss hread,
      parseFrom_of_reaches env _ _ _ _ _ _ _ hreach, parseFrom_eq]
    simp only [hl, parseStep_block_arity env _ _ g.next i gi line hE hT
      (isBlock_not_isExtends line hB) hS hB hn]
    rfl

/-- C5, as amended, on an instance: arity.gold has the line `extends a b` as
line 2, after a blank line; arity2.gold has the line `block a b` as line 2,
after a well-formed extends line. -/
theorem Parse_directive_arity_witness :
    Parse sampleEnv 1 (NewGenerator true) "arity.gold" =
      some ((NewTemplate (NewGenerator true) "arity.gold").1,
        .error ("The line tokens length is invalid. (expected: " ++ toString 2 ++
          ", actual: " ++ toString (Split (TrimSpace "extends a b") ' ').length ++
          ", line no: " ++ toString (1 + 1) ++ ")")) ∧
    ∃ gi, Parse sampleEnv 2 (NewGenerator false) "arity2.gold" =
      some (gi,
        .error ("The lien tokens length is invalid. (expected: " ++ toString 2 ++
          ", actual: " ++ toString (Split (TrimSpace "block a b") ' ').length ++
          ", line no: " ++ toString (1 + 1) ++ ")")) :=
  ⟨(Parse_directive_arity sampleEnv 0 (NewGenerator true) "arity.gold" "\nextends a b\n" rfl
      rfl).1 1 "extends a b"
      (fun j h2 => by
        have hj : j = 0 := by omega
        subst hj
        exact ⟨"", rfl, by decide⟩)
      (by decide) (by decide) (by decide) (by decide) (by decide),
   ⟨_, (Parse_directive_arity sampleEnv 1 (NewGenerator false) "arity2.gold"
      "extends empty\nblock a b\n" rfl rfl).2 1 _ "block a b"
      (.turn 0 _ "extends empty" 1 _ 1 _ (by decide) rfl (.here 1 _))
      (by decide) (by decide) (by decide) (by decide) rfl (by decide)⟩⟩

/-- C5 fails as stated: with caching on, after b.gold was parsed and stored and
then edited so that its first line is `extends base too`, of three tokens,
Parse returns the stored Template 0 and no error; on an empty cache the same
file gives an error. -/
theorem Parse_directive_arity_counterexample :
    (Split (formatLf "extends base too\n") '\n')[0]? = some "extends base too" ∧
    empty "extends base too" = false ∧ topElement "extends base too" = true ∧
    isExtends "extends base too" = true ∧
    (Split (TrimSpace "extends base too") ' ').length = 3 ∧
    ((Parse sampleEnv 2 (NewGenerator true) "b.gold").bind fun r =>
      (Parse sampleEnvLater 2 r.1 "b.gold").map fun r2 =>
        (r.1.cache, r.1.gtemplates.lookup "b.gold", r2.2.toOption)) =
      some (true, some 0, some 0) ∧
    (Parse sampleEnvLater 2 (NewGenerator true) "b.gold").map (fun r => r.2.toOption) =
      some none := by
  refine ⟨by decide, by decide, by decide, by decide, by decide, by decide!, by decide!⟩

/-! ## What appendChildren passes over -/

/-- Every line appendChildren passes over is blank or deeper than the parent. -/
theorem appendChildrenFuel_consumed (env : Env) (fuel : Nat) :
    ∀ parent lines i pI raw ty r,
      appendChildrenFuel env fuel parent lines i pI raw ty = some r →
      ∀ k, i ≤ k → k < r.cursor →
        ∃ l, lines[k]? = some l ∧ (empty l = true ∨ pI + 1 ≤ indent l) := by
  induction fuel with
  | zero => intro _ _ _ _ _ _ _ h; simp [appendChildrenFuel] at h
  | succ n ih =>
    intro parent lines i pI raw ty r h k hk1 hk2
    simp only [appendChildrenFuel] at h
    rcases appendChildrenBody_cases env parent lines i pI raw ty with
      ⟨_, h1⟩ | ⟨line, hl, hE, h1⟩ | ⟨line, _, _, _, h1⟩ | ⟨line, hl, hE, hge, h1⟩ |
      ⟨line, _, _, _, msg, h1⟩
    · rw [h1] at h; cases h; simp only at hk2; omega
    · rw [h1] at h
      by_cases hki : k = i
      · subst hki; exact ⟨line, hl, Or.inl hE⟩
      · exact ih _ _ _ _ _ _ _ h k (by omega) hk2
    · rw [h1] at h; cases h; simp only at hk2; omega
    · rw [h1] at h
      unfold admitChild at h
      rcases appendChild_cases env (appendChildrenFuel env n) parent line (indent line) lines i with
        ⟨err, _, h2⟩ | ⟨child, _, h2⟩
      · rw [h2] at h; simp only at h; cases h; simp only at hk2; omega
      · rw [h2] at h
        cases hrec : appendChildrenFuel env n (.element child) lines (i + 1) (indent line)
            child.RawContent child.Typ with
        | none => rw [hrec] at h; simp at h
        | some r1 =>
          rw [hrec] at h
          simp only [Option.map_some'] at h
          have hin : ∀ k, i ≤ k → k < r1.cursor →
              ∃ l, lines[k]? = some l ∧ (empty l = true ∨ pI + 1 ≤ indent l) := by
            intro k hk1 hk2
            by_cases hki : k = i
            · subst hki; exact ⟨line, hl, Or.inr hge⟩
            · obtain ⟨l, hl2, hd⟩ := ih _ _ _ _ _ _ _ hrec k (by omega) hk2
              refine ⟨l, hl2, ?_⟩
              rcases hd with hd | hd
              · exact Or.inl hd
              · exact Or.inr (by omega)
          cases he : r1.err with
          | some e => simp only [he] at h; cases h; exact hin k hk1 hk2
          | none =>
            simp only [he] at h
            by_cases hkc : k < r1.cursor
            · exact hin k hk1 hkc
            · exact ih _ _ _ _ _ _ _ h k (by omega) hk2
    · rw [h1] at h; cases h; simp only at hk2; omega

theorem appendChildren_consumed (env : Env) (parent : Container) (lines : List String)
    (i pI : Nat) (raw : Bool) (ty : String) (r : Res)
    (h : appendChildren env parent lines i pI raw ty = some r) :
    ∀ k, i ≤ k → k < r.cursor →
      ∃ l, lines[k]? = some l ∧ (empty l = true ∨ pI + 1 ≤ indent l) :=
  appendChildrenFuel_consumed env _ _ _ _ _ _ _ _ h

/-! ## Writing a Template through its pointer -/

@[simp] theorem Generator.modify_store_same (g : Generator) (p : Ptr) (f : Template → Template) :
    (g.modify p f).store p = f (g.store p) := by
  simp [Generator.modify]

theorem Generator.modify_store_other (g : Generator) (p q : Nat) (f : Template → Template)
    (h : q ≠ p) : (g.modify p f).store q = g.store q := by
  simp [Generator.modify, Function.update, h]

@[simp] theorem Generator.modify_cache (g : Generator) (p : Ptr) (f : Template → Template) :
    (g.modify p f).cache = g.cache := rfl

@[simp] theorem Generator.modify_gtemplates (g : Generator) (p : Ptr) (f : Template → Template) :
    (g.modify p f).gtemplates = g.gtemplates := rfl

@[simp] theorem Generator.modify_next (g : Generator) (p : Ptr) (f : Template → Template) :
    (g.modify p f).next = g.next := rfl

theorem lookup_filter_ne (name : String) (bs : List (String × Block)) :
    (bs.filter fun kv => kv.1 != name).lookup name = none := by
  induction bs with
  | nil => rfl
  | cons kv rest ih =>
    by_cases h : kv.1 = name
    · simp [List.filter, h, ih]
    · have hne : (kv.1 != name) = true := by simp [h]
      have hne2 : (name == kv.1) = false := by
        simp only [beq_eq_false_iff_ne, ne_eq]
        exact fun h2 => h h2.symm
      simp only [List.filter, hne]
      obtain ⟨k, v⟩ := kv
      simp only [List.lookup]
      simp only at hne2
      rw [hne2]
      exact ih

/-- After AddBlock the block map gives the block under its name. -/
theorem Template.lookup_addBlock (t : Template) (name : String) (block : Block) :
    (t.AddBlock name block).Blocks.lookup name = some block := by
  simp only [Template.AddBlock]
  rw [List.lookup_append, lookup_filter_ne]
  simp [List.lookup]

/-! ## A file without extends lines -/

theorem topLevelFrom_drop (lines : List String) (i : Nat) (line : String)
    (hl : lines[i]? = some line) :
    topLevelFrom (lines.drop i) i =
      (if !empty line && topElement line then [(i + 1, line)] else []) ++
        topLevelFrom (lines.drop (i + 1)) (i + 1) := by
  obtain ⟨hlt, hget⟩ := List.getElem?_eq_some_iff.mp hl
  rw [List.drop_eq_getElem_cons hlt, hget, topLevelFrom]
  split <;> simp

theorem topLevelFrom_skip (lines : List String) (n : Nat) :
    ∀ i, (∀ k, i ≤ k → k < i + n → ∃ l, lines[k]? = some l ∧ (empty l = true ∨ 1 ≤ indent l)) →
      topLevelFrom (lines.drop i) i = topLevelFrom (lines.drop (i + n)) (i + n) := by
  induction n with
  | zero => intro i _; rfl
  | succ n ih =>
    intro i h
    obtain ⟨l, hl, hd⟩ := h i (Nat.le_refl i) (by omega)
    rw [topLevelFrom_drop lines i l hl]
    have hcond : (!empty l && topElement l) = false := by
      rcases hd with hd | hd
      · simp [hd]
      · have : topElement l = false := by
          simp only [topElement, indentTop, beq_eq_false_iff_ne, ne_eq]
          omega
        simp [this]
    rw [hcond, ih (i + 1) (fun k h1 h2 => h k (by omega) (by omega))]
    have heq : i + 1 + n = i + (n + 1) := by omega
    simp [heq]

/-- A turn of the loop of Parse on a line that is not an extends line, while
Super is not set: the turn returns, Super stays unset, the block map is not
written, and the only Element appended is that of a top-level line. -/
theorem parseStep_noExtends (env : Env)
    (recur : Generator → String → Option (Generator × Except String Ptr))
    (lines : List String) (tpl : Ptr) (i : Nat) (g : Generator) (line : String)
    (hl : lines[i]? = some line) (hX : isExtends line = false)
    (hS : (g.store tpl).Super = none) :
    ∃ st, parseStep env recur lines tpl i g line = some st ∧
      ∀ i2 g2, st = .next i2 g2 →
        (g2.store tpl).Super = none ∧ (g2.store tpl).Blocks = (g.store tpl).Blocks ∧
        ∃ es, (g2.store tpl).Elements = (g.store tpl).Elements ++ es ∧
          es.map (fun e => (e.LineNo, e.Text)) ++ topLevelFrom (lines.drop i2) i2 =
            topLevelFrom (lines.drop i) i := by
  have hdrop := topLevelFrom_drop lines i line hl
  cases hE : empty line with
  | true =>
    refine ⟨_, parseStep_blank env recur lines tpl i g line hE, ?_⟩
    intro i2 g2 h
    cases h
    refine ⟨hS, rfl, [], by simp, ?_⟩
    rw [hdrop]; simp [hE]
  | false =>
    cases hT : topElement line with
    | false =>
      refine ⟨_, parseStep_indented env recur lines tpl i g line hE hT, ?_⟩
      intro i2 g2 h
      cases h
      refine ⟨hS, rfl, [], by simp, ?_⟩
      rw [hdrop]; simp [hT]
    | true =>
      have hSB : ((g.store tpl).Super.isSome && isBlock line) = false := by simp [hS]
      rw [parseStep_element env recur lines tpl i g line hE hT hX hSB]
      cases hne : NewElement env line (i + 1) indentTop none (some tpl) none with
      | error err =>
        refine ⟨_, rfl, ?_⟩
        intro i2 g2 h; cases h
      | ok e =>
        obtain ⟨r, hr⟩ := appendChildren_isSome env (.element e) lines (i + 1) indentTop
          e.RawContent e.Typ
        simp only [hr]
        cases herr : r.err with
        | some err =>
          refine ⟨_, rfl, ?_⟩
          intro i2 g2 h; cases h
        | none =>
          refine ⟨_, rfl, ?_⟩
          intro i2 g2 h
          cases h
          have hc := appendChildren_cursor env _ _ _ _ _ _ _ hr
          have hcons := appendChildren_consumed env _ _ _ _ _ _ _ hr
          have hf : e.LineNo = i + 1 ∧ e.Text = line := by
            unfold NewElement at hne
            split at hne
            · cases hne
            · cases hne; exact ⟨rfl, rfl⟩
          refine ⟨by simp [Template.AppendElement, hS], by simp [Template.AppendElement],
            [{ e with Children := r.children }],
            by simp [Template.AppendElement], ?_⟩
          rw [hdrop]
          obtain ⟨d, hd⟩ : ∃ d, r.cursor = i + 1 + d := ⟨r.cursor - (i + 1), by omega⟩
          have hskip := topLevelFrom_skip lines d (i + 1) (fun k h1 h2 => by
            obtain ⟨l, hl2, hd2⟩ := hcons k h1 (by omega)
            exact ⟨l, hl2, by simpa [indentTop] using hd2⟩)
          rw [hskip, ← hd]
          simp [hE, hT, hf.1, hf.2]

/-- The loop of Parse over lines none of which is an extends line, from a state
where Super is not set: the loop returns, and when it returns nil the block
map is as it was and the Elements appended are those of the top-level lines
from the cursor on, in their order. -/
theorem parseFrom_noExtends (env : Env)
    (recur : Generator → String → Option (Generator × Except String Ptr))
    (lines : List String) (tpl : Ptr) (hno : ∀ line ∈ lines, isExtends line = false) (n : Nat) :
    ∀ i g, lines.length - i ≤ n → (g.store tpl).Super = none →
      ∃ res, parseFrom env recur lines tpl i g = some res ∧
        (res.2 = none →
          (res.1.store tpl).Super = none ∧ (res.1.store tpl).Blocks = (g.store tpl).Blocks ∧
          ∃ es, (res.1.store tpl).Elements = (g.store tpl).Elements ++ es ∧
            es.map (fun e => (e.LineNo, e.Text)) = topLevelFrom (lines.drop i) i) := by
  induction n with
  | zero =>
    intro i g hn hS
    have hnone : lines[i]? = none := List.getElem?_eq_none (by omega)
    rw [parseFrom_eq]
    simp only [hnone]
    refine ⟨_, rfl, fun _ => ⟨hS, rfl, [], by simp, ?_⟩⟩
    rw [List.drop_eq_nil_of_le (by omega)]
    rfl
  | succ n ih =>
    intro i g hn hS
    rw [parseFrom_eq]
    cases hl : lines[i]? with
    | none =>
      simp only
      refine ⟨_, rfl, fun _ => ⟨hS, rfl, [], by simp, ?_⟩⟩
      have hlen : lines.length ≤ i := by
        by_contra hc
        have : lines[i]? = some lines[i] := List.getElem?_eq_getElem (by omega)
        rw [hl] at this; cases this
      rw [List.drop_eq_nil_of_le hlen]
      rfl
    | some line =>
      have hX : isExtends line = false := hno line (List.getElem?_mem hl)
      have hlt : i < lines.length := (List.getElem?_eq_some_iff.mp hl).1
      obtain ⟨st, hst, hnext⟩ := parseStep_noExtends env recur lines tpl i g line hl hX hS
      simp only [hst]
      cases st with
      | fail g2 err =>
        refine ⟨_, rfl, ?_⟩
        intro h; cases h
      | next i2 g2 =>
        simp only
        have hc := parseStep_cursor env recur lines tpl i g line i2 g2 hst
        obtain ⟨hS2, hB2, es, hes, htop⟩ := hnext i2 g2 rfl
        obtain ⟨res, hres, hprop⟩ := ih i2 g2 (by omega) hS2
        refine ⟨res, hres, ?_⟩
        intro hok
        obtain ⟨hS3, hB3, es2, hes2, htop2⟩ := hprop hok
        refine ⟨hS3, by rw [hB3, hB2], es ++ es2, by rw [hes2, hes, List.append_assoc], ?_⟩
        rw [List.map_append, htop2, htop]

/-- C6: a well-formed top-level line `block N` under the cursor of the loop of
Parse.  When Super is set, appendChildren is run on a new Block named N owned
by the template, the Block is registered under N in the block map and Elements
is not written.  When Super is not set, the line is handled as any other
top-level line: once its Element is built, it is appended to Elements with the
children appendChildren gives it, and the block map is not written.  And over
lines without any extends line, the loop started on a new Template returns,
and when it returns nil the block map is empty and Elements holds one Element
per top-level non-blank line, in source order; so does Parse on such a file
that it reads. -/
theorem parseStep_block_line (env : Env)
    (recur : Generator → String → Option (Generator × Except String Ptr))
    (lines : List String) (tpl : Ptr) (i : Nat) (g : Generator) (line tok N : String)
    (hE : empty line = false) (hT : topElement line = true) (hB : isBlock line = true)
    (htok : Split (TrimSpace line) ' ' = [tok, N]) :
    ((g.store tpl).Super.isSome = true →
      ∃ r g2, appendChildren env (.block ⟨N, tpl, []⟩) lines (i + 1) indentTop false "" = some r ∧
        parseStep env recur lines tpl i g line =
          some (match r.err with
            | some err => .fail g2 err
            | none => .next r.cursor g2) ∧
        (g2.store tpl).Blocks.lookup N = some ⟨N, tpl, r.children⟩ ∧
        (g2.store tpl).Elements = (g.store tpl).Elements) ∧
    ((g.store tpl).Super = none →
      ∀ e, NewElement env line (i + 1) indentTop none (some tpl) none = .ok e →
        e.Text = line ∧ e.LineNo = i + 1 ∧
        ∃ r g2, appendChildren env (.element e) lines (i + 1) indentTop e.RawContent e.Typ =
            some r ∧
          parseStep env recur lines tpl i g line =
            some (match r.err with
              | some err => .fail g2 err
              | none => .next r.cursor g2) ∧
          (g2.store tpl).Elements = (g.store tpl).Elements ++ [{ e with Children := r.children }] ∧
          (g2.store tpl).Blocks = (g.store tpl).Blocks) ∧
    (∀ (g0 : Generator) (path : String), (∀ l ∈ lines, isExtends l = false) →
      ∃ res, parseLines env recur lines g0.next (NewTemplate g0 path).1 = some res ∧
        (res.2 = none →
          (res.1.store g0.next).Blocks = [] ∧
          (res.1.store g0.next).Elements.map (fun e => (e.LineNo, e.Text)) =
            topLevelLines lines)) ∧
    (∀ (fuel : Nat) (g0 : Generator) (path b : String),
      (if g0.cache then g0.gtemplates.lookup path else none) = none →
      env.ReadFile path = .ok b →
      (∀ l ∈ Split (formatLf b) '\n', isExtends l = false) →
      ∃ g2 res, Parse env (fuel + 1) g0 path = some (g2, res) ∧
        ∀ p, res = .ok p →
          p = g0.next ∧ (g2.store p).Super = none ∧ (g2.store p).Blocks = [] ∧
          (g2.store p).Elements.map (fun e => (e.LineNo, e.Text)) =
            topLevelLines (Split (formatLf b) '\n')) := by
  have hX : isExtends line = false := isBlock_not_isExtends line hB
  have hn : (Split (TrimSpace line) ' ').length = 2 := by rw [htok]; rfl
  have hN : (Split (TrimSpace line) ' ').getD 1 "" = N := by rw [htok]; rfl
  have hfresh : ∀ (g0 : Generator) (path : String) (rc : Generator → String →
      Option (Generator × Except String Ptr)) (ls : List String),
      (∀ l ∈ ls, isExtends l = false) →
      ∃ res, parseFrom env rc ls g0.next 0 (NewTemplate g0 path).1 = some res ∧
        (res.2 = none →
          (res.1.store g0.next).Super = none ∧ (res.1.store g0.next).Blocks = [] ∧
          (res.1.store g0.next).Elements.map (fun e => (e.LineNo, e.Text)) =
            topLevelLines ls) := by
    intro g0 path rc ls hno
    have hst : ((NewTemplate g0 path).1.store g0.next) = ⟨path, none, none, [], []⟩ := by
      simp [NewTemplate]
    obtain ⟨res, hres, hprop⟩ := parseFrom_noExtends env rc ls g0.next hno ls.length 0
      (NewTemplate g0 path).1 (by omega) (by rw [hst])
    refine ⟨res, hres, fun hok => ?_⟩
    obtain ⟨hS, hBl, es, hes, htop⟩ := hprop hok
    rw [hst] at hBl hes
    refine ⟨hS, hBl, ?_⟩
    rw [hes]
    simpa [topLevelLines] using htop
  refine ⟨?_, ?_, ?_, ?_⟩
  · intro hS
    obtain ⟨r, hr⟩ := appendChildren_isSome env (.block ⟨N, tpl, []⟩) lines (i + 1) indentTop
      false ""
    refine ⟨r, g.modify tpl fun t => t.AddBlock N ⟨N, tpl, r.children⟩, hr, ?_, ?_, ?_⟩
    · rw [parseStep_block env recur lines tpl i g line hE hT hX hS hB hn, hN, hr]
      cases he : r.err <;> simp only [he]
    · rw [Generator.modify_store_same, Template.lookup_addBlock]
    · rw [Generator.modify_store_same]; rfl
  · intro hS e he
    have hSB : ((g.store tpl).Super.isSome && isBlock line) = false := by simp [hS]
    have hf : e.Text = line ∧ e.LineNo = i + 1 := by
      unfold NewElement at he
      split at he
      · cases he
      · cases he; exact ⟨rfl, rfl⟩
    obtain ⟨r, hr⟩ := appendChildren_isSome env (.element e) lines (i + 1) indentTop
      e.RawContent e.Typ
    refine ⟨hf.1, hf.2, r,
      g.modify tpl fun t => t.AppendElement { e with Children := r.children }, hr, ?_, ?_, ?_⟩
    · rw [parseStep_element env recur lines tpl i g line hE hT hX hSB, he]
      simp only [hr]
      cases he : r.err <;> simp only [he]
    · rw [Generator.modify_store_same]; rfl
    · rw [Generator.modify_store_same]; rfl
  · intro g0 path hno
    obtain ⟨res, hres, hprop⟩ := hfresh g0 path recur lines hno
    exact ⟨res, hres, fun hok => (hprop hok).2⟩
  · intro fuel g0 path b hmiss hread hno
    obtain ⟨res, hres, hprop⟩ := hfresh g0 path (Parse env fuel) (Split (formatLf b) '\n') hno
    rw [Parse_miss env fuel g0 path b hmiss hread, hres]
    obtain ⟨g2, oerr⟩ := res
    cases oerr with
    | some err =>
      refine ⟨g2, .error err, rfl, ?_⟩
      intro p hp; cases hp
    | none =>
      refine ⟨_, _, rfl, ?_⟩
      intro p hp
      cases hp
      obtain ⟨h1, h2, h3⟩ := hprop rfl
      have hstore : (if g2.cache then g2.storeTemplate path g0.next else g2).store = g2.store := by
        split <;> rfl
      rw [hstore]
      exact ⟨rfl, h1, h2, h3⟩

/-- C6, on an instance: plain.gold has `block greeting` as its only top-level
line and no extends line.  On a Template with a Super link the line registers
the Block greeting; on the new Template it is appended as an Element; and Parse
gives a Template with an empty block map whose Elements are that of line 1. -/
theorem parseStep_block_line_witness :
    (∃ r g2, appendChildren sampleEnv (.block ⟨"greeting", 0, []⟩) ["block greeting", ""]
          (0 + 1) indentTop false "" = some r ∧
        parseStep sampleEnv (fun _ _ => none) ["block greeting", ""] 0 0 sampleExtending
            "block greeting" =
          some (match r.err with
            | some err => .fail g2 err
            | none => .next r.cursor g2) ∧
        (g2.store 0).Blocks.lookup "greeting" = some ⟨"greeting", 0, r.children⟩ ∧
        (g2.store 0).Elements = (sampleExtending.store 0).Elements) ∧
    (sampleBlockElement.Text = "block greeting" ∧ sampleBlockElement.LineNo = 0 + 1 ∧
      ∃ r g2, appendChildren sampleEnv (.element sampleBlockElement) ["block greeting", ""]
            (0 + 1) indentTop sampleBlockElement.RawContent sampleBlockElement.Typ = some r ∧
          parseStep sampleEnv (fun _ _ => none) ["block greeting", ""] 0 0 (NewGenerator false)
              "block greeting" =
            some (match r.err with
              | some err => .fail g2 err
              | none => .next r.cursor g2) ∧
          (g2.store 0).Elements = ((NewGenerator false).store 0).Elements ++
            [{ sampleBlockElement with Children := r.children }] ∧
          (g2.store 0).Blocks = ((NewGenerator false).store 0).Blocks) ∧
    ∃ g2 res, Parse sampleEnv 1 (NewGenerator false) "plain.gold" = some (g2, res) ∧
      ∀ p, res = .ok p →
        p = (NewGenerator false).next ∧ (g2.store p).Super = none ∧ (g2.store p).Blocks = [] ∧
        (g2.store p).Elements.map (fun e => (e.LineNo, e.Text)) =
          topLevelLines (Split (formatLf "block greeting\n") '\n') :=
  ⟨(parseStep_block_line sampleEnv (fun _ _ => none) ["block greeting", ""] 0 0
      sampleExtending "block greeting" "block" "greeting"
      (by decide) (by decide) (by decide) (by decide)).1 rfl,
   (parseStep_block_line sampleEnv (fun _ _ => none) ["block greeting", ""] 0 0
      (NewGenerator false) "block greeting" "block" "greeting"
      (by decide) (by decide) (by decide) (by decide)).2.1 rfl sampleBlockElement rfl,
   (parseStep_block_line sampleEnv (fun _ _ => none) ["block greeting", ""] 0 0
      (NewGenerator false) "block greeting" "block" "greeting"
      (by decide) (by decide) (by decide) (by decide)).2.2.2 0 (NewGenerator false) "plain.gold"
      "block greeting\n" rfl rfl (by decide)⟩

/-! ## Invariants of the loop of Parse -/

/-- A relation between generators that every turn of the loop keeps, from the
cursor i0 on, holds between the generator the loop starts with and the one it
returns. -/
theorem parseFrom_invariant (env : Env)
    (recur : Generator → String → Option (Generator × Except String Ptr))
    (lines : List String) (tpl : Ptr) (R : Generator → Generator → Prop) (i0 : Nat)
    (hrefl : ∀ g, R g g) (htrans : ∀ a b c, R a b → R b c → R a c)
    (hstep : ∀ i g line st, i0 ≤ i → lines[i]? = some line →
      parseStep env recur lines tpl i g line = some st → R g st.gen) (n : Nat) :
    ∀ i g res, i0 ≤ i → lines.length - i ≤ n →
      parseFrom env recur lines tpl i g = some res → R g res.1 := by
  induction n with
  | zero =>
    intro i g res _ hn h
    have hnone : lines[i]? = none := List.getElem?_eq_none (by omega)
    rw [parseFrom_eq] at h
    simp only [hnone] at h
    cases h
    exact hrefl g
  | succ n ih =>
    intro i g res hi hn h
    rw [parseFrom_eq] at h
    cases hl : lines[i]? with
    | none =>
      simp only [hl] at h
      cases h
      exact hrefl g
    | some line =>
      simp only [hl] at h
      have hlt : i < lines.length := (List.getElem?_eq_some_iff.mp hl).1
      cases hs : parseStep env recur lines tpl i g line with
      | none => simp only [hs] at h; cases h
      | some st =>
        have hR := hstep i g line st hi hl hs
        cases st with
        | fail g2 err =>
          simp only [hs] at h
          cases h
          exact hR
        | next i2 g2 =>
          simp only [hs] at h
          have hc := parseStep_cursor env recur lines tpl i g line i2 g2 hs
          exact htrans _ _ _ hR (ih i2 g2 res (by omega) (by omega) h)

theorem Generator.Frame.refl (tpl : Option Ptr) (g : Generator) : Generator.Frame tpl g g :=
  ⟨Nat.le_refl _, rfl, fun _ _ => ⟨rfl, fun _ => ⟨rfl, rfl, rfl⟩⟩⟩

theorem Generator.Frame.trans (tpl : Option Ptr) (a b c : Generator)
    (h1 : Generator.Frame tpl a b) (h2 : Generator.Frame tpl b c) : Generator.Frame tpl a c := by
  obtain ⟨hn1, hc1, hp1⟩ := h1
  obtain ⟨hn2, hc2, hp2⟩ := h2
  refine ⟨by omega, by rw [hc2, hc1], fun p hp => ?_⟩
  obtain ⟨ha, hb⟩ := hp1 p hp
  obtain ⟨hc, hd⟩ := hp2 p (by omega)
  refine ⟨by rw [hc, ha], fun hne => ?_⟩
  obtain ⟨x1, x2, x3⟩ := hb hne
  obtain ⟨y1, y2, y3⟩ := hd hne
  exact ⟨by rw [y1, x1], by rw [y2, x2], by rw [y3, x3]⟩

theorem Generator.Frame.weaken (tpl : Option Ptr) (a b : Generator)
    (h : Generator.Frame none a b) : Generator.Frame tpl a b := by
  obtain ⟨hn, hc, hp⟩ := h
  refine ⟨hn, hc, fun p hlt => ?_⟩
  obtain ⟨ha, hb⟩ := hp p hlt
  exact ⟨ha, fun _ => hb (by simp)⟩

/-- Writing the Template under construction, its path apart. -/
theorem Generator.Frame.modify_tpl (g : Generator) (tpl : Ptr) (f : Template → Template)
    (hf : ∀ t, (f t).Path = t.Path) : Generator.Frame (some tpl) g (g.modify tpl f) := by
  refine ⟨Nat.le_refl _, rfl, fun p _ => ?_⟩
  by_cases hp : p = tpl
  · subst hp
    refine ⟨by rw [Generator.modify_store_same, hf], fun hne => absurd rfl hne⟩
  · rw [Generator.modify_store_other g tpl p f hp]
    exact ⟨rfl, fun _ => ⟨rfl, rfl, rfl⟩⟩

/-- Writing the Sub link of any Template. -/
theorem Generator.Frame.modify_sub (g : Generator) (q : Ptr) (s : Option Ptr) :
    Generator.Frame none g (g.modify q fun t => { t with Sub := s }) := by
  refine ⟨Nat.le_refl _, rfl, fun p _ => ?_⟩
  by_cases hp : p = q
  · subst hp
    rw [Generator.modify_store_same]
    exact ⟨rfl, fun _ => ⟨rfl, rfl, rfl⟩⟩
  · rw [Generator.modify_store_other g q p _ hp]
    exact ⟨rfl, fun _ => ⟨rfl, rfl, rfl⟩⟩

/-- A turn of the loop of Parse keeps the frame around the Template under
construction, when the recursive calls keep the frame. -/
theorem parseStep_frame (env : Env)
    (recur : Generator → String → Option (Generator × Except String Ptr))
    (hrec : ∀ g path g2 res, recur g path = some (g2, res) → Generator.Frame none g g2)
    (lines : List String) (tpl : Ptr) (i : Nat) (g : Generator) (line : String) (st : Step)
    (h : parseStep env recur lines tpl i g line = some st) :
    Generator.Frame (some tpl) g st.gen := by
  cases hE : empty line with
  | true =>
    rw [parseStep_blank env recur lines tpl i g line hE] at h
    cases h; exact Generator.Frame.refl _ _
  | false =>
    cases hT : topElement line with
    | false =>
      rw [parseStep_indented env recur lines tpl i g line hE hT] at h
      cases h; exact Generator.Frame.refl _ _
    | true =>
      cases hX : isExtends line with
      | true =>
        by_cases hn : (Split (TrimSpace line) ' ').length = 2
        · rw [parseStep_extends env recur lines tpl i g line hE hT hX hn] at h
          split at h
          · cases h
          · rename_i g2 err hr
            cases h
            exact Generator.Frame.weaken _ _ _ (hrec _ _ _ _ hr)
          · rename_i g2 superTpl hr
            cases h
            refine Generator.Frame.trans _ _ _ _
              (Generator.Frame.weaken _ _ _ (hrec _ _ _ _ hr)) ?_
            refine Generator.Frame.trans _ _ _ _
              (Generator.Frame.weaken _ _ _ (Generator.Frame.modify_sub g2 superTpl (some tpl))) ?_
            simp only [Step.gen]
            apply Generator.Frame.modify_tpl
            intro t; rfl
        · rw [parseStep_extends_arity env recur lines tpl i g line hE hT hX hn] at h
          cases h; exact Generator.Frame.refl _ _
      | false =>
        cases hSB : ((g.store tpl).Super.isSome && isBlock line) with
        | true =>
          simp only [Bool.and_eq_true] at hSB
          by_cases hn : (Split (TrimSpace line) ' ').length = 2
          · rw [parseStep_block env recur lines tpl i g line hE hT hX hSB.1 hSB.2 hn] at h
            split at h
            · cases h
            · split at h <;> cases h <;> simp only [Step.gen] <;>
                apply Generator.Frame.modify_tpl <;> intro t <;> rfl
          · rw [parseStep_block_arity env recur lines tpl i g line hE hT hX hSB.1 hSB.2 hn] at h
            cases h; exact Generator.Frame.refl _ _
        | false =>
          rw [parseStep_element env recur lines tpl i g line hE hT hX hSB] at h
          split at h
          · cases h; exact Generator.Frame.refl _ _
          · split at h
            · cases h
            · split at h <;> cases h <;> simp only [Step.gen] <;>
                apply Generator.Frame.modify_tpl <;> intro t <;> rfl

/-- The method Parse keeps the frame: the Templates allocated before the call
keep their path, Super link, blocks and elements. -/
theorem Parse_frame (env : Env) (fuel : Nat) :
    ∀ g path g2 res, Parse env fuel g path = some (g2, res) → Generator.Frame none g g2 := by
  induction fuel with
  | zero => intro g path g2 res h; simp [Parse] at h
  | succ n ih =>
    intro g path g2 res h
    cases hhit : (if g.cache then g.gtemplates.lookup path else none) with
    | some tpl =>
      rw [Parse] at h
      simp only [hhit] at h
      cases h
      exact Generator.Frame.refl _ _
    | none =>
      cases hread : env.ReadFile path with
      | error err =>
        rw [Parse] at h
        simp only [hhit, hread] at h
        cases h
        exact Generator.Frame.refl _ _
      | ok b =>
        rw [Parse_miss env n g path b hhit hread] at h
        cases hloop : parseFrom env (Parse env n) (Split (formatLf b) '\n') g.next 0
            (NewTemplate g path).1 with
        | none => simp only [hloop] at h; cases h
        | some lr =>
          have hfr := parseFrom_invariant env (Parse env n) (Split (formatLf b) '\n') g.next
            (Generator.Frame (some g.next)) 0 (Generator.Frame.refl _)
            (Generator.Frame.trans _)
            (fun i g1 line st _ _ hs => parseStep_frame env _ ih _ g.next i g1 line st hs)
            (Split (formatLf b) '\n').length 0 _ lr (Nat.le_refl _) (by omega) hloop
          obtain ⟨hn1, hc1, hp1⟩ := hfr
          have hnew : (NewTemplate g path).1.next = g.next + 1 := rfl
          have hcache : (NewTemplate g path).1.cache = g.cache := rfl
          have hstore : ∀ p, p < g.next → (NewTemplate g path).1.store p = g.store p := by
            intro p hp
            simp only [NewTemplate, Function.update]
            have : p ≠ g.next := by omega
            simp [this]
          have hframe : Generator.Frame none g lr.1 := by
            refine ⟨by omega, by rw [hc1, hcache], fun p hp => ?_⟩
            obtain ⟨ha, hb⟩ := hp1 p (by omega)
            rw [hstore p hp] at ha hb
            have hne : some p ≠ some g.next := by
              intro hc; cases hc; omega
            exact ⟨ha, fun _ => hb hne⟩
          obtain ⟨g3, oerr⟩ := lr
          cases oerr with
          | some err =>
            simp only [hloop] at h
            cases h
            exact hframe
          | none =>
            simp only [hloop] at h
            cases h
            obtain ⟨f1, f2, f3⟩ := hframe
            refine ⟨?_, ?_, ?_⟩
            · split <;> exact f1
            · split <;> exact f2
            · intro p hp
              have : (if g3.cache then g3.storeTemplate path g.next else g3).store = g3.store := by
                split <;> rfl
              rw [this]
              exact f3 p hp

/-! ## The extends lines of a file -/

/-- The lines a turn of the loop of Parse passes over, after the line of the
turn, are blank or indented. -/
theorem parseStep_passed (env : Env)
    (recur : Generator → String → Option (Generator × Except String Ptr))
    (lines : List String) (tpl : Ptr) (i : Nat) (g : Generator) (line : String)
    (i2 : Nat) (g2 : Generator)
    (h : parseStep env recur lines tpl i g line = some (.next i2 g2)) :
    ∀ k, i < k → k < i2 → ∃ l, lines[k]? = some l ∧ (empty l = true ∨ 1 ≤ indent l) := by
  cases hE : empty line with
  | true =>
    rw [parseStep_blank env recur lines tpl i g line hE] at h
    cases h; intro k h1 h2; omega
  | false =>
    cases hT : topElement line with
    | false =>
      rw [parseStep_indented env recur lines tpl i g line hE hT] at h
      cases h; intro k h1 h2; omega
    | true =>
      cases hX : isExtends line with
      | true =>
        by_cases hn : (Split (TrimSpace line) ' ').length = 2
        · rw [parseStep_extends env recur lines tpl i g line hE hT hX hn] at h
          split at h
          · cases h
          · cases h
          · cases h; intro k h1 h2; omega
        · rw [parseStep_extends_arity env recur lines tpl i g line hE hT hX hn] at h
          cases h
      | false =>
        cases hSB : ((g.store tpl).Super.isSome && isBlock line) with
        | true =>
          simp only [Bool.and_eq_true] at hSB
          by_cases hn : (Split (TrimSpace line) ' ').length = 2
          · rw [parseStep_block env recur lines tpl i g line hE hT hX hSB.1 hSB.2 hn] at h
            split at h
            · cases h
            · rename_i r hr
              have hc := appendChildren_consumed env _ _ _ _ _ _ _ hr
              split at h
              · cases h
              · cases h
                intro k h1 h2
                exact hc k (by omega) h2
          · rw [parseStep_block_arity env recur lines tpl i g line hE hT hX hSB.1 hSB.2 hn] at h
            cases h
        | false =>
          rw [parseStep_element env recur lines tpl i g line hE hT hX hSB] at h
          split at h
          · cases h
          · split at h
            · cases h
            · rename_i r hr
              have hc := appendChildren_consumed env _ _ _ _ _ _ _ hr
              split at h
              · cases h
              · cases h
                intro k h1 h2
                exact hc k (by omega) h2

/-- A loop of Parse that returns nil has had its cursor on every top-level
non-blank line from its start on. -/
theorem LoopReaches.of_top (env : Env)
    (recur : Generator → String → Option (Generator × Except String Ptr))
    (lines : List String) (tpl : Ptr) (k : Nat) (line : String)
    (hl : lines[k]? = some line) (hE : empty line = false) (hT : topElement line = true)
    (gEnd : Generator) (n : Nat) :
    ∀ i g, k - i ≤ n → i ≤ k → parseFrom env recur lines tpl i g = some (gEnd, none) →
      ∃ gk, LoopReaches env recur lines tpl i g k gk := by
  induction n with
  | zero =>
    intro i g hn hik _
    have : i = k := by omega
    subst this
    exact ⟨g, .here i g⟩
  | succ n ih =>
    intro i g hn hik h
    by_cases heq : i = k
    · subst heq
      exact ⟨g, .here i g⟩
    · have hklt : k < lines.length := (List.getElem?_eq_some_iff.mp hl).1
      have hli : lines[i]? = some lines[i] := List.getElem?_eq_getElem (by omega)
      rw [parseFrom_eq] at h
      simp only [hli] at h
      cases hs : parseStep env recur lines tpl i g lines[i] with
      | none => simp only [hs] at h; cases h
      | some st =>
        cases st with
        | fail g2 err => simp only [hs] at h; cases h
        | next i2 g2 =>
          simp only [hs] at h
          have hc := parseStep_cursor env recur lines tpl i g _ i2 g2 hs
          have hp := parseStep_passed env recur lines tpl i g _ i2 g2 hs
          have hi2 : i2 ≤ k := by
            by_contra hgt
            obtain ⟨l, hl2, hd⟩ := hp k (by omega) (by omega)
            rw [hl] at hl2
            cases hl2
            rcases hd with hd | hd
            · rw [hE] at hd; cases hd
            · simp only [topElement, indentTop, beq_iff_eq] at hT
              omega
          obtain ⟨gk, hreach⟩ := ih i2 g2 (by omega) hi2 h
          exact ⟨gk, .turn i g _ i2 g2 k gk hli hs hreach⟩

/-- The loop of Parse keeps the frame around the Template under construction. -/
theorem LoopReaches.frame (env : Env)
    (recur : Generator → String → Option (Generator × Except String Ptr))
    (hrec : ∀ g path g2 res, recur g path = some (g2, res) → Generator.Frame none g g2)
    (lines : List String) (tpl : Ptr) (i : Nat) (g : Generator) (j : Nat) (h : Generator)
    (hr : LoopReaches env recur lines tpl i g j h) : Generator.Frame (some tpl) g h := by
  induction hr with
  | here => exact Generator.Frame.refl _ _
  | turn i g line i2 g2 j h _ hs _ ih =>
    exact Generator.Frame.trans _ _ _ _
      (parseStep_frame env recur hrec lines tpl i g line _ hs) ih

/-- A turn of the loop of Parse on a line that is not an extends line writes
no Super link and no Sub link. -/
theorem parseStep_links (env : Env)
    (recur : Generator → String → Option (Generator × Except String Ptr))
    (lines : List String) (tpl : Ptr) (i : Nat) (g : Generator) (line : String) (st : Step)
    (hX : isExtends line = false)
    (h : parseStep env recur lines tpl i g line = some st) :
    ∀ q, (st.gen.store q).Super = (g.store q).Super ∧ (st.gen.store q).Sub = (g.store q).Sub := by
  have hmod : ∀ (f : Template → Template), (∀ t, (f t).Super = t.Super ∧ (f t).Sub = t.Sub) →
      ∀ q, ((g.modify tpl f).store q).Super = (g.store q).Super ∧
        ((g.modify tpl f).store q).Sub = (g.store q).Sub := by
    intro f hf q
    by_cases hq : q = tpl
    · subst hq
      rw [Generator.modify_store_same]
      exact hf _
    · rw [Generator.modify_store_other g tpl q f hq]
      exact ⟨rfl, rfl⟩
  cases hE : empty line with
  | true =>
    rw [parseStep_blank env recur lines tpl i g line hE] at h
    cases h; intro q; exact ⟨rfl, rfl⟩
  | false =>
    cases hT : topElement line with
    | false =>
      rw [parseStep_indented env recur lines tpl i g line hE hT] at h
      cases h; intro q; exact ⟨rfl, rfl⟩
    | true =>
      cases hSB : ((g.store tpl).Super.isSome && isBlock line) with
      | true =>
        simp only [Bool.and_eq_true] at hSB
        by_cases hn : (Split (TrimSpace line) ' ').length = 2
        · rw [parseStep_block env recur lines tpl i g line hE hT hX hSB.1 hSB.2 hn] at h
          split at h
          · cases h
          · split at h <;> cases h <;> simp only [Step.gen] <;>
              exact hmod _ (fun _ => ⟨rfl, rfl⟩)
        · rw [parseStep_block_arity env recur lines tpl i g line hE hT hX hSB.1 hSB.2 hn] at h
          cases h; intro q; exact ⟨rfl, rfl⟩
      | false =>
        rw [parseStep_element env recur lines tpl i g line hE hT hX hSB] at h
        split at h
        · cases h; intro q; exact ⟨rfl, rfl⟩
        · split at h
          · cases h
          · split at h <;> cases h <;> simp only [Step.gen] <;>
              exact hmod _ (fun _ => ⟨rfl, rfl⟩)

/-- After the last extends line of a file the loop of Parse writes no Super link
and no Sub link. -/
theorem parseFrom_links (env : Env)
    (recur : Generator → String → Option (Generator × Except String Ptr))
    (lines : List String) (tpl : Ptr) (i0 : Nat)
    (hno : ∀ j l, i0 ≤ j → lines[j]? = some l → isExtends l = false)
    (g : Generator) (res : Generator × Option String)
    (h : parseFrom env recur lines tpl i0 g = some res) :
    ∀ q, (res.1.store q).Super = (g.store q).Super ∧ (res.1.store q).Sub = (g.store q).Sub :=
  parseFrom_invariant env recur lines tpl
    (fun a b => ∀ q, (b.store q).Super = (a.store q).Super ∧ (b.store q).Sub = (a.store q).Sub)
    i0 (fun _ _ => ⟨rfl, rfl⟩)
    (fun a b c h1 h2 q => ⟨by rw [(h2 q).1, (h1 q).1], by rw [(h2 q).2, (h1 q).2]⟩)
    (fun i g1 line st hi hl hs => parseStep_links env recur lines tpl i g1 line st (hno i line hi hl)
      hs)
    lines.length i0 g res (Nat.le_refl _) (by omega) h

theorem dropWhile_append_singleton_ne_nil (p : Char → Bool) (c : Char) (hc : p c = false) :
    ∀ xs : List Char, (xs ++ [c]).dropWhile p ≠ [] := by
  intro xs
  induction xs with
  | nil => simp [List.dropWhile, hc]
  | cons x rest ih =>
    simp only [List.cons_append, List.dropWhile]
    split
    · exact ih
    · simp

/-- A line that starts with a character that is not white space is not blank. -/
theorem empty_of_head (line : String) (c : Char) (rest : List Char)
    (hd : line.data = c :: rest) (hc : isSpace c = false) : empty line = false := by
  have h1 : line.data.dropWhile isSpace = c :: rest := by
    rw [hd]; simp [List.dropWhile, hc]
  have h2 : ((line.data.dropWhile isSpace).reverse.dropWhile isSpace) ≠ [] := by
    rw [h1, List.reverse_cons]
    exact dropWhile_append_singleton_ne_nil isSpace c hc _
  have h3 : (TrimSpace line).data ≠ [] := by
    simp only [TrimSpace]
    intro h
    exact h2 (List.reverse_eq_nil_iff.mp h)
  simp only [empty, beq_eq_false_iff_ne, ne_eq]
  intro h
  rw [h] at h3
  exact h3 rfl

/-- An extends line is a top-level line and is not blank. -/
theorem isExtends_top (line : String) (h : isExtends line = true) :
    empty line = false ∧ topElement line = true := by
  obtain ⟨rest, hd⟩ := isExtends_head line h
  refine ⟨empty_of_head line 'e' rest hd (by decide), ?_⟩
  simp only [topElement, indent, hd, indentLoop, indentTop]
  have h1 : ('e' = unicodeTab) = False := by simp; decide
  have h2 : ('e' = unicodeSpace) = False := by simp; decide
  simp [h1, h2]

/-- C7 fails as stated, with caching on: a.gold and b.gold both extend
base.gold; after Parse of a.gold and Parse of b.gold, a third call, Parse of
a.gold, succeeds on a file with the top-level line `extends base` and returns
the stored Template 0, whose Super link is Template 1, that of base.gold, while
the Sub link of Template 1 is Template 2, that of b.gold, and not Template 0. -/
theorem Parse_extends_links_counterexample :
    ((Parse sampleEnv 2 (NewGenerator true) "a.gold").bind fun r1 =>
      (Parse sampleEnv 2 r1.1 "b.gold").bind fun r2 =>
        (Parse sampleEnv 2 r2.1 "a.gold").map fun r3 =>
          (r3.2.toOption, (r3.1.store 0).Super, (r3.1.store 1).Sub,
            (r3.1.store 1).Sub == some 0)) =
      some (some 0, some 1, some 2, false) := by
  decide!

/-- C7, as amended: when Parse reads the file of the path (the path is not
served from the cache) and returns a Template, and the last extends line of the file is the
top-level line `extends N` at index k, then the loop came to that line, Parse
on dir(path) + N + ".gold" returned a Template there, the Super link of the
returned Template is that Template, and its Sub link is the returned Template;
the links written by earlier extends lines are overwritten. -/
theorem Parse_extends_links (env : Env) (fuel : Nat) (g : Generator) (path b : String)
    (k : Nat) (line tok N : String) (g2 : Generator) (p : Ptr)
    (hmiss : (if g.cache then g.gtemplates.lookup path else none) = none)
    (hread : env.ReadFile path = .ok b)
    (hl : (Split (formatLf b) '\n')[k]? = some line)
    (hX : isExtends line = true)
    (htok : Split (TrimSpace line) ' ' = [tok, N])
    (hlast : ∀ j l, k < j → (Split (formatLf b) '\n')[j]? = some l → isExtends l = false)
    (hok : Parse env (fuel + 1) g path = some (g2, .ok p)) :
    p = g.next ∧ empty line = false ∧ topElement line = true ∧
    ∃ gk gq q,
      LoopReaches env (Parse env fuel) (Split (formatLf b) '\n') g.next 0 (NewTemplate g path).1
        k gk ∧
      Parse env fuel gk (env.Dir path ++ N ++ ".gold") = some (gq, .ok q) ∧
      (g2.store p).Super = some q ∧ (g2.store q).Sub = some p := by
  obtain ⟨hE, hT⟩ := isExtends_top line hX
  have hn : (Split (TrimSpace line) ' ').length = 2 := by rw [htok]; rfl
  have hN : (Split (TrimSpace line) ' ').getD 1 "" = N := by rw [htok]; rfl
  rw [Parse_miss env fuel g path b hmiss hread] at hok
  cases hloop : parseFrom env (Parse env fuel) (Split (formatLf b) '\n') g.next 0
      (NewTemplate g path).1 with
  | none => simp only [hloop] at hok; cases hok
  | some lr =>
    obtain ⟨g3, oerr⟩ := lr
    cases oerr with
    | some err => simp only [hloop] at hok; cases hok
    | none =>
      simp only [hloop] at hok
      have hp : p = g.next := by cases hok; rfl
      have hstore : g2.store = g3.store := by
        cases hok
        split <;> rfl
      obtain ⟨gk, hreach⟩ := LoopReaches.of_top env (Parse env fuel) (Split (formatLf b) '\n')
        g.next k line hl hE hT g3 k 0 (NewTemplate g path).1 (by omega) (Nat.zero_le _) hloop
      have hfrom := parseFrom_of_reaches env _ _ _ _ _ _ _ hreach
      rw [hloop] at hfrom
      have hframe := LoopReaches.frame env (Parse env fuel) (Parse_frame env fuel) _ _ _ _ _ _
        hreach
      have hpath : (gk.store g.next).Path = path := by
        have := (hframe.2.2 g.next (by simp [NewTemplate])).1
        rw [this]
        simp [NewTemplate]
      rw [parseFrom_eq] at hfrom
      simp only [hl, parseStep_extends env _ _ g.next k gk line hE hT hX hn, hN, hpath] at hfrom
      cases hrec : Parse env fuel gk (env.Dir path ++ N ++ goldExtension) with
      | none => simp only [hrec] at hfrom; cases hfrom
      | some rr =>
        obtain ⟨gq, res⟩ := rr
        cases res with
        | error err => simp only [hrec] at hfrom; cases hfrom
        | ok q =>
          simp only [hrec] at hfrom
          have hlinks := parseFrom_links env (Parse env fuel) (Split (formatLf b) '\n') g.next
            (k + 1) (fun j l hj hlj => hlast j l (by omega) hlj) _ _ hfrom.symm
          refine ⟨hp, hE, hT, gk, gq, q, hreach, hrec, ?_, ?_⟩
          · rw [hstore, hp, (hlinks g.next).1, Generator.modify_store_same]
          · rw [hstore, hp, (hlinks q).2]
            by_cases hq : q = g.next
            · subst hq
              rw [Generator.modify_store_same, Generator.modify_store_same]
            · rw [Generator.modify_store_other _ g.next q _ hq, Generator.modify_store_same]

/-- C7, as amended, on an instance: a.gold has the line `extends base` as line 1; Parse
returns Template 0, whose Super link is Template 1, obtained from base.gold,
whose Sub link is Template 0. -/
theorem Parse_extends_links_witness :
    ∃ g2, Parse sampleEnv 2 (NewGenerator true) "a.gold" = some (g2, .ok 0) ∧
      (0 = (NewGenerator true).next ∧ empty "extends base" = false ∧
        topElement "extends base" = true ∧
        ∃ gk gq q,
          LoopReaches sampleEnv (Parse sampleEnv 1)
            (Split (formatLf "extends base\nblock title\n\tp hello\n") '\n')
            (NewGenerator true).next 0 (NewTemplate (NewGenerator true) "a.gold").1 0 gk ∧
          Parse sampleEnv 1 gk (sampleEnv.Dir "a.gold" ++ "base" ++ ".gold") = some (gq, .ok q) ∧
          (g2.store 0).Super = some q ∧ (g2.store q).Sub = some 0) :=
  ⟨_, rfl,
    Parse_extends_links sampleEnv 1 (NewGenerator true) "a.gold"
      "extends base\nblock title\n\tp hello\n" 0 "extends base" "extends" "base" _ 0
      rfl rfl (by decide) (by decide) (by decide)
      (fun j l hj hlj => by
        have hlen : j < 4 := (List.getElem?_eq_some_iff.mp hlj).1
        have hcases : j = 1 ∨ j = 2 ∨ j = 3 := by omega
        rcases hcases with h | h | h <;> subst h <;> cases hlj <;> decide)
      rfl⟩

/-! ## Two indentations of one template source -/

theorem dropWhile_replicate_append (p : Char → Bool) (c : Char) (hc : p c = true) (n : Nat)
    (body : List Char) : (List.replicate n c ++ body).dropWhile p = body.dropWhile p := by
  induction n with
  | zero => rfl
  | succ n ih => simp [List.replicate_succ, List.dropWhile, hc, ih]

theorem indentLoop_spaces (body : List Char) (d : Nat) :
    ∀ i, indentLoop (List.replicate (2 * d) unicodeSpace ++ body) i false =
      indentLoop body (i + d) false := by
  induction d with
  | zero => intro i; rfl
  | succ d ih =>
    intro i
    have h2 : 2 * (d + 1) = (2 * d + 1) + 1 := by omega
    have hne : unicodeSpace ≠ unicodeTab := fun h => tab_ne_space h.symm
    rw [h2, List.replicate_succ, List.replicate_succ]
    simp only [List.cons_append, indentLoop, hne, if_false, if_true]
    simp only [Bool.false_eq_true, if_false, if_true]
    have := ih (i + 1)
    simp only [HAppend.hAppend, Append.append] at this ⊢
    rw [this]
    congr 1
    omega

theorem indentLoop_tabs (body : List Char) (d : Nat) :
    ∀ i space, indentLoop (List.replicate d unicodeTab ++ body) i space =
      indentLoop body (i + d) space := by
  induction d with
  | zero => intro i space; rfl
  | succ d ih =>
    intro i space
    rw [List.replicate_succ]
    simp only [List.cons_append, indentLoop, if_true]
    have := ih (i + 1) space
    simp only [HAppend.hAppend, Append.append] at this ⊢
    rw [this]
    congr 1
    omega

theorem indentLoop_shift (cs : List Char) (i d : Nat) (space : Bool) :
    indentLoop cs (i + d) space = d + indentLoop cs i space := by
  rw [indentLoop_eq, indentLoop_eq]
  omega

theorem indent_withSpaces (l : SourceLine) : indent l.withSpaces = l.depth + indent l.body := by
  simp only [indent, SourceLine.withSpaces]
  rw [indentLoop_spaces, indentLoop_shift]

theorem indent_withTabs (l : SourceLine) : indent l.withTabs = l.depth + indent l.body := by
  simp only [indent, SourceLine.withTabs]
  rw [indentLoop_tabs, indentLoop_shift]

theorem empty_withSpaces (l : SourceLine) : empty l.withSpaces = empty l.body := by
  simp only [empty, TrimSpace, SourceLine.withSpaces]
  rw [dropWhile_replicate_append isSpace unicodeSpace (by decide)]

theorem empty_withTabs (l : SourceLine) : empty l.withTabs = empty l.body := by
  simp only [empty, TrimSpace, SourceLine.withTabs]
  rw [dropWhile_replicate_append isSpace unicodeTab (by decide)]

theorem stripIndent_withSpaces (l : SourceLine) : stripIndent l.withSpaces = stripIndent l.body := by
  simp only [stripIndent, SourceLine.withSpaces]
  rw [dropWhile_replicate_append isIndentChar unicodeSpace (by decide)]

theorem stripIndent_withTabs (l : SourceLine) : stripIndent l.withTabs = stripIndent l.body := by
  simp only [stripIndent, SourceLine.withTabs]
  rw [dropWhile_replicate_append isIndentChar unicodeTab (by decide)]

/-- The two indentations of a source are alike. -/
theorem linesAlike_indentations (src : List SourceLine) :
    LinesAlike (src.map SourceLine.withSpaces) (src.map SourceLine.withTabs) := by
  refine ⟨by simp, ?_⟩
  intro i l l2 h1 h2
  rw [List.getElem?_map] at h1 h2
  cases hs : src[i]? with
  | none => rw [hs] at h1; cases h1
  | some sl =>
    rw [hs] at h1 h2
    simp only [Option.map_some', Option.some.injEq] at h1 h2
    subst h1 h2
    refine ⟨by rw [empty_withSpaces, empty_withTabs],
      by rw [indent_withSpaces, indent_withTabs],
      by rw [stripIndent_withSpaces, stripIndent_withTabs], ?_⟩
    intro h0
    rw [indent_withSpaces] at h0
    have hd : sl.depth = 0 := by omega
    simp [SourceLine.withSpaces, SourceLine.withTabs, hd]

theorem linesAlike_refl (ls : List String) : LinesAlike ls ls := by
  refine ⟨rfl, ?_⟩
  intro i l l2 h1 h2
  rw [h1] at h2
  cases h2
  exact ⟨rfl, rfl, rfl, fun _ => rfl⟩

/-! ## The texts of the lines do not steer the parser -/

theorem eraseTexts_append (a b : List Element) :
    eraseTexts (a ++ b) = eraseTexts a ++ eraseTexts b := by
  induction a with
  | nil => simp [eraseTexts]
  | cons x xs ih => simp [eraseTexts, ih]

theorem Container.eraseText_children (c : Container) :
    c.eraseText.Children = eraseTexts c.Children := by
  cases c with
  | block b => rfl
  | element e => cases e; simp [Container.eraseText, Container.Children, Element.eraseText]

theorem Container.eraseText_withChildren (c1 c2 : Container) (cs1 cs2 : List Element)
    (hc : c1.eraseText = c2.eraseText) (hcs : eraseTexts cs1 = eraseTexts cs2) :
    (c1.withChildren cs1).eraseText = (c2.withChildren cs2).eraseText := by
  cases c1 with
  | block b1 =>
    cases c2 with
    | block b2 =>
      simp only [Container.eraseText, Container.block.injEq, Block.eraseText, Block.mk.injEq,
        Container.withChildren] at hc ⊢
      exact ⟨hc.1, hc.2.1, hcs⟩
    | element e2 => simp [Container.eraseText] at hc
  | element e1 =>
    cases c2 with
    | block b2 => simp [Container.eraseText] at hc
    | element e2 =>
      cases e1; cases e2
      simp only [Container.eraseText, Container.element.injEq, Element.eraseText,
        Element.mk.injEq, Container.withChildren, true_and] at hc ⊢
      exact ⟨hc.1, hc.2.1, hc.2.2.1, hc.2.2.2.1, hcs⟩

/-- Under a classification by content, NewElement gives on two lines with the
same text after the indentation the same error, or two Elements that differ in
their text only. -/
theorem NewElement_alike (env : Env) (hcls : env.ClassifiesByContent) (l l2 : String)
    (lineNo ind : Nat) (par par2 : Option Element) (tp tp2 : Option Ptr) (bl bl2 : Option Block)
    (hs : stripIndent l = stripIndent l2) :
    (∃ err, NewElement env l lineNo ind par tp bl = .error err ∧
      NewElement env l2 lineNo ind par2 tp2 bl2 = .error err) ∨
    (∃ k : Kind, NewElement env l lineNo ind par tp bl = .ok ⟨l, lineNo, ind, k.RawContent, k.Typ, []⟩ ∧
      NewElement env l2 lineNo ind par2 tp2 bl2 =
        .ok ⟨l2, lineNo, ind, k.RawContent, k.Typ, []⟩) := by
  obtain ⟨f, hf⟩ := hcls
  unfold NewElement
  rw [hf l, hf l2, hs]
  cases f (stripIndent l2) with
  | error err => left; exact ⟨err, rfl, rfl⟩
  | ok k => right; exact ⟨k, rfl, rfl⟩

theorem newChild_alike (env : Env) (hcls : env.ClassifiesByContent) (p1 p2 : Container)
    (l l2 : String) (i ind : Nat) (hs : stripIndent l = stripIndent l2) :
    (∃ err, newChild env p1 l i ind = .error err ∧ newChild env p2 l2 i ind = .error err) ∨
    (∃ k : Kind, newChild env p1 l i ind = .ok ⟨l, i + 1, ind, k.RawContent, k.Typ, []⟩ ∧
      newChild env p2 l2 i ind = .ok ⟨l2, i + 1, ind, k.RawContent, k.Typ, []⟩) := by
  cases p1 <;> cases p2 <;> exact NewElement_alike env hcls l l2 (i + 1) ind _ _ _ _ _ _ hs

theorem Container.eraseTexts_children_eq (p1 p2 : Container)
    (hp : p1.eraseText = p2.eraseText) : eraseTexts p1.Children = eraseTexts p2.Children := by
  rw [← Container.eraseText_children, ← Container.eraseText_children, hp]

/-- A turn of the loop of appendChildren on two lists of lines that are alike
takes the same course: the return, with the same error if any, or the passing
over a blank line, or the admission of the line. -/
theorem appendChildrenBody_alike (env : Env) (p1 p2 : Container) (ls lt : List String)
    (hal : LinesAlike ls lt) (i pI : Nat) (raw : Bool) (ty : String) :
    (∃ e, ∀ r1 r2,
      appendChildrenBody env r1 p1 ls i pI raw ty = some ⟨p1.Children, i, e⟩ ∧
      appendChildrenBody env r2 p2 lt i pI raw ty = some ⟨p2.Children, i, e⟩) ∨
    (∀ r1 r2,
      appendChildrenBody env r1 p1 ls i pI raw ty = r1 p1 ls (i + 1) pI raw ty ∧
      appendChildrenBody env r2 p2 lt i pI raw ty = r2 p2 lt (i + 1) pI raw ty) ∨
    (∃ l l2, stripIndent l = stripIndent l2 ∧ ∀ r1 r2,
      appendChildrenBody env r1 p1 ls i pI raw ty =
        admitChild env r1 p1 l (indent l) ls i pI raw ty ∧
      appendChildrenBody env r2 p2 lt i pI raw ty =
        admitChild env r2 p2 l2 (indent l) lt i pI raw ty) := by
  obtain ⟨hlen, hline⟩ := hal
  cases h1 : ls[i]? with
  | none =>
    have h2 : lt[i]? = none := by
      rw [List.getElem?_eq_none_iff] at h1 ⊢
      omega
    left
    exact ⟨none, fun r1 r2 => by simp [appendChildrenBody, h1, h2]⟩
  | some l =>
    have hlt : i < ls.length := (List.getElem?_eq_some_iff.mp h1).1
    obtain ⟨l2, h2⟩ : ∃ l2, lt[i]? = some l2 := ⟨lt[i], List.getElem?_eq_getElem (by omega)⟩
    obtain ⟨hE, hI, hS, _⟩ := hline i l l2 h1 h2
    have hI2 : indent l2 = indent l := hI.symm
    cases hEl : empty l with
    | true =>
      right; left
      intro r1 r2
      have hE2 : empty l2 = true := by rw [← hE, hEl]
      simp [appendChildrenBody, h1, h2, hEl, hE2]
    | false =>
      have hE2 : empty l2 = false := by rw [← hE, hEl]
      by_cases hlow : indent l < pI + 1
      · left
        refine ⟨none, fun r1 r2 => ?_⟩
        simp [appendChildrenBody, h1, h2, hEl, hE2, hI2, hlow]
      · by_cases hc1 : (raw || ty == env.TypeContent) = true
        · right; right
          refine ⟨l, l2, hS, fun r1 r2 => ?_⟩
          constructor
          · simp only [appendChildrenBody, h1, hEl, hc1, hlow]; simp
          · simp only [appendChildrenBody, h2, hE2, hI2, hc1, hlow]; simp
        · by_cases hc2 : (ty == env.TypeBlock) = true
          · left
            refine ⟨some (blockChildError (i + 1)), fun r1 r2 => ?_⟩
            constructor
            · simp only [appendChildrenBody, h1, hEl, hc1, hc2, hlow]; simp
            · simp only [appendChildrenBody, h2, hE2, hI2, hc1, hc2, hlow]; simp
          · by_cases hc3 : indent l = pI + 1
            · right; right
              refine ⟨l, l2, hS, fun r1 r2 => ?_⟩
              constructor
              · simp only [appendChildrenBody, h1, hEl, hc1, hc2, hlow, hc3]; simp
              · simp only [appendChildrenBody, h2, hE2, hI2, hc1, hc2, hlow, hc3]; simp
            · left
              refine ⟨some (indentError (i + 1)), fun r1 r2 => ?_⟩
              constructor
              · simp only [appendChildrenBody, h1, hEl, hc1, hc2, hlow, hc3]; simp
              · simp only [appendChildrenBody, h2, hE2, hI2, hc1, hc2, hlow, hc3]; simp

/-- On two lists of lines that are alike, under a classification by content,
appendChildren returns the same cursor and the same error, and gives the two
parents children that differ in their texts only. -/
theorem appendChildrenFuel_alike (env : Env) (hcls : env.ClassifiesByContent)
    (ls lt : List String) (hal : LinesAlike ls lt) (fuel : Nat) :
    ∀ p1 p2 i pI raw ty, p1.eraseText = p2.eraseText →
      (appendChildrenFuel env fuel p1 ls i pI raw ty).map Res.eraseText =
        (appendChildrenFuel env fuel p2 lt i pI raw ty).map Res.eraseText := by
  induction fuel with
  | zero => intro _ _ _ _ _ _ _; rfl
  | succ n ih =>
    intro p1 p2 i pI raw ty hp
    have hch := Container.eraseTexts_children_eq p1 p2 hp
    simp only [appendChildrenFuel]
    rcases appendChildrenBody_alike env p1 p2 ls lt hal i pI raw ty with
      ⟨e, h⟩ | h | ⟨l, l2, hS, h⟩
    · rw [(h (appendChildrenFuel env n) (appendChildrenFuel env n)).1,
        (h (appendChildrenFuel env n) (appendChildrenFuel env n)).2]
      simp [Res.eraseText, hch]
    · rw [(h (appendChildrenFuel env n) (appendChildrenFuel env n)).1,
        (h (appendChildrenFuel env n) (appendChildrenFuel env n)).2]
      exact ih p1 p2 (i + 1) pI raw ty hp
    · rw [(h (appendChildrenFuel env n) (appendChildrenFuel env n)).1,
        (h (appendChildrenFuel env n) (appendChildrenFuel env n)).2]
      unfold admitChild
      rcases newChild_alike env hcls p1 p2 l l2 i (indent l) hS with
        ⟨err, he1, he2⟩ | ⟨k, hk1, hk2⟩
      · rcases appendChild_cases env (appendChildrenFuel env n) p1 l (indent l) ls i with
          ⟨e1, hn1, ha1⟩ | ⟨c1, hn1, _⟩
        · rcases appendChild_cases env (appendChildrenFuel env n) p2 l2 (indent l) lt i with
            ⟨e2, hn2, ha2⟩ | ⟨c2, hn2, _⟩
          · rw [he1] at hn1; cases hn1
            rw [he2] at hn2; cases hn2
            rw [ha1, ha2]
            simp [Res.eraseText, hch]
          · rw [he2] at hn2; cases hn2
        · rw [he1] at hn1; cases hn1
      · rcases appendChild_cases env (appendChildrenFuel env n) p1 l (indent l) ls i with
          ⟨e1, hn1, _⟩ | ⟨c1, hn1, ha1⟩
        · rw [hk1] at hn1; cases hn1
        · rcases appendChild_cases env (appendChildrenFuel env n) p2 l2 (indent l) lt i with
            ⟨e2, hn2, _⟩ | ⟨c2, hn2, ha2⟩
          · rw [hk2] at hn2; cases hn2
          · rw [hk1] at hn1; cases hn1
            rw [hk2] at hn2; cases hn2
            rw [ha1, ha2]
            have hrec := ih (.element ⟨l, i + 1, indent l, k.RawContent, k.Typ, []⟩)
              (.element ⟨l2, i + 1, indent l, k.RawContent, k.Typ, []⟩) (i + 1) (indent l)
              k.RawContent k.Typ (by simp [Container.eraseText, Element.eraseText])
            cases hr1 : appendChildrenFuel env n
                (.element ⟨l, i + 1, indent l, k.RawContent, k.Typ, []⟩) ls (i + 1) (indent l)
                k.RawContent k.Typ with
            | none =>
              rw [hr1] at hrec
              cases hr2 : appendChildrenFuel env n
                  (.element ⟨l2, i + 1, indent l, k.RawContent, k.Typ, []⟩) lt (i + 1) (indent l)
                  k.RawContent k.Typ with
              | none => rfl
              | some r2 => rw [hr2] at hrec; cases hrec
            | some r1 =>
              rw [hr1] at hrec
              cases hr2 : appendChildrenFuel env n
                  (.element ⟨l2, i + 1, indent l, k.RawContent, k.Typ, []⟩) lt (i + 1) (indent l)
                  k.RawContent k.Typ with
              | none => rw [hr2] at hrec; cases hrec
              | some r2 =>
                rw [hr2] at hrec
                simp only [Option.map_some', Option.some.injEq, Res.eraseText, Res.mk.injEq]
                  at hrec
                obtain ⟨hrc, hcur, herr⟩ := hrec
                have hkids : eraseTexts (p1.Children ++
                    [⟨l, i + 1, indent l, k.RawContent, k.Typ, r1.children⟩]) =
                    eraseTexts (p2.Children ++
                    [⟨l2, i + 1, indent l, k.RawContent, k.Typ, r2.children⟩]) := by
                  rw [eraseTexts_append, eraseTexts_append, hch]
                  simp [eraseTexts, Element.eraseText, hrc]
                simp only [Option.map_some']
                cases he1 : r1.err with
                | some e =>
                  have he2 : r2.err = some e := by rw [← herr, he1]
                  simp only [he2, Option.map_some', Option.some.injEq, Res.eraseText, Res.mk.injEq]
                  exact ⟨hkids, hcur, trivial⟩
                | none =>
                  have he2 : r2.err = none := by rw [← herr, he1]
                  simp only [he2, hcur]
                  exact ih _ _ r2.cursor pI raw ty
                    (Container.eraseText_withChildren p1 p2 _ _ hp hkids)

theorem appendChildren_alike (env : Env) (hcls : env.ClassifiesByContent)
    (ls lt : List String) (hal : LinesAlike ls lt) (p1 p2 : Container) (i pI : Nat) (raw : Bool)
    (ty : String) (hp : p1.eraseText = p2.eraseText) :
    (appendChildren env p1 ls i pI raw ty).map Res.eraseText =
      (appendChildren env p2 lt i pI raw ty).map Res.eraseText := by
  unfold appendChildren
  rw [hal.1]
  exact appendChildrenFuel_alike env hcls ls lt hal _ p1 p2 i pI raw ty hp

theorem option_map_eq_cases {α β : Type} (f : α → β) (o1 o2 : Option α)
    (h : o1.map f = o2.map f) :
    (o1 = none ∧ o2 = none) ∨ ∃ a b, o1 = some a ∧ o2 = some b ∧ f a = f b := by
  cases o1 with
  | none =>
    cases o2 with
    | none => left; exact ⟨rfl, rfl⟩
    | some b => cases h
  | some a =>
    cases o2 with
    | none => cases h
    | some b =>
      right
      simp only [Option.map_some', Option.some.injEq] at h
      exact ⟨a, b, rfl, rfl, h⟩

theorem Generator.eraseText_fields (g1 g2 : Generator) (h : g1.eraseText = g2.eraseText) :
    g1.cache = g2.cache ∧ g1.gtemplates = g2.gtemplates ∧ g1.next = g2.next ∧
    ∀ p, (g1.store p).eraseText = (g2.store p).eraseText := by
  simp only [Generator.eraseText, Generator.mk.injEq] at h
  exact ⟨h.1, h.2.1, h.2.2.2, fun p => congrFun h.2.2.1 p⟩

theorem Generator.eraseText_of_fields (g1 g2 : Generator)
    (h1 : g1.cache = g2.cache) (h2 : g1.gtemplates = g2.gtemplates) (h3 : g1.next = g2.next)
    (h4 : ∀ p, (g1.store p).eraseText = (g2.store p).eraseText) :
    g1.eraseText = g2.eraseText := by
  simp only [Generator.eraseText, Generator.mk.injEq]
  exact ⟨h1, h2, funext h4, h3⟩

theorem Template.eraseText_links (t1 t2 : Template) (h : t1.eraseText = t2.eraseText) :
    t1.Path = t2.Path ∧ t1.Super = t2.Super ∧ t1.Sub = t2.Sub := by
  simp only [Template.eraseText, Template.mk.injEq] at h
  exact ⟨h.1, h.2.1, h.2.2.1⟩

/-- Writing through the same pointer Templates that differ in their texts only
keeps two generators that differ in these texts only so. -/
theorem Generator.modify_alike (g1 g2 : Generator) (p : Ptr) (f1 f2 : Template → Template)
    (h : g1.eraseText = g2.eraseText)
    (hf : (f1 (g1.store p)).eraseText = (f2 (g2.store p)).eraseText) :
    (g1.modify p f1).eraseText = (g2.modify p f2).eraseText := by
  obtain ⟨h1, h2, h3, h4⟩ := Generator.eraseText_fields g1 g2 h
  refine Generator.eraseText_of_fields _ _ h1 h2 h3 ?_
  intro q
  by_cases hq : q = p
  · subst hq
    rw [Generator.modify_store_same, Generator.modify_store_same]
    exact hf
  · rw [Generator.modify_store_other g1 p q f1 hq, Generator.modify_store_other g2 p q f2 hq]
    exact h4 q

theorem Template.eraseText_appendElement (t1 t2 : Template) (e1 e2 : Element)
    (ht : t1.eraseText = t2.eraseText) (he : e1.eraseText = e2.eraseText) :
    (t1.AppendElement e1).eraseText = (t2.AppendElement e2).eraseText := by
  simp only [Template.eraseText, Template.AppendElement, Template.mk.injEq] at ht ⊢
  refine ⟨ht.1, ht.2.1, ht.2.2.1, ht.2.2.2.1, ?_⟩
  rw [eraseTexts_append, eraseTexts_append, ht.2.2.2.2]
  simp [eraseTexts, he]

theorem map_filter_key (name : String) (bs : List (String × Block)) :
    (bs.filter fun kv => kv.1 != name).map (fun kv => (kv.1, kv.2.eraseText)) =
      (bs.map fun kv => (kv.1, kv.2.eraseText)).filter fun kv => kv.1 != name := by
  induction bs with
  | nil => rfl
  | cons kv rest ih =>
    by_cases h : (kv.1 != name) = true
    · simp [List.filter, h, ih]
    · simp only [Bool.not_eq_true] at h
      simp [List.filter, h, ih]

theorem Template.eraseText_addBlock (t1 t2 : Template) (name : String) (b1 b2 : Block)
    (ht : t1.eraseText = t2.eraseText) (hb : b1.eraseText = b2.eraseText) :
    (t1.AddBlock name b1).eraseText = (t2.AddBlock name b2).eraseText := by
  simp only [Template.eraseText, Template.AddBlock, Template.mk.injEq] at ht ⊢
  refine ⟨ht.1, ht.2.1, ht.2.2.1, ?_, ht.2.2.2.2⟩
  rw [List.map_append, List.map_append, map_filter_key, map_filter_key, ht.2.2.2.1]
  simp [hb]

/-- One turn of the loop of Parse on two lists of lines that are alike, from
two generators that differ in the texts of the lines only: the two turns agree
but for these texts. -/
theorem parseStep_alike (env : Env) (hcls : env.ClassifiesByContent)
    (recur : Generator → String → Option (Generator × Except String Ptr))
    (hrec : TextBlind recur) (ls lt : List String) (hal : LinesAlike ls lt) (tpl : Ptr)
    (i : Nat) (g1 g2 : Generator) (l l2 : String)
    (h1 : ls[i]? = some l) (h2 : lt[i]? = some l2) (hg : g1.eraseText = g2.eraseText) :
    (parseStep env recur ls tpl i g1 l).map Step.eraseText =
      (parseStep env recur lt tpl i g2 l2).map Step.eraseText := by
  obtain ⟨hE, hI, hS, hsame⟩ := hal.2 i l l2 h1 h2
  obtain ⟨_, _, _, hstore⟩ := Generator.eraseText_fields g1 g2 hg
  obtain ⟨hPath, hSuper, _⟩ := Template.eraseText_links _ _ (hstore tpl)
  cases hEl : empty l with
  | true =>
    rw [parseStep_blank env recur ls tpl i g1 l hEl,
      parseStep_blank env recur lt tpl i g2 l2 (by rw [← hE, hEl])]
    simp [Step.eraseText, hg]
  | false =>
    have hE2 : empty l2 = false := by rw [← hE, hEl]
    cases hT : topElement l with
    | false =>
      have hT2 : topElement l2 = false := by
        simp only [topElement] at hT ⊢
        rw [← hI]; exact hT
      rw [parseStep_indented env recur ls tpl i g1 l hEl hT,
        parseStep_indented env recur lt tpl i g2 l2 hE2 hT2]
      simp [Step.eraseText, hg]
    | true =>
      have hll : l = l2 := hsame (by simpa [topElement, indentTop] using hT)
      subst hll
      cases hX : isExtends l with
      | true =>
        by_cases hn : (Split (TrimSpace l) ' ').length = 2
        · rw [parseStep_extends env recur ls tpl i g1 l hEl hT hX hn,
            parseStep_extends env recur lt tpl i g2 l hEl hT hX hn, hPath]
          rcases option_map_eq_cases _ _ _ (hrec g1 g2
            (env.Dir (g2.store tpl).Path ++ (Split (TrimSpace l) ' ').getD 1 "" ++ goldExtension)
            hg) with ⟨hn1, hn2⟩ | ⟨a, b, ha, hb, hab⟩
          · rw [hn1, hn2]
          · rw [ha, hb]
            obtain ⟨ga, ra⟩ := a
            obtain ⟨gb, rb⟩ := b
            simp only [Prod.mk.injEq] at hab
            obtain ⟨hgab, hr⟩ := hab
            subst hr
            cases ra with
            | error err => simp [Step.eraseText, hgab]
            | ok q =>
              simp only [Option.map_some', Option.some.injEq, Step.eraseText, Step.next.injEq,
                true_and]
              apply Generator.modify_alike
              · apply Generator.modify_alike _ _ _ _ _ hgab
                have := (Generator.eraseText_fields ga gb hgab).2.2.2 q
                simp only [Template.eraseText, Template.mk.injEq] at this ⊢
                exact ⟨this.1, this.2.1, trivial, this.2.2.2.1, this.2.2.2.2⟩
              · have hmid := Generator.modify_alike ga gb q
                  (fun t => { t with Sub := some tpl }) (fun t => { t with Sub := some tpl }) hgab
                  (by
                    have := (Generator.eraseText_fields ga gb hgab).2.2.2 q
                    simp only [Template.eraseText, Template.mk.injEq] at this ⊢
                    exact ⟨this.1, this.2.1, trivial, this.2.2.2.1, this.2.2.2.2⟩)
                have := (Generator.eraseText_fields _ _ hmid).2.2.2 tpl
                simp only [Template.eraseText, Template.mk.injEq] at this ⊢
                exact ⟨this.1, trivial, this.2.2.1, this.2.2.2.1, this.2.2.2.2⟩
        · rw [parseStep_extends_arity env recur ls tpl i g1 l hEl hT hX hn,
            parseStep_extends_arity env recur lt tpl i g2 l hEl hT hX hn]
          simp [Step.eraseText, hg]
      | false =>
        cases hSB : ((g1.store tpl).Super.isSome && isBlock l) with
        | true =>
          have hSB2 : ((g2.store tpl).Super.isSome && isBlock l) = true := by
            rw [← hSuper]; exact hSB
          simp only [Bool.and_eq_true] at hSB hSB2
          by_cases hn : (Split (TrimSpace l) ' ').length = 2
          · rw [parseStep_block env recur ls tpl i g1 l hEl hT hX hSB.1 hSB.2 hn,
              parseStep_block env recur lt tpl i g2 l hEl hT hX hSB2.1 hSB2.2 hn]
            rcases option_map_eq_cases _ _ _ (appendChildren_alike env hcls ls lt hal
              (.block ⟨(Split (TrimSpace l) ' ').getD 1 "", tpl, []⟩)
              (.block ⟨(Split (TrimSpace l) ' ').getD 1 "", tpl, []⟩) (i + 1) indentTop false ""
              rfl) with ⟨hn1, hn2⟩ | ⟨a, b, ha, hb, hab⟩
            · rw [hn1, hn2]
            · rw [ha, hb]
              simp only [Res.eraseText, Res.mk.injEq] at hab
              obtain ⟨hkids, hcur, herr⟩ := hab
              have hmod : (g1.modify tpl fun t =>
                  t.AddBlock ((Split (TrimSpace l) ' ').getD 1 "")
                    ⟨(Split (TrimSpace l) ' ').getD 1 "", tpl, a.children⟩).eraseText =
                  (g2.modify tpl fun t =>
                  t.AddBlock ((Split (TrimSpace l) ' ').getD 1 "")
                    ⟨(Split (TrimSpace l) ' ').getD 1 "", tpl, b.children⟩).eraseText := by
                apply Generator.modify_alike _ _ _ _ _ hg
                apply Template.eraseText_addBlock _ _ _ _ _ (hstore tpl)
                simp [Block.eraseText, hkids]
              cases hea : a.err with
              | some err =>
                have heb : b.err = some err := by rw [← herr, hea]
                simp only [hea, heb, Option.map_some', Step.eraseText, hmod]
              | none =>
                have heb : b.err = none := by rw [← herr, hea]
                simp only [hea, heb, Option.map_some', Step.eraseText, hmod, hcur]
          · rw [parseStep_block_arity env recur ls tpl i g1 l hEl hT hX hSB.1 hSB.2 hn,
              parseStep_block_arity env recur lt tpl i g2 l hEl hT hX hSB2.1 hSB2.2 hn]
            simp [Step.eraseText, hg]
        | false =>
          have hSB2 : ((g2.store tpl).Super.isSome && isBlock l) = false := by
            rw [← hSuper]; exact hSB
          rw [parseStep_element env recur ls tpl i g1 l hEl hT hX hSB,
            parseStep_element env recur lt tpl i g2 l hEl hT hX hSB2]
          cases hne : NewElement env l (i + 1) indentTop none (some tpl) none with
          | error err => simp [Step.eraseText, hg]
          | ok e =>
            simp only
            rcases option_map_eq_cases _ _ _ (appendChildren_alike env hcls ls lt hal
              (.element e) (.element e) (i + 1) indentTop e.RawContent e.Typ rfl) with
              ⟨hn1, hn2⟩ | ⟨a, b, ha, hb, hab⟩
            · rw [hn1, hn2]
            · rw [ha, hb]
              simp only [Res.eraseText, Res.mk.injEq] at hab
              obtain ⟨hkids, hcur, herr⟩ := hab
              have hmod : (g1.modify tpl fun t =>
                  t.AppendElement { e with Children := a.children }).eraseText =
                  (g2.modify tpl fun t =>
                  t.AppendElement { e with Children := b.children }).eraseText := by
                apply Generator.modify_alike _ _ _ _ _ hg
                apply Template.eraseText_appendElement _ _ _ _ (hstore tpl)
                simp [Element.eraseText, hkids]
              cases hea : a.err with
              | some err =>
                have heb : b.err = some err := by rw [← herr, hea]
                simp only [hea, heb, Option.map_some', Step.eraseText, hmod]
              | none =>
                have heb : b.err = none := by rw [← herr, hea]
                simp only [hea, heb, Option.map_some', Step.eraseText, hmod, hcur]

/-- The loop of Parse on two lists of lines that are alike, from two generators
that differ in the texts of the lines only: the two runs return the same error
or nil, and generators that differ in these texts only, or neither returns. -/
theorem parseLoop_alike (env : Env) (hcls : env.ClassifiesByContent)
    (recur : Generator → String → Option (Generator × Except String Ptr))
    (hrec : TextBlind recur) (ls lt : List String) (hal : LinesAlike ls lt) (tpl : Ptr)
    (fuel : Nat) :
    ∀ i g1 g2, g1.eraseText = g2.eraseText →
      (parseLoop env recur ls tpl fuel i g1).map (fun r => (r.1.eraseText, r.2)) =
        (parseLoop env recur lt tpl fuel i g2).map (fun r => (r.1.eraseText, r.2)) := by
  induction fuel with
  | zero =>
    intro i g1 g2 hg
    cases h1 : ls[i]? with
    | none =>
      have h2 : lt[i]? = none := by
        rw [List.getElem?_eq_none_iff] at h1 ⊢
        have := hal.1
        omega
      simp [parseLoop, h1, h2, hg]
    | some l =>
      have hlt : i < ls.length := (List.getElem?_eq_some_iff.mp h1).1
      have hlt2 : i < lt.length := by have := hal.1; omega
      obtain ⟨l2, h2⟩ : ∃ l2, lt[i]? = some l2 := ⟨lt[i], List.getElem?_eq_getElem hlt2⟩
      simp [parseLoop, h1, h2]
  | succ n ih =>
    intro i g1 g2 hg
    cases h1 : ls[i]? with
    | none =>
      have h2 : lt[i]? = none := by
        rw [List.getElem?_eq_none_iff] at h1 ⊢
        have := hal.1
        omega
      simp [parseLoop, h1, h2, hg]
    | some l =>
      have hlt : i < ls.length := (List.getElem?_eq_some_iff.mp h1).1
      have hlt2 : i < lt.length := by have := hal.1; omega
      obtain ⟨l2, h2⟩ : ∃ l2, lt[i]? = some l2 := ⟨lt[i], List.getElem?_eq_getElem hlt2⟩
      rw [parseLoop, parseLoop]
      simp only [h1, h2]
      rcases option_map_eq_cases _ _ _
        (parseStep_alike env hcls recur hrec ls lt hal tpl i g1 g2 l l2 h1 h2 hg) with
        ⟨hn1, hn2⟩ | ⟨a, b, ha, hb, hab⟩
      · rw [hn1, hn2]
      · rw [ha, hb]
        cases a with
        | fail ga erra =>
          cases b with
          | fail gb errb =>
            simp only [Step.eraseText, Step.fail.injEq] at hab
            simp [hab.1, hab.2]
          | next ib gb => simp [Step.eraseText] at hab
        | next ia ga =>
          cases b with
          | fail gb errb => simp [Step.eraseText] at hab
          | next ib gb =>
            simp only [Step.eraseText, Step.next.injEq] at hab
            simp only
            rw [hab.1]
            exact ih ib ga gb hab.2

theorem NewTemplate_alike (g1 g2 : Generator) (path : String)
    (hg : g1.eraseText = g2.eraseText) :
    (NewTemplate g1 path).1.eraseText = (NewTemplate g2 path).1.eraseText := by
  obtain ⟨hc, hgt, hnx, hst⟩ := Generator.eraseText_fields g1 g2 hg
  refine Generator.eraseText_of_fields _ _ hc hgt (by simp [NewTemplate, hnx]) ?_
  intro p
  simp only [NewTemplate, hnx]
  by_cases hp : p = g2.next
  · subst hp
    rw [Function.update_same, Function.update_same]
  · rw [Function.update_noteq hp, Function.update_noteq hp]
    exact hst p

/-- The method Parse is not steered by the texts of the lines parsed before,
under a classification by content. -/
theorem Parse_textBlind (env : Env) (hcls : env.ClassifiesByContent) (fuel : Nat) :
    TextBlind (Parse env fuel) := by
  induction fuel with
  | zero => intro g1 g2 path _; rfl
  | succ n ih =>
    intro g1 g2 path hg
    obtain ⟨hc, hgt, hnx, hst⟩ := Generator.eraseText_fields g1 g2 hg
    cases hhit : (if g2.cache then g2.gtemplates.lookup path else none) with
    | some tpl =>
      have hhit1 : (if g1.cache then g1.gtemplates.lookup path else none) = some tpl := by
        rw [hc, hgt]; exact hhit
      rw [Parse, Parse]
      simp only [hhit, hhit1, Option.map_some', hg]
    | none =>
      have hhit1 : (if g1.cache then g1.gtemplates.lookup path else none) = none := by
        rw [hc, hgt]; exact hhit
      cases hread : env.ReadFile path with
      | error err =>
        rw [Parse, Parse]
        simp only [hhit, hhit1, hread, Option.map_some', hg]
      | ok b =>
        rw [Parse_miss env n g1 path b hhit1 hread, Parse_miss env n g2 path b hhit hread, hnx]
        have hloop := parseLoop_alike env hcls (Parse env n) ih (Split (formatLf b) '\n')
          (Split (formatLf b) '\n') (linesAlike_refl _) g2.next
          ((Split (formatLf b) '\n').length - 0) 0 _ _ (NewTemplate_alike g1 g2 path hg)
        rcases option_map_eq_cases _ _ _ hloop with ⟨hn1, hn2⟩ | ⟨a, b2, ha, hb, hab⟩
        · simp only [parseFrom, hn1, hn2]
        · simp only [parseFrom, ha, hb]
          obtain ⟨ga, ea⟩ := a
          obtain ⟨gb, eb⟩ := b2
          simp only [Prod.mk.injEq] at hab
          obtain ⟨hgab, he⟩ := hab
          subst he
          cases ea with
          | some err => simp only [Option.map_some', hgab]
          | none =>
            obtain ⟨hc2, hgt2, hnx2, hst2⟩ := Generator.eraseText_fields ga gb hgab
            simp only [Option.map_some', Option.some.injEq, Prod.mk.injEq, and_true]
            rw [hc2]
            split
            · exact Generator.eraseText_of_fields _ _ hc2
                (by simp [Generator.storeTemplate, hgt2]) hnx2 hst2
            · exact hgab

/-- C1: under a classification that depends only on the line with its leading
white space removed, the two indentations of a template source, 2 spaces or 1
tab for each nesting level, give the same result from the loop of Parse and
from appendChildren: both runs return or neither does, with the same error or
both with none, the same cursor, and trees that are equal once the texts of the
lines are taken out, that is in shape, line numbers, indentation depths and
classification. -/
theorem Parse_indentation_invariant (env : Env) (hcls : env.ClassifiesByContent)
    (src : List SourceLine) :
    (∀ (fuel : Nat) (tpl : Ptr) (g : Generator),
      (parseLines env (Parse env fuel) (src.map SourceLine.withSpaces) tpl g).map
          (fun r => (r.1.eraseText, r.2)) =
        (parseLines env (Parse env fuel) (src.map SourceLine.withTabs) tpl g).map
          (fun r => (r.1.eraseText, r.2))) ∧
    (∀ (parent : Container) (i pI : Nat) (raw : Bool) (ty : String),
      (appendChildren env parent (src.map SourceLine.withSpaces) i pI raw ty).map Res.eraseText =
        (appendChildren env parent (src.map SourceLine.withTabs) i pI raw ty).map
          Res.eraseText) := by
  constructor
  · intro fuel tpl g
    have h := parseLoop_alike env hcls (Parse env fuel) (Parse_textBlind env hcls fuel)
      (src.map SourceLine.withSpaces) (src.map SourceLine.withTabs)
      (linesAlike_indentations src) tpl (src.map SourceLine.withSpaces).length 0 g g rfl
    have hlen : (src.map SourceLine.withSpaces).length = (src.map SourceLine.withTabs).length := by
      simp
    unfold parseLines
    rw [← hlen]
    exact h
  · intro parent i pI raw ty
    exact appendChildren_alike env hcls _ _ (linesAlike_indentations src) parent parent i pI raw
      ty rfl

/-- C1, on an instance: a div with a paragraph and a line of text under it,
indented by spaces and by tabs. -/
theorem Parse_indentation_invariant_witness :
    [SourceLine.mk 0 "div", ⟨1, "p"⟩, ⟨2, "| text"⟩].map SourceLine.withSpaces =
      ["div", "  p", "    | text"] ∧
    [SourceLine.mk 0 "div", ⟨1, "p"⟩, ⟨2, "| text"⟩].map SourceLine.withTabs =
      ["div", "\tp", "\t\t| text"] ∧
    (parseLines contentEnv (Parse contentEnv 1)
        ([SourceLine.mk 0 "div", ⟨1, "p"⟩, ⟨2, "| text"⟩].map SourceLine.withSpaces) 0
        (NewTemplate (NewGenerator false) "div.gold").1).map
        (fun r => (r.1.eraseText, r.2)) =
      (parseLines contentEnv (Parse contentEnv 1)
        ([SourceLine.mk 0 "div", ⟨1, "p"⟩, ⟨2, "| text"⟩].map SourceLine.withTabs) 0
        (NewTemplate (NewGenerator false) "div.gold").1).map
        (fun r => (r.1.eraseText, r.2)) :=
  ⟨by decide, by decide,
    (Parse_indentation_invariant contentEnv ⟨contentKind, fun _ _ _ _ _ _ => rfl⟩
      [SourceLine.mk 0 "div", ⟨1, "p"⟩, ⟨2, "| text"⟩]).1 1 0
      (NewTemplate (NewGenerator false) "div.gold").1⟩

/-! ## The Super and Sub links under caching -/

/-- C8 fails as stated, with caching on: a.gold and b.gold both extend
base.gold; Parse of a.gold returns Template 0 and Parse of b.gold then returns
Template 2, both without error, and afterwards the Super link of Template 0 is
Template 1, that of base.gold, while the Sub link of Template 1 is Template 2. -/
theorem Parse_cached_super_sub :
    ((Parse sampleEnv 2 (NewGenerator true) "a.gold").bind fun r1 =>
      (Parse sampleEnv 2 r1.1 "b.gold").map fun r2 =>
        (r1.2.toOption, r2.2.toOption, (r2.1.store 0).Super, (r2.1.store 1).Sub,
          (r2.1.store 2).Super)) =
      some (some 0, some 2, some 1, some 2, some 1) := by
  decide!

/-! ## The Super and Sub links without caching -/

/-- Writing the blocks or the elements of the Template under construction keeps
what the loop of Parse keeps. -/
theorem LoopSound.modify_content (g0 : Generator) (tpl : Nat) (g : Generator)
    (f : Template → Template) (hf : ∀ t, (f t).Super = t.Super ∧ (f t).Sub = t.Sub)
    (h : LoopSound g0 tpl g) : LoopSound g0 tpl (g.modify tpl f) := by
  obtain ⟨hc, hs, hn, hfr⟩ := h
  have hlinks : ∀ q, ((g.modify tpl f).store q).Super = (g.store q).Super ∧
      ((g.modify tpl f).store q).Sub = (g.store q).Sub := by
    intro q
    by_cases hq : q = tpl
    · subst hq
      rw [Generator.modify_store_same]
      exact hf _
    · rw [Generator.modify_store_other g tpl q f hq]
      exact ⟨rfl, rfl⟩
  refine ⟨hc, ?_, hn, ?_⟩
  · intro p q hp hsup
    rw [(hlinks p).1] at hsup
    obtain ⟨h1, h2, h3⟩ := hs p q hp hsup
    exact ⟨h1, h2, by rw [(hlinks q).2]; exact h3⟩
  · intro p hp
    rw [Generator.modify_store_other g tpl p f (by omega)]
    exact hfr p hp

/-- An extends line whose file was parsed into a new Template q that no
Template has as its Super: writing the two links keeps what the loop keeps. -/
theorem LoopSound.link (g0 : Generator) (tpl q : Nat) (gi gq : Generator)
    (hi : LoopSound g0 tpl gi) (hc : gq.cache = false) (hs : gq.LinksSound)
    (hfr : ∀ p, p < gi.next → gq.store p = gi.store p)
    (hq1 : gi.next ≤ q) (hq2 : q < gq.next)
    (hq3 : ∀ p, p < gq.next → (gq.store p).Super ≠ some q) :
    LoopSound g0 tpl
      ((gq.modify q fun t => { t with Sub := some tpl }).modify tpl
        fun t => { t with Super := some q }) := by
  obtain ⟨_, _, hn, hfr0⟩ := hi
  have hne : tpl ≠ q := by omega
  have hstore : ∀ r, r ≠ tpl → r ≠ q →
      (((gq.modify q fun t => { t with Sub := some tpl }).modify tpl
        fun t => { t with Super := some q }).store r) = gq.store r := by
    intro r h1 h2
    rw [Generator.modify_store_other _ tpl r _ h1, Generator.modify_store_other _ q r _ h2]
  have hstoreT : (((gq.modify q fun t => { t with Sub := some tpl }).modify tpl
        fun t => { t with Super := some q }).store tpl) =
      { gq.store tpl with Super := some q } := by
    rw [Generator.modify_store_same, Generator.modify_store_other _ q tpl _ hne]
  have hstoreQ : (((gq.modify q fun t => { t with Sub := some tpl }).modify tpl
        fun t => { t with Super := some q }).store q) =
      { gq.store q with Sub := some tpl } := by
    rw [Generator.modify_store_other _ tpl q _ (Ne.symm hne), Generator.modify_store_same]
  refine ⟨hc, ?_, by simp only [Generator.modify_next]; omega, ?_⟩
  · intro p r hp hsup
    simp only [Generator.modify_next] at hp ⊢
    by_cases hpt : p = tpl
    · subst hpt
      rw [hstoreT] at hsup
      simp only [Option.some.injEq] at hsup
      subst hsup
      refine ⟨by omega, hq2, ?_⟩
      rw [hstoreQ]
    · have hsup2 : (gq.store p).Super = some r := by
        by_cases hpq : p = q
        · subst hpq
          rw [hstoreQ] at hsup
          exact hsup
        · rw [hstore p hpt hpq] at hsup
          exact hsup
      obtain ⟨h1, h2, h3⟩ := hs p r hp hsup2
      have hrq : r ≠ q := by
        intro hr
        subst hr
        exact hq3 p hp hsup2
      refine ⟨h1, h2, ?_⟩
      by_cases hrt : r = tpl
      · subst hrt
        rw [hstoreT]
        exact h3
      · rw [hstore r hrt hrq]
        exact h3
  · intro p hp
    rw [hstore p (by omega) (by omega), hfr p (by omega)]
    exact hfr0 p hp

/-- One turn of the loop of Parse keeps, without caching, what the loop keeps. -/
theorem parseStep_loopSound (env : Env)
    (recur : Generator → String → Option (Generator × Except String Ptr))
    (hrec : ReturnsFresh recur) (lines : List String) (g0 : Generator) (tpl : Nat) (i : Nat)
    (g : Generator) (line : String) (st : Step)
    (h : parseStep env recur lines tpl i g line = some st) (hi : LoopSound g0 tpl g) :
    LoopSound g0 tpl st.gen := by
  cases hE : empty line with
  | true =>
    rw [parseStep_blank env recur lines tpl i g line hE] at h
    cases h; exact hi
  | false =>
    cases hT : topElement line with
    | false =>
      rw [parseStep_indented env recur lines tpl i g line hE hT] at h
      cases h; exact hi
    | true =>
      cases hX : isExtends line with
      | true =>
        by_cases hn : (Split (TrimSpace line) ' ').length = 2
        · rw [parseStep_extends env recur lines tpl i g line hE hT hX hn] at h
          split at h
          · cases h
          · rename_i gq err hr
            cases h
            obtain ⟨hc, hs, hnext, hfr, _⟩ := hrec _ _ _ _ hi.1 hi.2.1 hr
            have hlt := hi.2.2.1
            show LoopSound g0 tpl gq
            refine ⟨hc, hs, by omega, ?_⟩
            intro p hp
            rw [hfr p (by omega)]
            exact hi.2.2.2 p hp
          · rename_i gq q hr
            cases h
            obtain ⟨hc, hs, hnext, hfr, hq⟩ := hrec _ _ _ _ hi.1 hi.2.1 hr
            obtain ⟨hq1, hq2, hq3⟩ := hq q rfl
            exact LoopSound.link g0 tpl q g gq hi hc hs hfr hq1 hq2 hq3
        · rw [parseStep_extends_arity env recur lines tpl i g line hE hT hX hn] at h
          cases h; exact hi
      | false =>
        cases hSB : ((g.store tpl).Super.isSome && isBlock line) with
        | true =>
          simp only [Bool.and_eq_true] at hSB
          by_cases hn : (Split (TrimSpace line) ' ').length = 2
          · rw [parseStep_block env recur lines tpl i g line hE hT hX hSB.1 hSB.2 hn] at h
            split at h
            · cases h
            · split at h <;> cases h <;> simp only [Step.gen] <;>
                exact LoopSound.modify_content g0 tpl g _ (fun _ => ⟨rfl, rfl⟩) hi
          · rw [parseStep_block_arity env recur lines tpl i g line hE hT hX hSB.1 hSB.2 hn] at h
            cases h; exact hi
        | false =>
          rw [parseStep_element env recur lines tpl i g line hE hT hX hSB] at h
          split at h
          · cases h; exact hi
          · split at h
            · cases h
            · split at h <;> cases h <;> simp only [Step.gen] <;>
                exact LoopSound.modify_content g0 tpl g _ (fun _ => ⟨rfl, rfl⟩) hi

/-- Without caching, every call of Parse returns a new Template and keeps the
links sound. -/
theorem Parse_returnsFresh (env : Env) (fuel : Nat) : ReturnsFresh (Parse env fuel) := by
  induction fuel with
  | zero => intro g path g2 res _ _ h; simp [Parse] at h
  | succ n ih =>
    intro g path g2 res hc hs h
    have hmiss : (if g.cache then g.gtemplates.lookup path else none) = none := by simp [hc]
    cases hread : env.ReadFile path with
    | error err =>
      rw [Parse] at h
      simp only [hmiss, hread] at h
      cases h
      exact ⟨hc, hs, Nat.le_refl _, fun _ _ => rfl, fun t ht => by cases ht⟩
    | ok b =>
      rw [Parse_miss env n g path b hmiss hread] at h
      have hstart : LoopSound g g.next (NewTemplate g path).1 := by
        have hst : ∀ p, p < g.next → (NewTemplate g path).1.store p = g.store p := by
          intro p hp
          simp only [NewTemplate]
          rw [Function.update_noteq (Nat.ne_of_lt hp)]
        have hnew : (NewTemplate g path).1.store g.next = ⟨path, none, none, [], []⟩ := by
          simp [NewTemplate]
        refine ⟨hc, ?_, by simp [NewTemplate], hst⟩
        intro p q hp hsup
        have hp2 : p < g.next + 1 := hp
        by_cases hpt : p = g.next
        · subst hpt
          rw [hnew] at hsup
          cases hsup
        · have hlt : p < g.next := by omega
          rw [hst p hlt] at hsup
          obtain ⟨h1, h2, h3⟩ := hs p q hlt hsup
          refine ⟨h1, ?_, ?_⟩
          · show q < g.next + 1
            omega
          rw [hst q h2]
          exact h3
      cases hloop : parseFrom env (Parse env n) (Split (formatLf b) '\n') g.next 0
          (NewTemplate g path).1 with
      | none => simp only [hloop] at h; cases h
      | some lr =>
        have hend : LoopSound g g.next lr.1 :=
          parseFrom_invariant env (Parse env n) (Split (formatLf b) '\n') g.next
            (fun a c => LoopSound g g.next a → LoopSound g g.next c) 0
            (fun _ hx => hx) (fun _ _ _ h1 h2 hx => h2 (h1 hx))
            (fun i g1 line st _ _ hstep hx =>
              parseStep_loopSound env _ ih _ g g.next i g1 line st hstep hx)
            (Split (formatLf b) '\n').length 0 _ lr (Nat.le_refl _) (by omega) hloop hstart
        obtain ⟨g3, oerr⟩ := lr
        obtain ⟨hc3, hs3, hn3, hfr3⟩ := hend
        simp only at hc3 hs3 hn3 hfr3
        cases oerr with
        | some err =>
          simp only [hloop] at h
          cases h
          exact ⟨hc3, hs3, by omega, hfr3, fun t ht => by cases ht⟩
        | none =>
          simp only [hloop, hc3, Bool.false_eq_true, if_false, Option.some.injEq,
            Prod.mk.injEq] at h
          obtain ⟨hg, hres⟩ := h
          subst hg hres
          refine ⟨hc3, hs3, by omega, hfr3, ?_⟩
          intro t ht
          cases ht
          refine ⟨Nat.le_refl _, hn3, ?_⟩
          intro p hp hsup
          obtain ⟨h1, _, _⟩ := hs3 p g.next hp hsup
          rw [hfr3 p h1] at hsup
          obtain ⟨_, h2, _⟩ := hs p g.next h1 hsup
          omega

theorem parseAll_linksSound (env : Env) (calls : List (Nat × String)) :
    ∀ g g2, g.cache = false → g.LinksSound → parseAll env g calls = some g2 →
      g2.cache = false ∧ g2.LinksSound := by
  induction calls with
  | nil =>
    intro g g2 hc hs h
    simp only [parseAll, Option.some.injEq] at h
    subst h
    exact ⟨hc, hs⟩
  | cons call rest ih =>
    intro g g2 hc hs h
    obtain ⟨fuel, path⟩ := call
    simp only [parseAll] at h
    cases hp : Parse env fuel g path with
    | none => simp only [hp] at h; cases h
    | some r =>
      obtain ⟨g1, res⟩ := r
      simp only [hp] at h
      obtain ⟨hc1, hs1, _, _, _⟩ := Parse_returnsFresh env fuel g path g1 res hc hs hp
      exact ih g1 g2 hc1 hs1 h

/-- C8, as amended: with caching disabled, after any sequence of calls of Parse
on a new generator, every Template T allocated, and so every Template
returned, satisfies: if the Super link of T is S, then the Sub link of S is T. -/
theorem parseAll_links_reciprocal (env : Env) (calls : List (Nat × String)) (g : Generator)
    (h : parseAll env (NewGenerator false) calls = some g) :
    ∀ p q : Nat, p < g.next → (g.store p).Super = some q → (g.store q).Sub = some p := by
  have hstart : (NewGenerator false).LinksSound := by
    intro p q hp _
    exact absurd hp (Nat.not_lt_zero p)
  obtain ⟨_, hs⟩ := parseAll_linksSound env calls (NewGenerator false) g rfl hstart h
  intro p q hp hsup
  exact (hs p q hp hsup).2.2

/-- C8, as amended, on an instance: without caching, a.gold and then b.gold are
parsed, both extending base.gold. -/
theorem parseAll_links_reciprocal_witness :
    ∃ g, parseAll sampleEnv (NewGenerator false) [(2, "a.gold"), (2, "b.gold")] = some g ∧
      ∀ p q : Nat, p < g.next → (g.store p).Super = some q → (g.store q).Sub = some p :=
  ⟨_, rfl,
    parseAll_links_reciprocal sampleEnv [(2, "a.gold"), (2, "b.gold")] _ rfl⟩

/-! ## The caches -/

theorem lookup_filter_append {β : Type} (l : List (String × β)) (k p : String) (v : β) :
    (l.filter (fun kv => kv.1 != k) ++ [(k, v)]).lookup p =
      if p = k then some v else l.lookup p := by
  induction l with
  | nil =>
    by_cases hp : p = k
    · simp [List.lookup, hp]
    · have hpk : (p == k) = false := by simp [hp]
      simp [List.lookup, hp, hpk]
  | cons a l ih =>
    obtain ⟨a1, a2⟩ := a
    by_cases ha : a1 = k
    · subst ha
      simp only [List.filter, bne_self_eq_false]
      rw [ih]
      by_cases hp : p = a1
      · simp [hp]
      · have hpk : (p == a1) = false := by simp [hp]
        simp [List.lookup, hp, hpk]
    · have hne : (a1 != k) = true := by simp [ha]
      simp only [List.filter, hne, List.cons_append, List.lookup]
      rw [ih]
      by_cases hpa : p = a1
      · subst hpa
        simp [ha]
      · have : (p == a1) = false := by simp [hpa]
        simp [this]

theorem Generator.CacheKept.same (g : Generator) : g.CacheKept g := ⟨rfl, fun _ _ h => h⟩

theorem Generator.CacheKept.chain (a b c : Generator) (h1 : a.CacheKept b)
    (h2 : b.CacheKept c) : a.CacheKept c :=
  ⟨h2.1.trans h1.1, fun p t h => h2.2 p t (h1.2 p t h)⟩

theorem Generator.CacheKept.modify (g : Generator) (p : Ptr) (f : Template → Template) :
    g.CacheKept (g.modify p f) := ⟨rfl, fun _ _ h => h⟩

/-- A turn of the loop of Parse keeps the cache, when the recursive calls do. -/
theorem parseStep_cacheKept (env : Env)
    (recur : Generator → String → Option (Generator × Except String Ptr))
    (hrec : ∀ g path g2 res, recur g path = some (g2, res) → g.CacheKept g2)
    (lines : List String) (tpl : Ptr) (i : Nat) (g : Generator) (line : String) (st : Step)
    (h : parseStep env recur lines tpl i g line = some st) :
    g.CacheKept st.gen := by
  cases hE : empty line with
  | true =>
    rw [parseStep_blank env recur lines tpl i g line hE] at h
    cases h; exact Generator.CacheKept.same _
  | false =>
    cases hT : topElement line with
    | false =>
      rw [parseStep_indented env recur lines tpl i g line hE hT] at h
      cases h; exact Generator.CacheKept.same _
    | true =>
      cases hX : isExtends line with
      | true =>
        by_cases hn : (Split (TrimSpace line) ' ').length = 2
        · rw [parseStep_extends env recur lines tpl i g line hE hT hX hn] at h
          split at h
          · cases h
          · rename_i g2 err hr
            cases h
            exact hrec _ _ _ _ hr
          · rename_i g2 superTpl hr
            cases h
            exact ⟨(hrec _ _ _ _ hr).1, (hrec _ _ _ _ hr).2⟩
        · rw [parseStep_extends_arity env recur lines tpl i g line hE hT hX hn] at h
          cases h; exact Generator.CacheKept.same _
      | false =>
        cases hSB : ((g.store tpl).Super.isSome && isBlock line) with
        | true =>
          simp only [Bool.and_eq_true] at hSB
          by_cases hn : (Split (TrimSpace line) ' ').length = 2
          · rw [parseStep_block env recur lines tpl i g line hE hT hX hSB.1 hSB.2 hn] at h
            split at h
            · cases h
            · split at h <;> cases h <;> exact ⟨rfl, fun _ _ hp => hp⟩
          · rw [parseStep_block_arity env recur lines tpl i g line hE hT hX hSB.1 hSB.2 hn] at h
            cases h; exact Generator.CacheKept.same _
        | false =>
          rw [parseStep_element env recur lines tpl i g line hE hT hX hSB] at h
          split at h
          · cases h; exact Generator.CacheKept.same _
          · split at h
            · cases h
            · split at h <;> cases h <;> exact ⟨rfl, fun _ _ hp => hp⟩

/-- The method Parse keeps the switch of the cache and the entries stored
before the call, and a successful call with caching on leaves its path stored
with the Template it returns. -/
theorem Parse_cacheKept (env : Env) (fuel : Nat) :
    ∀ g path g2 res, Parse env fuel g path = some (g2, res) →
      g.CacheKept g2 ∧
      ∀ t, res = .ok t → g.cache = true → g2.gtemplates.lookup path = some t := by
  induction fuel with
  | zero => intro g path g2 res h; simp [Parse] at h
  | succ n ih =>
    intro g path g2 res h
    cases hhit : (if g.cache then g.gtemplates.lookup path else none) with
    | some tpl =>
      rw [Parse] at h
      simp only [hhit] at h
      cases h
      refine ⟨Generator.CacheKept.same _, fun t ht hc => ?_⟩
      cases ht
      simpa [hc] using hhit
    | none =>
      cases hread : env.ReadFile path with
      | error err =>
        rw [Parse] at h
        simp only [hhit, hread] at h
        cases h
        exact ⟨Generator.CacheKept.same _, fun t ht => by cases ht⟩
      | ok b =>
        rw [Parse_miss env n g path b hhit hread] at h
        cases hloop : parseFrom env (Parse env n) (Split (formatLf b) '\n') g.next 0
            (NewTemplate g path).1 with
        | none => simp only [hloop] at h; cases h
        | some lr =>
          have hk := parseFrom_invariant env (Parse env n) (Split (formatLf b) '\n') g.next
            Generator.CacheKept 0 Generator.CacheKept.same Generator.CacheKept.chain
            (fun i g1 line st _ _ hs =>
              parseStep_cacheKept env _ (fun a b c d e => (ih a b c d e).1) _ g.next i g1 line
                st hs)
            (Split (formatLf b) '\n').length 0 _ lr (Nat.le_refl _) (by omega) hloop
          have hk0 : g.CacheKept lr.1 := ⟨hk.1, fun p t hp => hk.2 p t hp⟩
          obtain ⟨g3, oerr⟩ := lr
          cases oerr with
          | some err =>
            simp only [hloop] at h
            cases h
            exact ⟨hk0, fun t ht => by cases ht⟩
          | none =>
            simp only [hloop, Option.some.injEq, Prod.mk.injEq] at h
            obtain ⟨hg, hres⟩ := h
            subst hres
            have hc3 : g3.cache = g.cache := hk0.1
            by_cases hc : g.cache = true
            · rw [hc3, hc] at hg
              simp only [if_true] at hg
              subst hg
              have hmiss : g.gtemplates.lookup path = none := by simpa [hc] using hhit
              refine ⟨⟨hc3, fun p t hp => ?_⟩, fun t ht _ => ?_⟩
              · simp only [Generator.storeTemplate]
                rw [lookup_filter_append]
                by_cases hpp : p = path
                · subst hpp; rw [hmiss] at hp; cases hp
                · simp only [hpp, if_false]; exact hk0.2 p t hp
              · cases ht
                simp only [Generator.storeTemplate]
                rw [lookup_filter_append]
                simp
            · have hcf : g3.cache = false := by rw [hc3]; simpa using hc
              rw [hcf] at hg
              simp only [Bool.false_eq_true, if_false] at hg
              subst hg
              exact ⟨hk0, fun t _ hct => absurd hct hc⟩

/-- A sequence of calls of Parse keeps the cache. -/
theorem parseAll_cacheKept (env : Env) (calls : List (Nat × String)) :
    ∀ g g2, parseAll env g calls = some g2 → g.CacheKept g2 := by
  induction calls with
  | nil => intro g g2 h; simp only [parseAll, Option.some.injEq] at h; subst h
           exact Generator.CacheKept.same _
  | cons c rest ih =>
    intro g g2 h
    obtain ⟨fuel, path⟩ := c
    simp only [parseAll] at h
    cases hp : Parse env fuel g path with
    | none => simp only [hp] at h; cases h
    | some r =>
      obtain ⟨g1, res⟩ := r
      simp only [hp] at h
      exact Generator.CacheKept.chain _ _ _ (Parse_cacheKept env fuel g path g1 res hp).1
        (ih g1 g2 h)

/-- C11: with caching enabled, after Parse of a path has succeeded with Template
t, the path is stored with t in the map gtemplates; it stays stored with t
through any further calls of Parse on the same generator, and Parse of the path
then returns the same pointer t and the generator as it was, whatever the file
system holds then (the file is not read or parsed again); Parse does not touch
the map templates.  Likewise, after ParseFile of a path has succeeded with the
compiled template c, the path is stored with c in the map templates: c is the
pointer that was stored before, or else a new compiled template, made by the
compiler from the text that Html gives for the Template t; and a second
ParseFile of the path returns the stored pointer c and the generator as it was,
without a call of Parse, Html or the compiler. -/
theorem Parse_cached_again (env : Env) (fuel : Nat) (g g1 : Generator) (path : String)
    (t : Ptr) (hc : g.cache = true) (h : Parse env fuel g path = some (g1, .ok t)) :
    g1.cache = true ∧ g1.gtemplates.lookup path = some t ∧
    (∀ env2 calls g2, parseAll env2 g1 calls = some g2 →
      g2.gtemplates.lookup path = some t ∧
      ∀ env3 n, Parse env3 (n + 1) g2 path = some (g2, .ok t)) ∧
    (∀ rd (G G1 : FileGenerator) (c : HtmlPtr), G.gen = g →
      ParseFile env rd fuel G path = some (G1, .ok c) →
      G1.templates.lookup path = some c ∧
      (∀ c0, G.templates.lookup path = some c0 → G1 = G ∧ c = c0) ∧
      (G.templates.lookup path = none →
        G1.gen = g1 ∧ c = G.nextCompiled ∧ G1.nextCompiled = G.nextCompiled + 1 ∧
        ∃ html, rd.Html g1 t = .ok html ∧ rd.compile path html = .ok (G1.compiled c)) ∧
      ∀ env3 rd3 n, ParseFile env3 rd3 n G1 path = some (G1, .ok c)) := by
  obtain ⟨hk, hst⟩ := Parse_cacheKept env fuel g path g1 (.ok t) h
  have hc1 : g1.cache = true := by rw [hk.1, hc]
  refine ⟨hc1, hst t rfl hc, ?_, ?_⟩
  · intro env2 calls g2 hcalls
    have hk2 := parseAll_cacheKept env2 calls g1 g2 hcalls
    have hc2 : g2.cache = true := by rw [hk2.1, hc1]
    have hstored := hk2.2 path t (hst t rfl hc)
    exact ⟨hstored, fun env3 n => Parse_hit env3 n g2 path t hc2 hstored⟩
  · intro rd G G1 c hG hpf
    subst hG
    unfold ParseFile at hpf
    simp only [hc, if_true] at hpf
    cases hhit : G.templates.lookup path with
    | some tpl =>
      simp only [hhit, Option.some.injEq, Prod.mk.injEq, Except.ok.injEq] at hpf
      obtain ⟨hG1, htpl⟩ := hpf
      subst hG1 htpl
      refine ⟨hhit, ?_, ?_, ?_⟩
      · intro c0 h0
        cases h0
        exact ⟨rfl, rfl⟩
      · intro h0; cases h0
      · intro env3 rd3 n
        unfold ParseFile
        simp only [hc, if_true, hhit]
    | none =>
      simp only [hhit, h] at hpf
      cases hhtml : rd.Html g1 t with
      | error e => simp only [hhtml] at hpf; cases hpf
      | ok html =>
        simp only [hhtml] at hpf
        cases hcomp : rd.compile path html with
        | error e => simp only [hcomp] at hpf; cases hpf
        | ok tt =>
          simp only [hcomp, hc1, if_true, Option.some.injEq, Prod.mk.injEq,
            Except.ok.injEq] at hpf
          obtain ⟨hG1, hcc⟩ := hpf
          subst hG1 hcc
          have hlook : (G.templates.filter (fun kv => kv.1 != path) ++
              [(path, G.nextCompiled)]).lookup path = some G.nextCompiled := by
            rw [lookup_filter_append]; simp
          refine ⟨hlook, ?_, ?_, ?_⟩
          · intro c0 h0; cases h0
          · intro _
            exact ⟨rfl, rfl, rfl, html, rfl, by simp [hcomp]⟩
          · intro env3 rd3 n
            unfold ParseFile
            simp only [hc1, if_true, hlook]

/-- C11, on an instance: Parse of a.gold with caching on stores a.gold with
Template 0; after Parse of b.gold and of plain.gold it is still stored, and
Parse of a.gold on a file system without files returns Template 0.  ParseFile
of a.gold stores a.gold with the compiled template 0, made from the text of
Template 0, and ParseFile of a.gold again, with a renderer that fails, returns
the compiled template 0. -/
theorem Parse_cached_again_witness :
    (NewGenerator true).cache = true ∧
    ∃ g1, Parse sampleEnv 2 (NewGenerator true) "a.gold" = some (g1, .ok 0) ∧
      g1.gtemplates.lookup "a.gold" = some 0 ∧
      (∃ g2, parseAll sampleEnv g1 [(2, "b.gold"), (1, "plain.gold")] = some g2 ∧
        g2.gtemplates.lookup "a.gold" = some 0 ∧
        Parse emptyEnv 1 g2 "a.gold" = some (g2, .ok 0)) ∧
      ∃ G1, ParseFile sampleEnv sampleRenderer 2 (NewFileGenerator true) "a.gold" =
          some (G1, .ok 0) ∧
        G1.templates.lookup "a.gold" = some 0 ∧
        (G1.compiled 0).Name = "a.gold" ∧ (G1.compiled 0).Text = "a.gold" ∧
        G1.nextCompiled = 1 ∧
        ParseFile emptyEnv failingRenderer 0 G1 "a.gold" = some (G1, .ok 0) :=
  ⟨rfl, _, rfl,
    (Parse_cached_again sampleEnv 2 (NewGenerator true) _ "a.gold" 0 rfl rfl).2.1,
    ⟨_, rfl,
      ((Parse_cached_again sampleEnv 2 (NewGenerator true) _ "a.gold" 0 rfl rfl).2.2.1
        sampleEnv [(2, "b.gold"), (1, "plain.gold")] _ rfl).1,
      ((Parse_cached_again sampleEnv 2 (NewGenerator true) _ "a.gold" 0 rfl rfl).2.2.1
        sampleEnv [(2, "b.gold"), (1, "plain.gold")] _ rfl).2 emptyEnv 0⟩,
    _, rfl,
    ((Parse_cached_again sampleEnv 2 (NewGenerator true) _ "a.gold" 0 rfl rfl).2.2.2
      sampleRenderer (NewFileGenerator true) _ 0 rfl rfl).1,
    rfl, rfl, rfl,
    ((Parse_cached_again sampleEnv 2 (NewGenerator true) _ "a.gold" 0 rfl rfl).2.2.2
      sampleRenderer (NewFileGenerator true) _ 0 rfl rfl).2.2.2 emptyEnv failingRenderer 0⟩

/-! ## The directives extends and block -/

theorem HasPrefix_iff (line pre : String) :
    HasPrefix line pre = true ↔ ∃ rest : String, line = pre ++ rest := by
  unfold HasPrefix
  rw [List.isPrefixOf_iff_prefix]
  constructor
  · rintro ⟨t, ht⟩
    refine ⟨⟨t⟩, ?_⟩
    apply String.ext
    rw [String.data_append, ht]
  · rintro ⟨rest, hr⟩
    refine ⟨rest.data, ?_⟩
    rw [hr, String.data_append]

/-- C12 fails as stated: the line made of the word extends and a tab equals
extends once trimmed, and isExtends is false on it; likewise for block. -/
theorem isExtends_trimmed_counterexample :
    ¬ (isExtends "extends\t" = true ↔
        (TrimSpace "extends\t" = "extends" ∨ HasPrefix "extends\t" "extends " = true)) ∧
    ¬ (isBlock "block\t" = true ↔
        (TrimSpace "block\t" = "block" ∨ HasPrefix "block\t" "block " = true)) := by
  decide

/-- C12, as amended: isExtends is true if and only if the line as it stands,
not trimmed, equals extends or begins with extends and a space; isBlock obeys
the same rule with block. -/
theorem isExtends_iff_untrimmed (line : String) :
    (isExtends line = true ↔ line = "extends" ∨ ∃ rest : String, line = "extends " ++ rest) ∧
    (isBlock line = true ↔ line = "block" ∨ ∃ rest : String, line = "block " ++ rest) := by
  constructor
  · unfold isExtends
    rw [Bool.or_eq_true, HasPrefix_iff, beq_iff_eq]
    exact Or.comm
  · unfold isBlock
    rw [Bool.or_eq_true, HasPrefix_iff, beq_iff_eq]
    exact Or.comm

/-! ## Spaces separated by tabs -/

theorem spaceRunsLoop_sum (cs : List Char) :
    ∀ run, (spaceRunsLoop cs run).sum = run + (leadingRun cs).count unicodeSpace := by
  induction cs with
  | nil => intro run; by_cases h : run = 0 <;> simp [spaceRunsLoop, leadingRun, h]
  | cons c rest ih =>
    intro run
    have hne : unicodeSpace ≠ unicodeTab := fun h => tab_ne_space h.symm
    unfold spaceRunsLoop
    by_cases hs : c = unicodeSpace
    · subst hs
      have h := ih (run + 1)
      simp only [leadingRun] at h ⊢
      simp [List.takeWhile_cons, List.count_cons, h]
      omega
    · by_cases ht : c = unicodeTab
      · subst ht
        have h := ih 0
        simp only [leadingRun] at h ⊢
        by_cases hr : run = 0
        · simp [List.takeWhile_cons, List.count_cons, tab_ne_space, h, hr]
        · simp [List.takeWhile_cons, List.count_cons, tab_ne_space, h, hr]
      · by_cases hr : run = 0
        · simp [hs, ht, hr, leadingRun, List.takeWhile_cons]
        · simp [hs, ht, hr, leadingRun, List.takeWhile_cons]

/-- C15 fails as stated: on a space, a tab, a space and then text, the two
spaces are apart and indent is 2, the tab and the two spaces as a pair, while
the tab count plus half of each run of adjacent spaces is 1. -/
theorem indent_isolated_spaces_counterexample :
    spaceRuns " \t x" = [1, 1] ∧ tabCount " \t x" = 1 ∧ indentByRuns " \t x" = 1 ∧
      indent " \t x" = 2 ∧ indent " \t x" ≠ indentByRuns " \t x" := by
  decide

/-- C15, as amended: indent is the tab count plus half, rounded down, of the
sum of the lengths of the runs of adjacent spaces in the leading tabs and
spaces: the spaces pair up across the tabs between them. -/
theorem indent_eq_tabs_add_half_runs (line : String) :
    indent line = tabCount line + (spaceRuns line).sum / 2 := by
  simp [indent, indentLoop_eq, tabCount, spaceRuns, spaceRunsLoop_sum]

/-! ## Line endings -/

theorem replaceCrLf_cons_ne (c : Char) (xs : List Char) (hc : c ≠ '\r') :
    replaceCrLf (c :: xs) = c :: replaceCrLf xs := by
  cases xs with
  | nil => simp [replaceCrLf]
  | cons d rest => simp [replaceCrLf, hc]

theorem replaceCrLf_pair (xs : List Char) :
    replaceCrLf ('\r' :: '\n' :: xs) = '\n' :: replaceCrLf xs := by
  simp [replaceCrLf]

theorem replaceCrLf_cr (xs : List Char) (hx : xs.head? ≠ some '\n') :
    replaceCrLf ('\r' :: xs) = '\r' :: replaceCrLf xs := by
  cases xs with
  | nil => simp [replaceCrLf]
  | cons d rest =>
    have hd : d ≠ '\n' := by
      intro h; apply hx; simp [h]
    simp [replaceCrLf, hd]

theorem replaceCrLf_clean_append (l xs : List Char) (hl : '\r' ∉ l) :
    replaceCrLf (l ++ xs) = l ++ replaceCrLf xs := by
  induction l with
  | nil => rfl
  | cons c l ih =>
    have hc : c ≠ '\r' := fun h => hl (by simp [h])
    have hl2 : '\r' ∉ l := fun h => hl (List.mem_cons_of_mem _ h)
    rw [List.cons_append, replaceCrLf_cons_ne c _ hc, ih hl2, List.cons_append]

theorem replaceCrLf_clean (l : List Char) (hl : '\r' ∉ l) : replaceCrLf l = l := by
  have h := replaceCrLf_clean_append l [] hl
  simpa [replaceCrLf] using h

theorem replaceCr_clean (l : List Char) (hl : '\r' ∉ l) : replaceCr l = l := by
  induction l with
  | nil => rfl
  | cons c l ih =>
    have hc : c ≠ '\r' := fun h => hl (by simp [h])
    have hl2 : '\r' ∉ l := fun h => hl (List.mem_cons_of_mem _ h)
    have := ih hl2
    simp only [replaceCr] at this ⊢
    simp [hc, this]

theorem replaceCr_append (a b : List Char) : replaceCr (a ++ b) = replaceCr a ++ replaceCr b := by
  simp [replaceCr]

theorem replaceCr_no_cr (l : List Char) : '\r' ∉ replaceCr l := by
  intro h
  simp only [replaceCr, List.mem_map] at h
  obtain ⟨d, _, hd⟩ := h
  by_cases hdr : d = '\r'
  · simp [hdr] at hd
  · simp [hdr] at hd

/-- A CR LF pair becomes one LF, whatever stands before and after it. -/
theorem replaceCrLf_append_pair (n : Nat) :
    ∀ a b : List Char, a.length ≤ n →
      replaceCrLf (a ++ '\r' :: '\n' :: b) = replaceCrLf a ++ '\n' :: replaceCrLf b := by
  induction n with
  | zero =>
    intro a b ha
    have : a = [] := List.length_eq_zero.mp (by omega)
    subst this
    simp [replaceCrLf]
  | succ n ih =>
    intro a b ha
    match a, ha with
    | [], _ => simp [replaceCrLf]
    | [c], _ =>
      have h0 := ih [] b (by simp)
      simp only [List.nil_append] at h0
      by_cases hc : c = '\r'
      · subst hc
        show replaceCrLf ('\r' :: '\r' :: '\n' :: b) = _
        rw [replaceCrLf_cr _ (by simp), h0]
        simp [replaceCrLf]
      · show replaceCrLf (c :: '\r' :: '\n' :: b) = _
        rw [replaceCrLf_cons_ne c _ hc, h0]
        simp [replaceCrLf]
    | c :: d :: rest, ha =>
      simp only [List.length_cons] at ha
      by_cases hcd : c = '\r' ∧ d = '\n'
      · obtain ⟨hc, hd⟩ := hcd
        subst hc hd
        have h1 := ih rest b (by omega)
        simp only [List.cons_append]
        rw [replaceCrLf_pair, replaceCrLf_pair, h1, List.cons_append]
      · have h1 := ih (d :: rest) b (by simp only [List.length_cons]; omega)
        simp only [List.cons_append] at h1 ⊢
        simp only [replaceCrLf, hcd, if_false]
        rw [h1, List.cons_append]

theorem splitChars_clean_append (l ys : List Char) (hl : '\n' ∉ l) :
    splitChars '\n' (l ++ '\n' :: ys) = l :: splitChars '\n' ys := by
  induction l with
  | nil => simp [splitChars]
  | cons c l ih =>
    have hc : c ≠ '\n' := fun h => hl (by simp [h])
    have hl2 : '\n' ∉ l := fun h => hl (List.mem_cons_of_mem _ h)
    have h := ih hl2
    simp only [List.cons_append, splitChars, hc, if_false]
    simp only [HAppend.hAppend, Append.append] at h ⊢
    rw [h]

theorem splitChars_clean (l : List Char) (hl : '\n' ∉ l) : splitChars '\n' l = [l] := by
  induction l with
  | nil => simp [splitChars]
  | cons c l ih =>
    have hc : c ≠ '\n' := fun h => hl (by simp [h])
    have hl2 : '\n' ∉ l := fun h => hl (List.mem_cons_of_mem _ h)
    simp only [splitChars, hc, if_false, ih hl2]

/-- The lines of a file come back from formatLf and Split, when each line
ending turns into one LF. -/
theorem split_formatLf_joinLines (sep : String)
    (hstep : ∀ l xs : List Char, '\r' ∉ l → (sep = "\r" → xs.head? ≠ some '\n') →
      replaceCr (replaceCrLf (l ++ sep.data ++ xs)) = l ++ '\n' :: replaceCr (replaceCrLf xs))
    (lines : List String) (hne : lines ≠ [])
    (hclean : ∀ l ∈ lines, '\r' ∉ l.data ∧ '\n' ∉ l.data) :
    Split (formatLf (joinLines sep lines)) '\n' = lines := by
  have key : ∀ ls : List String, ls ≠ [] → (∀ l ∈ ls, '\r' ∉ l.data ∧ '\n' ∉ l.data) →
      splitChars '\n' (replaceCr (replaceCrLf (joinLines sep ls).data)) = ls.map String.data ∧
      (joinLines sep ls).data.head? ≠ some '\n' ∨
      (splitChars '\n' (replaceCr (replaceCrLf (joinLines sep ls).data)) = ls.map String.data ∧
        sep ≠ "\r") := by
    intro ls
    induction ls with
    | nil => intro h; exact absurd rfl h
    | cons l rest ih =>
      intro _ hc
      have hl := hc l (List.mem_cons_self _ _)
      have hhead : ∀ xs : List Char, (sep = "\r" → xs.head? ≠ some '\n' ∨ l.data ≠ []) →
          sep = "\r" → (l.data ++ sep.data ++ xs).head? ≠ some '\n' := by
        intro xs _ hs
        subst hs
        cases hd : l.data with
        | nil => simp
        | cons c cs =>
          have : c ≠ '\n' := fun h => hl.2 (by rw [hd]; simp [h])
          simp [this]
      cases rest with
      | nil =>
        by_cases hs : sep = "\r"
        · left
          refine ⟨?_, ?_⟩
          · simp only [joinLines, List.map]
            rw [replaceCrLf_clean _ hl.1, replaceCr_clean _ hl.1, splitChars_clean _ hl.2]
          · simp only [joinLines]
            cases hd : l.data with
            | nil => simp
            | cons c cs =>
              have : c ≠ '\n' := fun h => hl.2 (by rw [hd]; simp [h])
              simp [this]
        · right
          refine ⟨?_, hs⟩
          simp only [joinLines, List.map]
          rw [replaceCrLf_clean _ hl.1, replaceCr_clean _ hl.1, splitChars_clean _ hl.2]
      | cons l2 rest2 =>
        have hc2 : ∀ l ∈ l2 :: rest2, '\r' ∉ l.data ∧ '\n' ∉ l.data :=
          fun x hx => hc x (List.mem_cons_of_mem _ hx)
        have hdata : (joinLines sep (l :: l2 :: rest2)).data =
            l.data ++ sep.data ++ (joinLines sep (l2 :: rest2)).data := by
          simp only [joinLines, String.data_append]
        rcases ih (by simp) hc2 with ⟨hsp, hh⟩ | ⟨hsp, hs⟩
        · have hst := hstep l.data (joinLines sep (l2 :: rest2)).data hl.1 (fun _ => hh)
          by_cases hs : sep = "\r"
          · left
            refine ⟨?_, ?_⟩
            · rw [hdata, hst, splitChars_clean_append _ _ hl.2, hsp]
              rfl
            · rw [hdata]
              exact hhead _ (fun _ => Or.inl hh) hs
          · right
            refine ⟨?_, hs⟩
            rw [hdata, hst, splitChars_clean_append _ _ hl.2, hsp]
            rfl
        · have hst := hstep l.data (joinLines sep (l2 :: rest2)).data hl.1
            (fun h => absurd h hs)
          right
          refine ⟨?_, hs⟩
          rw [hdata, hst, splitChars_clean_append _ _ hl.2, hsp]
          rfl
  have hk : splitChars '\n' (replaceCr (replaceCrLf (joinLines sep lines).data)) =
      lines.map String.data := by
    rcases key lines hne hclean with h | h
    · exact h.1
    · exact h.1
  simp only [Split, formatLf, hk, List.map_map]
  have : (String.mk ∘ String.data) = id := by
    funext s; rfl
  rw [this, List.map_id]

/-- C17: for every string s, formatLf of s holds no carriage return, is s itself
when s holds none, so that formatLf is idempotent, and a CR LF pair between two
parts of a string turns into exactly one LF between the two parts formatted;
for lines without CR and LF, the file made of them with LF, with CR LF or with
CR between them comes back as these lines from formatLf and Split on LF. -/
theorem formatLf_line_endings (s : String) :
    '\r' ∉ (formatLf s).data ∧ ('\r' ∉ s.data → formatLf s = s) ∧
    formatLf (formatLf s) = formatLf s ∧
    (∀ t : String, formatLf (s ++ "\r\n" ++ t) = formatLf s ++ "\n" ++ formatLf t) ∧
    (∀ lines : List String, lines ≠ [] → (∀ l ∈ lines, '\r' ∉ l.data ∧ '\n' ∉ l.data) →
      Split (formatLf (joinLines "\n" lines)) '\n' = lines ∧
      Split (formatLf (joinLines "\r\n" lines)) '\n' = lines ∧
      Split (formatLf (joinLines "\r" lines)) '\n' = lines) := by
  have hno : '\r' ∉ (formatLf s).data := replaceCr_no_cr _
  have hid : ∀ u : String, '\r' ∉ u.data → formatLf u = u := by
    intro u hu
    apply String.ext
    show replaceCr (replaceCrLf u.data) = u.data
    rw [replaceCrLf_clean _ hu, replaceCr_clean _ hu]
  refine ⟨hno, hid s, hid _ hno, ?_, ?_⟩
  · intro t
    apply String.ext
    simp only [formatLf, String.data_append]
    rw [List.append_assoc]
    show replaceCr (replaceCrLf (s.data ++ '\r' :: '\n' :: t.data)) = _
    rw [replaceCrLf_append_pair s.data.length s.data t.data (Nat.le_refl _), replaceCr_append]
    simp [replaceCr]
  · intro lines hne hclean
    refine ⟨split_formatLf_joinLines "\n" ?_ lines hne hclean,
      split_formatLf_joinLines "\r\n" ?_ lines hne hclean,
      split_formatLf_joinLines "\r" ?_ lines hne hclean⟩
    · intro l xs hl _
      have hsep : "\n".data = ['\n'] := rfl
      rw [hsep, List.append_assoc, replaceCrLf_clean_append _ _ hl]
      show replaceCr (l ++ replaceCrLf ('\n' :: xs)) = _
      rw [replaceCrLf_cons_ne _ _ (by decide), replaceCr_append, replaceCr_clean _ hl]
      simp [replaceCr]
    · intro l xs hl _
      have hsep : "\r\n".data = ['\r', '\n'] := rfl
      rw [hsep, List.append_assoc, replaceCrLf_clean_append _ _ hl]
      show replaceCr (l ++ replaceCrLf ('\r' :: '\n' :: xs)) = _
      rw [replaceCrLf_pair, replaceCr_append, replaceCr_clean _ hl]
      simp [replaceCr]
    · intro l xs hl hx
      have hsep : "\r".data = ['\r'] := rfl
      rw [hsep, List.append_assoc, replaceCrLf_clean_append _ _ hl]
      show replaceCr (l ++ replaceCrLf ('\r' :: xs)) = _
      rw [replaceCrLf_cr _ (hx rfl), replaceCr_append, replaceCr_clean _ hl]
      simp [replaceCr]

/-- C17, on an instance: a div, a paragraph under it and an empty last line,
as a file with CR LF line endings. -/
theorem formatLf_line_endings_witness :
    joinLines "\r\n" ["div", "  p", ""] = "div\r\n  p\r\n" ∧
    Split (formatLf (joinLines "\r\n" ["div", "  p", ""])) '\n' = ["div", "  p", ""] ∧
    formatLf ("div" ++ "\r\n" ++ "  p") = formatLf "div" ++ "\n" ++ formatLf "  p" :=
  ⟨by decide,
    ((formatLf_line_endings "div").2.2.2.2 ["div", "  p", ""] (by decide) (by decide)).2.1,
    (formatLf_line_endings "div").2.2.2.1 "  p"⟩

/-! ## Where appendChildren returns -/

/-- When appendChildren returns without error, the cursor is past the last line
or on a line that is not blank and not deeper than the parent. -/
theorem appendChildrenFuel_rest (env : Env) (fuel : Nat) :
    ∀ parent lines i pI raw ty r,
      appendChildrenFuel env fuel parent lines i pI raw ty = some r → r.err = none →
      lines[r.cursor]? = none ∨
        ∃ l, lines[r.cursor]? = some l ∧ empty l = false ∧ indent l < pI + 1 := by
  induction fuel with
  | zero => intro _ _ _ _ _ _ _ h; simp [appendChildrenFuel] at h
  | succ n ih =>
    intro parent lines i pI raw ty r h he
    simp only [appendChildrenFuel] at h
    rcases appendChildrenBody_cases env parent lines i pI raw ty with
      ⟨hl, h1⟩ | ⟨line, hl, hE, h1⟩ | ⟨line, hl, hE, hlt, h1⟩ | ⟨line, hl, hE, hge, h1⟩ |
      ⟨line, _, _, _, msg, h1⟩
    · rw [h1] at h; cases h; exact Or.inl hl
    · rw [h1] at h
      exact ih _ _ _ _ _ _ _ h he
    · rw [h1] at h; cases h; exact Or.inr ⟨line, hl, hE, hlt⟩
    · rw [h1] at h
      unfold admitChild at h
      rcases appendChild_cases env (appendChildrenFuel env n) parent line (indent line) lines i with
        ⟨err, _, h2⟩ | ⟨child, _, h2⟩
      · rw [h2] at h; simp only at h; cases h; cases he
      · rw [h2] at h
        cases hrec : appendChildrenFuel env n (.element child) lines (i + 1) (indent line)
            child.RawContent child.Typ with
        | none => rw [hrec] at h; simp at h
        | some r1 =>
          rw [hrec] at h
          simp only [Option.map_some'] at h
          cases he1 : r1.err with
          | some e => simp only [he1] at h; cases h; cases he
          | none =>
            simp only [he1] at h
            exact ih _ _ _ _ _ _ _ h he
    · rw [h1] at h; cases h; cases he

theorem appendChildren_rest (env : Env) (parent : Container) (lines : List String)
    (i pI : Nat) (raw : Bool) (ty : String) (r : Res)
    (h : appendChildren env parent lines i pI raw ty = some r) (he : r.err = none) :
    lines[r.cursor]? = none ∨
      ∃ l, lines[r.cursor]? = some l ∧ empty l = false ∧ indent l < pI + 1 :=
  appendChildrenFuel_rest env _ _ _ _ _ _ _ _ h he

/-- After a top-level line that is not an extends line, the loop of Parse has
its cursor at the end or on a top-level line. -/
theorem parseStep_lands (env : Env)
    (recur : Generator → String → Option (Generator × Except String Ptr))
    (lines : List String) (tpl : Ptr) (i : Nat) (g : Generator) (line : String)
    (hl : lines[i]? = some line)
    (hE : empty line = false) (hT : topElement line = true) (hX : isExtends line = false)
    (j : Nat) (g2 : Generator)
    (h : parseStep env recur lines tpl i g line = some (.next j g2)) :
    j = lines.length ∨
      ∃ l, lines[j]? = some l ∧ empty l = false ∧ topElement l = true := by
  have hi : i < lines.length := (List.getElem?_eq_some_iff.mp hl).1
  have hland : ∀ parent raw ty r,
      appendChildren env parent lines (i + 1) indentTop raw ty = some r → r.err = none →
      r.cursor = lines.length ∨
        ∃ l, lines[r.cursor]? = some l ∧ empty l = false ∧ topElement l = true := by
    intro parent raw ty r hr he
    have hc := (appendChildren_cursor env parent lines (i + 1) indentTop raw ty r hr).2 (by omega)
    rcases appendChildren_rest env parent lines (i + 1) indentTop raw ty r hr he with
      hn | ⟨l, hl2, hE2, hlt⟩
    · left
      rw [List.getElem?_eq_none_iff] at hn
      omega
    · right
      refine ⟨l, hl2, hE2, ?_⟩
      simp only [indentTop] at hlt
      simp only [topElement, indentTop, beq_iff_eq]
      omega
  cases hSB : ((g.store tpl).Super.isSome && isBlock line) with
  | true =>
    simp only [Bool.and_eq_true] at hSB
    by_cases hn : (Split (TrimSpace line) ' ').length = 2
    · rw [parseStep_block env recur lines tpl i g line hE hT hX hSB.1 hSB.2 hn] at h
      split at h
      · cases h
      · rename_i r hr
        split at h
        · cases h
        · rename_i he
          simp only [Option.some.injEq, Step.next.injEq] at h
          rw [← h.1]
          exact hland _ _ _ r hr he
    · rw [parseStep_block_arity env recur lines tpl i g line hE hT hX hSB.1 hSB.2 hn] at h
      cases h
  | false =>
    rw [parseStep_element env recur lines tpl i g line hE hT hX hSB] at h
    split at h
    · cases h
    · split at h
      · cases h
      · rename_i r hr
        split at h
        · cases h
        · rename_i he
          simp only [Option.some.injEq, Step.next.injEq] at h
          rw [← h.1]
          exact hland _ _ _ r hr he

/-- C16: when appendChildren, called with a cursor within the lines and parent
depth p, returns without error, the cursor is not before its entry position,
every line it passed is blank or of depth at least p+1, and the cursor is the
line count or stands on a line that is not blank and of depth less than p+1;
so for p = 0 it is at the end or on a top-level line, and so is the cursor of
the loop of Parse after the turn of a top-level line that is not an extends
line. -/
theorem appendChildren_returns_at (env : Env) (parent : Container) (lines : List String)
    (i pI : Nat) (raw : Bool) (ty : String) (r : Res) (hi : i ≤ lines.length)
    (h : appendChildren env parent lines i pI raw ty = some r) (he : r.err = none) :
    i ≤ r.cursor ∧
    (∀ k, i ≤ k → k < r.cursor →
      ∃ l, lines[k]? = some l ∧ (empty l = true ∨ pI + 1 ≤ indent l)) ∧
    (r.cursor = lines.length ∨
      ∃ l, lines[r.cursor]? = some l ∧ empty l = false ∧ indent l < pI + 1) ∧
    (pI = indentTop → r.cursor = lines.length ∨
      ∃ l, lines[r.cursor]? = some l ∧ empty l = false ∧ topElement l = true) ∧
    (∀ recur tpl k g line j g2, lines[k]? = some line → empty line = false →
      topElement line = true → isExtends line = false →
      parseStep env recur lines tpl k g line = some (.next j g2) →
      j = lines.length ∨ ∃ l, lines[j]? = some l ∧ empty l = false ∧ topElement l = true) := by
  obtain ⟨hc1, hc2⟩ := appendChildren_cursor env parent lines i pI raw ty r h
  have hrest : r.cursor = lines.length ∨
      ∃ l, lines[r.cursor]? = some l ∧ empty l = false ∧ indent l < pI + 1 := by
    rcases appendChildren_rest env parent lines i pI raw ty r h he with hn | hs
    · left
      rw [List.getElem?_eq_none_iff] at hn
      have := hc2 hi
      omega
    · exact Or.inr hs
  refine ⟨hc1, appendChildren_consumed env parent lines i pI raw ty r h, hrest, ?_, ?_⟩
  · intro hp
    rcases hrest with hn | ⟨l, hl, hE, hlt⟩
    · exact Or.inl hn
    · right
      refine ⟨l, hl, hE, ?_⟩
      rw [hp] at hlt
      simp only [indentTop] at hlt
      simp only [topElement, indentTop, beq_iff_eq]
      omega
  · intro recur tpl k g line j g2 hl hE hT hX hs
    exact parseStep_lands env recur lines tpl k g line hl hE hT hX j g2 hs

/-- C16, on an instance: under a div on line 1, a paragraph and a blank line are
passed, and the cursor stops on the top-level line span. -/
theorem appendChildren_returns_at_witness :
    ∃ r, appendChildren sampleEnv (.element sampleDiv) ["div", "  p", "", "span"] 1 0 false
        "tag" = some r ∧ r.err = none ∧ r.cursor = 3 ∧ 1 ≤ r.cursor ∧
      (r.cursor = ["div", "  p", "", "span"].length ∨
        ∃ l, ["div", "  p", "", "span"][r.cursor]? = some l ∧ empty l = false ∧
          topElement l = true) :=
  ⟨_, rfl, rfl, rfl,
    (appendChildren_returns_at sampleEnv (.element sampleDiv) ["div", "  p", "", "span"] 1 0
      false "tag" _ (by decide) rfl rfl).1,
    (appendChildren_returns_at sampleEnv (.element sampleDiv) ["div", "  p", "", "span"] 1 0
      false "tag" _ (by decide) rfl rfl).2.2.2.1 rfl⟩

/-! ## Termination of the tree builder -/

/-- C19: on every list of lines and every cursor, appendChildren returns, and
so does appendChild: one nested call more than there are lines left is enough,
and any larger bound gives the same result.  A blank line and an admitted child
move the cursor by one before the nested call is made, the nested call on a
child returns with the cursor further on, and from a cursor within the lines
the cursor does not pass the line count. -/
theorem appendChildren_terminates (env : Env) (parent : Container) (lines : List String)
    (i pI : Nat) (raw : Bool) (ty : String) :
    (∃ r, appendChildren env parent lines i pI raw ty = some r ∧
      (∀ fuel, lines.length - i + 1 ≤ fuel →
        appendChildrenFuel env fuel parent lines i pI raw ty = some r) ∧
      i ≤ r.cursor ∧ (i ≤ lines.length → r.cursor ≤ lines.length)) ∧
    (∀ line ind, ∃ r, appendChild env (appendChildren env) parent line ind lines i = some r ∧
      i ≤ r.cursor ∧ (i < lines.length → r.cursor ≤ lines.length)) ∧
    (∀ line, lines[i]? = some line → empty line = true → ∀ recur,
      appendChildrenBody env recur parent lines i pI raw ty =
        recur parent lines (i + 1) pI raw ty) ∧
    (∀ line ind child, newChild env parent line i ind = .ok child →
      (∀ recur, appendChild env recur parent line ind lines i =
        (recur (.element child) lines (i + 1) ind child.RawContent child.Typ).map fun r =>
          ⟨parent.Children ++ [{ child with Children := r.children }], r.cursor, r.err⟩) ∧
      ∃ r, appendChildren env (.element child) lines (i + 1) ind child.RawContent child.Typ =
          some r ∧ i + 1 ≤ r.cursor) := by
  refine ⟨?_, ?_, ?_, ?_⟩
  · obtain ⟨r, hr⟩ := appendChildren_isSome env parent lines i pI raw ty
    obtain ⟨hc1, hc2⟩ := appendChildren_cursor env parent lines i pI raw ty r hr
    exact ⟨r, hr, fun fuel hf => appendChildrenFuel_le env _ fuel hf _ _ _ _ _ _ r hr, hc1, hc2⟩
  · intro line ind
    rcases appendChild_cases env (appendChildren env) parent line ind lines i with
      ⟨err, _, h2⟩ | ⟨child, _, h2⟩
    · exact ⟨_, h2, Nat.le_refl _, fun h => Nat.le_of_lt h⟩
    · obtain ⟨r, hr⟩ := appendChildren_isSome env (.element child) lines (i + 1) ind
        child.RawContent child.Typ
      obtain ⟨hc1, hc2⟩ := appendChildren_cursor env _ lines (i + 1) ind _ _ r hr
      rw [hr] at h2
      exact ⟨_, h2, by simp only; omega, fun h => hc2 (by omega)⟩
  · intro line hl hE recur
    simp [appendChildrenBody, hl, hE]
  · intro line ind child hc
    refine ⟨fun recur => ?_, ?_⟩
    · rcases appendChild_cases env recur parent line ind lines i with
        ⟨err, h1, _⟩ | ⟨child2, h1, h2⟩
      · rw [hc] at h1; cases h1
      · rw [hc] at h1; cases h1
        exact h2
    · obtain ⟨r, hr⟩ := appendChildren_isSome env (.element child) lines (i + 1) ind
        child.RawContent child.Typ
      exact ⟨r, hr, (appendChildren_cursor env _ lines (i + 1) ind _ _ r hr).1⟩

/-! ## Indented lines the loop of Parse drops -/

/-- The loop of Parse walks over blank and indented lines, the generator as it
was. -/
theorem LoopReaches.passed (env : Env)
    (recur : Generator → String → Option (Generator × Except String Ptr))
    (lines : List String) (tpl : Ptr) (g : Generator) (n : Nat) :
    ∀ a, Passed lines a (a + n) → LoopReaches env recur lines tpl a g (a + n) g := by
  induction n with
  | zero => intro a _; exact LoopReaches.here a g
  | succ n ih =>
    intro a hp
    obtain ⟨l, hl, hd⟩ := hp a (Nat.le_refl _) (by omega)
    have hstep : parseStep env recur lines tpl a g l = some (.next (a + 1) g) := by
      cases hE : empty l with
      | true => exact parseStep_blank env recur lines tpl a g l hE
      | false =>
        rcases hd with hd | hd
        · rw [hE] at hd; cases hd
        · exact parseStep_indented env recur lines tpl a g l hE hd
    have hrest := ih (a + 1) (fun j hj1 hj2 => hp j (by omega) (by omega))
    have heq : a + 1 + n = a + (n + 1) := by omega
    rw [heq] at hrest
    exact LoopReaches.turn a g l (a + 1) g (a + (n + 1)) g hl hstep hrest

/-- The turn of an extends line moves the cursor by one. -/
theorem parseStep_extends_cursor (env : Env)
    (recur : Generator → String → Option (Generator × Except String Ptr))
    (lines : List String) (tpl : Ptr) (i : Nat) (g : Generator) (line : String)
    (hE : empty line = false) (hT : topElement line = true) (hX : isExtends line = true)
    (j : Nat) (g2 : Generator)
    (h : parseStep env recur lines tpl i g line = some (.next j g2)) : j = i + 1 := by
  by_cases hn : (Split (TrimSpace line) ' ').length = 2
  · rw [parseStep_extends env recur lines tpl i g line hE hT hX hn] at h
    split at h
    · cases h
    · cases h
    · simp only [Option.some.injEq, Step.next.injEq] at h
      exact h.1.symm
  · rw [parseStep_extends_arity env recur lines tpl i g line hE hT hX hn] at h
    cases h

/-- Every cursor of the loop of Parse comes after the start of the file or an
extends line, with blank or indented lines in between, or it is at the end or
on a top-level line. -/
theorem LoopReaches.open_or_closed (env : Env)
    (recur : Generator → String → Option (Generator × Except String Ptr))
    (lines : List String) (tpl : Ptr) (i : Nat) (g : Generator) (j : Nat) (h : Generator)
    (hr : LoopReaches env recur lines tpl i g j h)
    (hi : AfterExtendsOrStart lines i ∨ lines.length ≤ i ∨
      ∃ l, lines[i]? = some l ∧ empty l = false ∧ topElement l = true) :
    AfterExtendsOrStart lines j ∨ lines.length ≤ j ∨
      ∃ l, lines[j]? = some l ∧ empty l = false ∧ topElement l = true := by
  induction hr with
  | here i g => exact hi
  | turn i g line i2 g2 j h hl hstep _ ih =>
    apply ih
    have hlen : i < lines.length := (List.getElem?_eq_some_iff.mp hl).1
    have hext : ∀ (d : empty line = true ∨ topElement line = false),
        AfterExtendsOrStart lines i → AfterExtendsOrStart lines (i + 1) := by
      intro d ho
      rcases ho with hp | ⟨k, l, hk, hlk, hEk, hTk, hXk, hp⟩
      · left
        intro j2 hj1 hj2
        by_cases hji : j2 = i
        · subst hji; exact ⟨line, hl, d⟩
        · exact hp j2 hj1 (by omega)
      · right
        refine ⟨k, l, by omega, hlk, hEk, hTk, hXk, ?_⟩
        intro j2 hj1 hj2
        by_cases hji : j2 = i
        · subst hji; exact ⟨line, hl, d⟩
        · exact hp j2 hj1 (by omega)
    cases hE : empty line with
    | true =>
      rw [parseStep_blank env recur lines tpl i g line hE] at hstep
      simp only [Option.some.injEq, Step.next.injEq] at hstep
      rw [← hstep.1]
      rcases hi with ho | hc | ⟨l, hl2, hE2, _⟩
      · exact Or.inl (hext (Or.inl hE) ho)
      · omega
      · rw [hl] at hl2; cases hl2; rw [hE] at hE2; cases hE2
    | false =>
      cases hT : topElement line with
      | false =>
        rw [parseStep_indented env recur lines tpl i g line hE hT] at hstep
        simp only [Option.some.injEq, Step.next.injEq] at hstep
        rw [← hstep.1]
        rcases hi with ho | hc | ⟨l, hl2, _, hT2⟩
        · exact Or.inl (hext (Or.inr hT) ho)
        · omega
        · rw [hl] at hl2; cases hl2; rw [hT] at hT2; cases hT2
      | true =>
        cases hX : isExtends line with
        | true =>
          have hj := parseStep_extends_cursor env recur lines tpl i g line hE hT hX i2 g2 hstep
          rw [hj]
          left; right
          exact ⟨i, line, by omega, hl, hE, hT, hX, fun j2 hj1 hj2 => by omega⟩
        | false =>
          rcases parseStep_lands env recur lines tpl i g line hl hE hT hX i2 g2 hstep with
            hend | hs
          · right; left; omega
          · right; right; exact hs

/-- C20: a line that is not blank and of depth at least 1, reached by the loop
of Parse, is dropped: the cursor moves by one and the generator, with the
Template and its blocks, is as it was, and no error is returned.  The loop
reaches such a line only when no top-level line that is not blank stands before
it or the nearest one is an extends line; and it does reach it in both cases,
from the start of the file, or from the extends line once the loop has reached
that line and its turn has returned no error. -/
theorem parseStep_drops_indented (env : Env)
    (recur : Generator → String → Option (Generator × Except String Ptr))
    (lines : List String) (tpl : Ptr) (g0 : Generator) (i : Nat) (line : String)
    (hl : lines[i]? = some line) (hE : empty line = false) (hT : topElement line = false) :
    (∀ g, parseStep env recur lines tpl i g line = some (.next (i + 1) g)) ∧
    (∀ g, LoopReaches env recur lines tpl 0 g0 i g → AfterExtendsOrStart lines i) ∧
    (Passed lines 0 i → LoopReaches env recur lines tpl 0 g0 i g0) ∧
    (∀ k l gk j g2, lines[k]? = some l → empty l = false → topElement l = true →
      isExtends l = true → k < i → Passed lines (k + 1) i →
      LoopReaches env recur lines tpl 0 g0 k gk →
      parseStep env recur lines tpl k gk l = some (.next j g2) →
      LoopReaches env recur lines tpl 0 g0 i g2) := by
  refine ⟨fun g => parseStep_indented env recur lines tpl i g line hE hT, ?_, ?_, ?_⟩
  · intro g hr
    rcases LoopReaches.open_or_closed env recur lines tpl 0 g0 i g hr
        (Or.inl (Or.inl (fun j _ hj => by omega))) with ho | hc | ⟨l, hl2, _, hT2⟩
    · exact ho
    · have := (List.getElem?_eq_some_iff.mp hl).1
      omega
    · rw [hl] at hl2; cases hl2; rw [hT] at hT2; cases hT2
  · intro hp
    have h := LoopReaches.passed env recur lines tpl g0 i 0 (by simpa using hp)
    simpa using h
  · intro k l gk j g2 hlk hEk hTk hXk hki hp hr hstep
    have hj := parseStep_extends_cursor env recur lines tpl k gk l hEk hTk hXk j g2 hstep
    subst hj
    have h1 : LoopReaches env recur lines tpl k gk (k + 1) g2 :=
      LoopReaches.turn k gk l (k + 1) g2 (k + 1) g2 hlk hstep (LoopReaches.here _ _)
    have heq : k + 1 + (i - (k + 1)) = i := by omega
    have h2 := LoopReaches.passed env recur lines tpl g2 (i - (k + 1)) (k + 1)
      (by rw [heq]; exact hp)
    rw [heq] at h2
    exact LoopReaches.append env recur lines tpl 0 g0 k gk i g2 hr
      (LoopReaches.append env recur lines tpl k gk (k + 1) g2 i g2 h1 h2)

/-- C20, on an instance: in the lines of a file that extends base.gold, the
indented line after the extends line is reached and dropped. -/
theorem parseStep_drops_indented_witness :
    ["extends base", "  p", "div"][1]? = some "  p" ∧ empty "  p" = false ∧
    topElement "  p" = false ∧
    ∃ g2, LoopReaches sampleEnv (Parse sampleEnv 1) ["extends base", "  p", "div"] 0 0
        (NewTemplate (NewGenerator false) "a.gold").1 1 g2 ∧
      parseStep sampleEnv (Parse sampleEnv 1) ["extends base", "  p", "div"] 0 1 g2 "  p" =
        some (.next 2 g2) :=
  ⟨rfl, by decide, by decide, _,
    (parseStep_drops_indented sampleEnv (Parse sampleEnv 1) ["extends base", "  p", "div"] 0
      (NewTemplate (NewGenerator false) "a.gold").1 1 "  p" rfl (by decide) (by decide)).2.2.2
      0 "extends base" (NewTemplate (NewGenerator false) "a.gold").1 1 _ rfl (by decide)
      (by decide) (by decide) (by decide) (fun j h1 h2 => absurd h2 (Nat.not_lt.mpr h1))
      (LoopReaches.here _ _) rfl,
    (parseStep_drops_indented sampleEnv (Parse sampleEnv 1) ["extends base", "  p", "div"] 0
      (NewTemplate (NewGenerator false) "a.gold").1 1 "  p" rfl (by decide) (by decide)).1 _⟩

/-! ## A cyclic chain of extends lines -/

/-- Parse of a file whose first top-level line extends a file on which Parse
does not return, does not return. -/
theorem Parse_extendsFirst_none (env : Env) (fuel : Nat) (path target : String)
    (hx : ExtendsFirst env path target) (g : Generator) (hu : Uncached g path)
    (hrec : ∀ g2 : Generator, g2.cache = g.cache → g2.gtemplates = g.gtemplates →
      Parse env fuel g2 target = none) :
    Parse env (fuel + 1) g path = none := by
  obtain ⟨src, k, line, hread, hpass, hl, hX, hn, hdir⟩ := hx
  obtain ⟨hE, hT⟩ := isExtends_top line hX
  rw [Parse_miss env fuel g path src hu hread]
  have hreach := LoopReaches.passed env (Parse env fuel) (Split (formatLf src) '\n') g.next
    (NewTemplate g path).1 k 0 (by simpa using hpass)
  simp only [Nat.zero_add] at hreach
  rw [parseFrom_of_reaches env _ _ _ 0 _ k _ hreach, parseFrom_eq]
  simp only [hl]
  rw [parseStep_extends env _ _ _ k _ line hE hT hX hn]
  have hpath : ((NewTemplate g path).1.store g.next).Path = path := by
    simp [NewTemplate]
  rw [hpath, hdir, hrec (NewTemplate g path).1 rfl rfl]

/-- On two files that extend each other, Parse returns on neither, whatever the
bound on the recursion. -/
theorem Parse_cycle_none (env : Env) (pathA pathB : String)
    (hA : ExtendsFirst env pathA pathB) (hB : ExtendsFirst env pathB pathA) (fuel : Nat) :
    ∀ g, Uncached g pathA → Uncached g pathB →
      Parse env fuel g pathA = none ∧ Parse env fuel g pathB = none := by
  induction fuel with
  | zero => intro g _ _; exact ⟨rfl, rfl⟩
  | succ n ih =>
    intro g huA huB
    have hsame : ∀ g2 : Generator, g2.cache = g.cache → g2.gtemplates = g.gtemplates →
        Uncached g2 pathA ∧ Uncached g2 pathB := by
      intro g2 hc hg
      unfold Uncached at huA huB ⊢
      rw [hc, hg]
      exact ⟨huA, huB⟩
    exact ⟨Parse_extendsFirst_none env n pathA pathB hA g huA
        (fun g2 hc hg => (ih g2 (hsame g2 hc hg).1 (hsame g2 hc hg).2).2),
      Parse_extendsFirst_none env n pathB pathA hB g huB
        (fun g2 hc hg => (ih g2 (hsame g2 hc hg).1 (hsame g2 hc hg).2).1)⟩

/-- A turn of the loop of Parse keeps what is known of the cache alone, when the
recursive calls keep it. -/
theorem parseStep_cachePred (env : Env)
    (recur : Generator → String → Option (Generator × Except String Ptr))
    (P : Generator → Prop)
    (hP : ∀ g g2 : Generator, g2.cache = g.cache → g2.gtemplates = g.gtemplates → P g → P g2)
    (hrec : ∀ g p g2 res, recur g p = some (g2, res) → P g → P g2)
    (lines : List String) (tpl : Ptr) (i : Nat) (g : Generator) (line : String) (st : Step)
    (h : parseStep env recur lines tpl i g line = some st) (hu : P g) :
    P st.gen := by
  cases hE : empty line with
  | true =>
    rw [parseStep_blank env recur lines tpl i g line hE] at h
    cases h; exact hu
  | false =>
    cases hT : topElement line with
    | false =>
      rw [parseStep_indented env recur lines tpl i g line hE hT] at h
      cases h; exact hu
    | true =>
      cases hX : isExtends line with
      | true =>
        by_cases hn : (Split (TrimSpace line) ' ').length = 2
        · rw [parseStep_extends env recur lines tpl i g line hE hT hX hn] at h
          split at h
          · cases h
          · rename_i g2 err hr
            cases h
            exact hrec _ _ _ _ hr hu
          · rename_i g2 superTpl hr
            cases h
            exact hP g2 _ rfl rfl (hrec _ _ _ _ hr hu)
        · rw [parseStep_extends_arity env recur lines tpl i g line hE hT hX hn] at h
          cases h; exact hu
      | false =>
        cases hSB : ((g.store tpl).Super.isSome && isBlock line) with
        | true =>
          simp only [Bool.and_eq_true] at hSB
          by_cases hn : (Split (TrimSpace line) ' ').length = 2
          · rw [parseStep_block env recur lines tpl i g line hE hT hX hSB.1 hSB.2 hn] at h
            split at h
            · cases h
            · split at h <;> cases h <;> exact hP g _ rfl rfl hu
          · rw [parseStep_block_arity env recur lines tpl i g line hE hT hX hSB.1 hSB.2 hn] at h
            cases h; exact hu
        | false =>
          rw [parseStep_element env recur lines tpl i g line hE hT hX hSB] at h
          split at h
          · cases h; exact hu
          · split at h
            · cases h
            · split at h <;> cases h <;> exact hP g _ rfl rfl hu

theorem Uncached.of_same_cache (g g2 : Generator) (path : String)
    (hc : g2.cache = g.cache) (hg : g2.gtemplates = g.gtemplates) (hu : Uncached g path) :
    Uncached g2 path := by
  unfold Uncached at hu ⊢
  rw [hc, hg]
  exact hu

theorem Uncached.storeTemplate (g : Generator) (path p : String) (tpl : Ptr)
    (hne : path ≠ p) (hu : Uncached g path) : Uncached (g.storeTemplate p tpl) path := by
  unfold Uncached at hu ⊢
  simp only [Generator.storeTemplate]
  rw [lookup_filter_append]
  simp only [hne, if_false]
  exact hu

/-- On two files that extend each other, no call of Parse that returns stores a
Template for either of them. -/
theorem Parse_cycle_uncached (env : Env) (pathA pathB : String)
    (hA : ExtendsFirst env pathA pathB) (hB : ExtendsFirst env pathB pathA) (fuel : Nat) :
    ∀ g p g2 res, Parse env fuel g p = some (g2, res) →
      Uncached g pathA ∧ Uncached g pathB → Uncached g2 pathA ∧ Uncached g2 pathB := by
  induction fuel with
  | zero => intro g p g2 res h; simp [Parse] at h
  | succ n ih =>
    intro g p g2 res h hu
    cases hhit : (if g.cache then g.gtemplates.lookup p else none) with
    | some tpl =>
      rw [Parse] at h
      simp only [hhit] at h
      cases h
      exact hu
    | none =>
      cases hread : env.ReadFile p with
      | error err =>
        rw [Parse] at h
        simp only [hhit, hread] at h
        cases h
        exact hu
      | ok b =>
        have hnone := Parse_cycle_none env pathA pathB hA hB (n + 1) g hu.1 hu.2
        have hpA : pathA ≠ p := by
          intro hp; subst hp; rw [hnone.1] at h; cases h
        have hpB : pathB ≠ p := by
          intro hp; subst hp; rw [hnone.2] at h; cases h
        rw [Parse_miss env n g p b hhit hread] at h
        cases hloop : parseFrom env (Parse env n) (Split (formatLf b) '\n') g.next 0
            (NewTemplate g p).1 with
        | none => simp only [hloop] at h; cases h
        | some lr =>
          have hk := parseFrom_invariant env (Parse env n) (Split (formatLf b) '\n') g.next
            (fun a c => Uncached a pathA ∧ Uncached a pathB → Uncached c pathA ∧ Uncached c pathB)
            0 (fun _ h => h) (fun _ _ _ h1 h2 h => h2 (h1 h))
            (fun i g1 line st _ _ hs =>
              parseStep_cachePred env _
                (fun a => Uncached a pathA ∧ Uncached a pathB)
                (fun a c hc hg hac =>
                  ⟨Uncached.of_same_cache a c pathA hc hg hac.1,
                    Uncached.of_same_cache a c pathB hc hg hac.2⟩)
                (fun a q c r hr => ih a q c r hr) _ g.next i g1 line st hs)
            (Split (formatLf b) '\n').length 0 _ lr (Nat.le_refl _) (by omega) hloop
            ⟨Uncached.of_same_cache g _ pathA rfl rfl hu.1,
              Uncached.of_same_cache g _ pathB rfl rfl hu.2⟩
          obtain ⟨g3, oerr⟩ := lr
          cases oerr with
          | some err =>
            simp only [hloop] at h
            cases h
            exact hk
          | none =>
            simp only [hloop, Option.some.injEq, Prod.mk.injEq] at h
            obtain ⟨hg, _⟩ := h
            subst hg
            split
            · exact ⟨Uncached.storeTemplate g3 pathA p g.next hpA hk.1,
                Uncached.storeTemplate g3 pathB p g.next hpB hk.2⟩
            · exact hk

theorem parseAll_cycle_uncached (env : Env) (pathA pathB : String)
    (hA : ExtendsFirst env pathA pathB) (hB : ExtendsFirst env pathB pathA)
    (calls : List (Nat × String)) :
    ∀ g g2, parseAll env g calls = some g2 →
      Uncached g pathA ∧ Uncached g pathB → Uncached g2 pathA ∧ Uncached g2 pathB := by
  induction calls with
  | nil => intro g g2 h hu; simp only [parseAll, Option.some.injEq] at h; subst h; exact hu
  | cons c rest ih =>
    intro g g2 h hu
    obtain ⟨fuel, path⟩ := c
    simp only [parseAll] at h
    cases hp : Parse env fuel g path with
    | none => simp only [hp] at h; cases h
    | some r =>
      obtain ⟨g1, res⟩ := r
      simp only [hp] at h
      exact ih g1 g2 h (Parse_cycle_uncached env pathA pathB hA hB fuel g path g1 res hp hu)

/-- C14: when the first top-level line of file A is a well-formed extends line
that names file B, and that of file B one that names file A, Parse of A returns
neither a Template nor an error, whatever the bound on the depth of the
recursion: on every generator, with caching on or off, that holds no stored
Template for A or B, and so on every generator that a new one becomes through
calls of Parse that return. -/
theorem Parse_cyclic_extends (env : Env) (pathA pathB : String)
    (hA : ExtendsFirst env pathA pathB) (hB : ExtendsFirst env pathB pathA) :
    (∀ g, Uncached g pathA → Uncached g pathB → ∀ fuel, Parse env fuel g pathA = none) ∧
    (∀ cache calls g, parseAll env (NewGenerator cache) calls = some g →
      ∀ fuel, Parse env fuel g pathA = none) := by
  refine ⟨fun g huA huB fuel => (Parse_cycle_none env pathA pathB hA hB fuel g huA huB).1, ?_⟩
  intro cache calls g hcalls fuel
  have h0 : Uncached (NewGenerator cache) pathA ∧ Uncached (NewGenerator cache) pathB := by
    cases cache <;> exact ⟨rfl, rfl⟩
  obtain ⟨huA, huB⟩ := parseAll_cycle_uncached env pathA pathB hA hB calls _ g hcalls h0
  exact (Parse_cycle_none env pathA pathB hA hB fuel g huA huB).1

/-- C14, on an instance: x.gold extends y and y.gold, after a blank line,
extends x; Parse of x.gold does not return within 7 nested calls, with caching
on or off. -/
theorem Parse_cyclic_extends_witness :
    ExtendsFirst cyclicEnv "x.gold" "y.gold" ∧ ExtendsFirst cyclicEnv "y.gold" "x.gold" ∧
    Parse cyclicEnv 7 (NewGenerator true) "x.gold" = none ∧
    Parse cyclicEnv 7 (NewGenerator false) "x.gold" = none :=
  have hx : ExtendsFirst cyclicEnv "x.gold" "y.gold" :=
    ⟨"extends y\n", 0, "extends y", rfl, fun j _ hj => absurd hj (Nat.not_lt_zero j),
      by decide, by decide, by decide, by decide⟩
  have hy : ExtendsFirst cyclicEnv "y.gold" "x.gold" :=
    ⟨"\nextends x\n", 1, "extends x", rfl,
      fun j _ hj => by
        have hj0 : j = 0 := by omega
        subst hj0
        exact ⟨"", by decide, Or.inl (by decide)⟩,
      by decide, by decide, by decide, by decide⟩
  ⟨hx, hy, (Parse_cyclic_extends cyclicEnv "x.gold" "y.gold" hx hy).1 (NewGenerator true) rfl rfl 7,
    (Parse_cyclic_extends cyclicEnv "x.gold" "y.gold" hx hy).1 (NewGenerator false) rfl rfl 7⟩

/-! ## Elements in source order -/

theorem Element.preorder_eq (e : Element) : e.preorder = e :: preorderAll e.Children := by
  cases e; simp [Element.preorder]

theorem preorderAll_append (a b : List Element) :
    preorderAll (a ++ b) = preorderAll a ++ preorderAll b := by
  induction a with
  | nil => simp [preorderAll]
  | cons x xs ih => simp [preorderAll, ih]

theorem preorderAll_single (e : Element) : preorderAll [e] = e :: preorderAll e.Children := by
  simp [preorderAll, Element.preorder_eq]

theorem blocksPreorder_append (a b : List (String × Block)) :
    blocksPreorder (a ++ b) = blocksPreorder a ++ blocksPreorder b := by
  induction a with
  | nil => simp [blocksPreorder]
  | cons x xs ih => simp [blocksPreorder, ih]

theorem blocksPreorder_filter (p : String × Block → Bool) (bs : List (String × Block)) :
    (blocksPreorder (bs.filter p)).Sublist (blocksPreorder bs) := by
  induction bs with
  | nil => simp [blocksPreorder]
  | cons x xs ih =>
    by_cases hp : p x = true
    · simp only [List.filter, hp, blocksPreorder]
      exact List.Sublist.append (List.Sublist.refl _) ih
    · have hp2 : p x = false := by simpa using hp
      simp only [List.filter, hp2, blocksPreorder]
      exact ih.trans (List.sublist_append_right _ _)

theorem Placed.nil (lines : List String) (lo hi : Nat) : Placed lines lo hi [] :=
  ⟨List.Pairwise.nil, fun _ h => by cases h⟩

theorem Placed.mono (lines : List String) (lo hi lo2 hi2 : Nat) (es : List Element)
    (h : Placed lines lo hi es) (hlo : lo2 ≤ lo) (hhi : hi ≤ hi2) : Placed lines lo2 hi2 es :=
  ⟨h.1, fun e he => ⟨by have := (h.2 e he).1; omega, by have := (h.2 e he).2.1; omega,
    (h.2 e he).2.2⟩⟩

theorem Placed.concat (lines : List String) (lo mid hi : Nat) (a b : List Element)
    (ha : Placed lines lo mid a) (hb : Placed lines mid hi b) (h1 : lo ≤ mid) (h2 : mid ≤ hi) :
    Placed lines lo hi (a ++ b) := by
  refine ⟨?_, ?_⟩
  · rw [List.map_append, List.pairwise_append]
    refine ⟨ha.1, hb.1, ?_⟩
    intro x hx y hy
    simp only [List.mem_map] at hx hy
    obtain ⟨e, he, rfl⟩ := hx
    obtain ⟨f, hf, rfl⟩ := hy
    have := (ha.2 e he).2.1
    have := (hb.2 f hf).1
    omega
  · intro e he
    rcases List.mem_append.mp he with he | he
    · exact ⟨(ha.2 e he).1, by have := (ha.2 e he).2.1; omega, (ha.2 e he).2.2⟩
    · exact ⟨by have := (hb.2 e he).1; omega, (hb.2 e he).2.1, (hb.2 e he).2.2⟩

theorem Placed.sublist (lines : List String) (lo hi : Nat) (a b : List Element)
    (ha : Placed lines lo hi a) (hs : b.Sublist a) : Placed lines lo hi b :=
  ⟨List.Pairwise.sublist (hs.map _) ha.1, fun e he => ha.2 e (hs.subset he)⟩

theorem Placed.cons (lines : List String) (lo hi : Nat) (e : Element) (rest : List Element)
    (hno : e.LineNo = lo + 1) (hrec : e.Recorded lines) (hrest : Placed lines (lo + 1) hi rest)
    (hhi : lo + 1 ≤ hi) : Placed lines lo hi (e :: rest) := by
  have h1 : Placed lines lo (lo + 1) [e] := by
    refine ⟨by simp, ?_⟩
    intro x hx
    simp only [List.mem_singleton] at hx
    subst hx
    exact ⟨by omega, by omega, hrec⟩
  exact Placed.concat lines lo (lo + 1) hi [e] rest h1 hrest (by omega) hhi

/-- The children appendChildren gives a parent, with their descendants, stand
in source order between the entry cursor and the cursor at the return, and the
children are deeper than the parent. -/
theorem appendChildrenFuel_placed (env : Env) (fuel : Nat) :
    ∀ parent lines i pI raw ty r,
      appendChildrenFuel env fuel parent lines i pI raw ty = some r →
      ∃ more, r.children = parent.Children ++ more ∧
        Placed lines i r.cursor (preorderAll more) ∧ ∀ c ∈ more, pI + 1 ≤ c.Indent := by
  induction fuel with
  | zero => intro _ _ _ _ _ _ _ h; simp [appendChildrenFuel] at h
  | succ n ih =>
    intro parent lines i pI raw ty r h
    have hnil : ∀ j, ∃ more : List Element, parent.Children = parent.Children ++ more ∧
        Placed lines i j (preorderAll more) ∧ ∀ c ∈ more, pI + 1 ≤ c.Indent :=
      fun j => ⟨[], by simp, by simpa [preorderAll] using Placed.nil lines i j,
        fun _ hc => by cases hc⟩
    simp only [appendChildrenFuel] at h
    rcases appendChildrenBody_cases env parent lines i pI raw ty with
      ⟨_, h1⟩ | ⟨line, hl, hE, h1⟩ | ⟨line, _, _, _, h1⟩ | ⟨line, hl, hE, hge, h1⟩ |
      ⟨line, _, _, _, msg, h1⟩
    · rw [h1] at h; cases h; exact hnil i
    · rw [h1] at h
      obtain ⟨more, hm, hp, hd⟩ := ih _ _ _ _ _ _ _ h
      exact ⟨more, hm, Placed.mono lines _ _ _ _ _ hp (by omega) (Nat.le_refl _), hd⟩
    · rw [h1] at h; cases h; exact hnil i
    · rw [h1] at h
      unfold admitChild at h
      rcases appendChild_cases env (appendChildrenFuel env n) parent line (indent line) lines i with
        ⟨err, _, h2⟩ | ⟨child, hnew, h2⟩
      · rw [h2] at h; simp only at h; cases h; exact hnil i
      · rw [h2] at h
        obtain ⟨hct, hcn, hci, hcc⟩ := newChild_fields env parent line i (indent line) child hnew
        cases hrec : appendChildrenFuel env n (.element child) lines (i + 1) (indent line)
            child.RawContent child.Typ with
        | none => rw [hrec] at h; simp at h
        | some r1 =>
          rw [hrec] at h
          simp only [Option.map_some'] at h
          obtain ⟨more1, hm1, hp1, hd1⟩ := ih _ _ _ _ _ _ _ hrec
          simp only [Container.Children, hcc, List.nil_append] at hm1
          have hcur1 := (appendChildrenFuel_cursor env n _ _ _ _ _ _ _ hrec).1
          have hchild : Placed lines i r1.cursor
              (preorderAll [{ child with Children := r1.children }]) := by
            rw [preorderAll_single]
            refine Placed.cons lines i r1.cursor _ _ hcn ?_ ?_ hcur1
            · refine ⟨by simp only [hcn]; omega, ?_, ?_, ?_⟩
              · simp only [hcn, hct, Nat.add_sub_cancel]; exact hl
              · simp only [hci, hct]
              · intro c hc
                simp only [hm1] at hc
                simp only [hci]
                exact hd1 c hc
            · simp only [hm1]; exact hp1
          cases he : r1.err with
          | some e =>
            simp only [he] at h
            cases h
            refine ⟨[{ child with Children := r1.children }], rfl, hchild, ?_⟩
            intro c hc
            simp only [List.mem_singleton] at hc
            subst hc
            simp only [hci]; exact hge
          | none =>
            simp only [he] at h
            obtain ⟨more2, hm2, hp2, hd2⟩ := ih _ _ _ _ _ _ _ h
            have hcur2 := (appendChildrenFuel_cursor env n _ _ _ _ _ _ _ h).1
            simp only [Container.children_withChildren] at hm2
            refine ⟨{ child with Children := r1.children } :: more2, ?_, ?_, ?_⟩
            · rw [hm2]; simp
            · have : preorderAll ({ child with Children := r1.children } :: more2) =
                  preorderAll [{ child with Children := r1.children }] ++ preorderAll more2 := by
                rw [← preorderAll_append]; rfl
              rw [this]
              exact Placed.concat lines i r1.cursor r.cursor _ _ hchild hp2 (by omega) hcur2
            · intro c hc
              rcases List.mem_cons.mp hc with hc | hc
              · subst hc; simp only [hci]; exact hge
              · exact hd2 c hc
    · rw [h1] at h; cases h; exact hnil i

theorem appendChildren_placed (env : Env) (parent : Container) (lines : List String)
    (i pI : Nat) (raw : Bool) (ty : String) (r : Res)
    (h : appendChildren env parent lines i pI raw ty = some r) :
    ∃ more, r.children = parent.Children ++ more ∧
      Placed lines i r.cursor (preorderAll more) ∧ ∀ c ∈ more, pI + 1 ≤ c.Indent :=
  appendChildrenFuel_placed env _ _ _ _ _ _ _ _ h

theorem Template.Placed.congr (lines : List String) (hi : Nat) (t t2 : Template)
    (hE : t2.Elements = t.Elements) (hB : t2.Blocks = t.Blocks) (h : t.Placed lines hi) :
    t2.Placed lines hi := by
  unfold Template.Placed at h ⊢
  rw [hE, hB]
  exact h

theorem Template.Placed.widen (lines : List String) (hi hi2 : Nat) (t : Template)
    (h : t.Placed lines hi) (hle : hi ≤ hi2) : t.Placed lines hi2 :=
  ⟨Gold.Placed.mono lines _ _ _ _ _ h.1 (Nat.le_refl _) hle,
    Gold.Placed.mono lines _ _ _ _ _ h.2.1 (Nat.le_refl _) hle, h.2.2⟩

/-- Writing the Super or the Sub link of a Template leaves the elements and the
blocks of every Template. -/
theorem Generator.modify_keeps_content (g : Generator) (q p : Nat) (f : Template → Template)
    (hf : ∀ t, (f t).Elements = t.Elements ∧ (f t).Blocks = t.Blocks) :
    ((g.modify q f).store p).Elements = (g.store p).Elements ∧
      ((g.modify q f).store p).Blocks = (g.store p).Blocks := by
  by_cases hqp : p = q
  · subst hqp
    rw [Generator.modify_store_same]
    exact hf _
  · rw [Generator.modify_store_other g q p f hqp]
    exact ⟨rfl, rfl⟩

/-- A turn of the loop of Parse keeps the Elements of the Template under
construction in source order. -/
theorem parseStep_placed (env : Env)
    (recur : Generator → String → Option (Generator × Except String Ptr))
    (hrec : ∀ g path g2 res, recur g path = some (g2, res) → Generator.Frame none g g2)
    (lines : List String) (tpl : Nat) (i : Nat) (g : Generator) (line : String)
    (hl : lines[i]? = some line) (htpl : tpl < g.next)
    (hinv : (g.store tpl).Placed lines i) (i2 : Nat) (g2 : Generator)
    (h : parseStep env recur lines tpl i g line = some (.next i2 g2)) :
    (g2.store tpl).Placed lines i2 ∧ tpl < g2.next := by
  cases hE : empty line with
  | true =>
    rw [parseStep_blank env recur lines tpl i g line hE] at h
    simp only [Option.some.injEq, Step.next.injEq] at h
    obtain ⟨h1, h2⟩ := h
    subst h1 h2
    exact ⟨Template.Placed.widen lines _ _ _ hinv (by omega), htpl⟩
  | false =>
    cases hT : topElement line with
    | false =>
      rw [parseStep_indented env recur lines tpl i g line hE hT] at h
      simp only [Option.some.injEq, Step.next.injEq] at h
      obtain ⟨h1, h2⟩ := h
      subst h1 h2
      exact ⟨Template.Placed.widen lines _ _ _ hinv (by omega), htpl⟩
    | true =>
      have hind : indent line = 0 := by
        simpa [topElement, indentTop] using hT
      cases hX : isExtends line with
      | true =>
        by_cases hn : (Split (TrimSpace line) ' ').length = 2
        · rw [parseStep_extends env recur lines tpl i g line hE hT hX hn] at h
          split at h
          · cases h
          · cases h
          · rename_i g1 superTpl hr
            simp only [Option.some.injEq, Step.next.injEq] at h
            obtain ⟨h1, h2⟩ := h
            subst h1 h2
            obtain ⟨hnext, _, hfr⟩ := hrec _ _ _ _ hr
            have hkeep := (hfr tpl htpl).2 (by simp)
            have hm1 := Generator.modify_keeps_content g1 superTpl tpl
              (fun t => { t with Sub := some tpl }) (fun _ => ⟨rfl, rfl⟩)
            have hm2 := Generator.modify_keeps_content
              (g1.modify superTpl fun t => { t with Sub := some tpl }) tpl tpl
              (fun t => { t with Super := some superTpl }) (fun _ => ⟨rfl, rfl⟩)
            refine ⟨?_, by simp only [Generator.modify_next]; omega⟩
            refine Template.Placed.congr lines _ (g.store tpl) _ ?_ ?_
              (Template.Placed.widen lines _ _ _ hinv (by omega))
            · rw [hm2.1, hm1.1, hkeep.2.2]
            · rw [hm2.2, hm1.2, hkeep.2.1]
        · rw [parseStep_extends_arity env recur lines tpl i g line hE hT hX hn] at h
          cases h
      | false =>
        cases hSB : ((g.store tpl).Super.isSome && isBlock line) with
        | true =>
          simp only [Bool.and_eq_true] at hSB
          by_cases hn : (Split (TrimSpace line) ' ').length = 2
          · rw [parseStep_block env recur lines tpl i g line hE hT hX hSB.1 hSB.2 hn] at h
            split at h
            · cases h
            · rename_i r hr
              split at h
              · cases h
              · simp only [Option.some.injEq, Step.next.injEq] at h
                obtain ⟨h1, h2⟩ := h
                subst h1 h2
                obtain ⟨more, hm, hp, hd⟩ := appendChildren_placed env _ lines (i + 1) indentTop
                  false "" r hr
                simp only [Container.Children, List.nil_append] at hm
                have hcur := (appendChildren_cursor env _ lines (i + 1) indentTop false "" r hr).1
                refine ⟨?_, by simpa using htpl⟩
                rw [Generator.modify_store_same]
                obtain ⟨hPE, hPB, hdis, hdepth⟩ := hinv
                have hnew : Placed lines i r.cursor (preorderAll r.children) := by
                  rw [hm]; exact Placed.mono lines _ _ _ _ _ hp (by omega) (Nat.le_refl _)
                have hold : Placed lines 0 i (blocksPreorder
                    ((g.store tpl).Blocks.filter
                      fun kv => kv.1 != (Split (TrimSpace line) ' ').getD 1 "")) :=
                  Placed.sublist lines 0 i _ _ hPB (blocksPreorder_filter _ _)
                refine ⟨Placed.mono lines _ _ _ _ _ hPE (Nat.le_refl _) (by omega), ?_, ?_, ?_⟩
                · simp only [Template.AddBlock]
                  rw [blocksPreorder_append]
                  refine Placed.concat lines 0 i r.cursor _ _ hold ?_ (by omega) (by omega)
                  simpa [blocksPreorder] using hnew
                · intro e he c hc
                  simp only [Template.AddBlock] at he hc
                  rw [blocksPreorder_append] at hc
                  rcases List.mem_append.mp hc with hc | hc
                  · exact hdis e he c ((blocksPreorder_filter _ _).subset hc)
                  · have hc2 : c ∈ preorderAll r.children := by
                      simpa [blocksPreorder] using hc
                    have := (hnew.2 c hc2).1
                    have := (hPE.2 e he).2.1
                    omega
                · intro kv hkv c hc
                  simp only [Template.AddBlock] at hkv
                  rcases List.mem_append.mp hkv with hkv | hkv
                  · exact hdepth kv (List.mem_filter.mp hkv).1 c hc
                  · simp only [List.mem_singleton] at hkv
                    subst hkv
                    simp only [hm] at hc
                    exact hd c hc
          · rw [parseStep_block_arity env recur lines tpl i g line hE hT hX hSB.1 hSB.2 hn] at h
            cases h
        | false =>
          rw [parseStep_element env recur lines tpl i g line hE hT hX hSB] at h
          split at h
          · cases h
          · rename_i e hnew
            split at h
            · cases h
            · rename_i r hr
              split at h
              · cases h
              · simp only [Option.some.injEq, Step.next.injEq] at h
                obtain ⟨h1, h2⟩ := h
                subst h1 h2
                have hfields : e.Text = line ∧ e.LineNo = i + 1 ∧ e.Indent = indentTop ∧
                    e.Children = [] := by
                  unfold NewElement at hnew
                  split at hnew
                  · cases hnew
                  · cases hnew; exact ⟨rfl, rfl, rfl, rfl⟩
                obtain ⟨hct, hcn, hci, hcc⟩ := hfields
                obtain ⟨more, hm, hp, hd⟩ := appendChildren_placed env _ lines (i + 1) indentTop
                  e.RawContent e.Typ r hr
                simp only [Container.Children, hcc, List.nil_append] at hm
                have hcur := (appendChildren_cursor env _ lines (i + 1) indentTop e.RawContent
                  e.Typ r hr).1
                refine ⟨?_, by simpa using htpl⟩
                rw [Generator.modify_store_same]
                obtain ⟨hPE, hPB, hdis, hdepth⟩ := hinv
                have hnewP : Placed lines i r.cursor
                    (preorderAll [{ e with Children := r.children }]) := by
                  rw [preorderAll_single]
                  refine Placed.cons lines i r.cursor _ _ hcn ?_ ?_ hcur
                  · refine ⟨by simp only [hcn]; omega, ?_, ?_, ?_⟩
                    · simp only [hcn, hct, Nat.add_sub_cancel]; exact hl
                    · simp only [hci, hct, hind, indentTop]
                    · intro c hc
                      simp only [hm] at hc
                      simp only [hci]
                      exact hd c hc
                  · simp only [hm]; exact hp
                refine ⟨?_, Placed.mono lines _ _ _ _ _ hPB (Nat.le_refl _) (by omega), ?_, hdepth⟩
                · simp only [Template.AppendElement]
                  rw [preorderAll_append]
                  exact Placed.concat lines 0 i r.cursor _ _ hPE hnewP (by omega) (by omega)
                · intro x hx c hc
                  simp only [Template.AppendElement] at hx hc
                  rw [preorderAll_append] at hx
                  rcases List.mem_append.mp hx with hx | hx
                  · exact hdis x hx c hc
                  · have := (hnewP.2 x hx).1
                    have := (hPB.2 c hc).2.1
                    omega

/-- The loop of Parse, when it returns without error, leaves the Elements of
the Template in source order. -/
theorem parseFrom_placed (env : Env)
    (recur : Generator → String → Option (Generator × Except String Ptr))
    (hrec : ∀ g path g2 res, recur g path = some (g2, res) → Generator.Frame none g g2)
    (lines : List String) (tpl : Nat) (gEnd : Generator) (n : Nat) :
    ∀ i g, lines.length - i ≤ n → i ≤ lines.length → tpl < g.next →
      (g.store tpl).Placed lines i →
      parseFrom env recur lines tpl i g = some (gEnd, none) →
      (gEnd.store tpl).Placed lines lines.length := by
  induction n with
  | zero =>
    intro i g hn hi _ hinv h
    have hlen : i = lines.length := by omega
    have hnone : lines[i]? = none := by rw [List.getElem?_eq_none_iff]; omega
    rw [parseFrom_eq] at h
    simp only [hnone, Option.some.injEq, Prod.mk.injEq] at h
    rw [← h.1, ← hlen]
    exact hinv
  | succ n ih =>
    intro i g hn hi htpl hinv h
    rw [parseFrom_eq] at h
    cases hl : lines[i]? with
    | none =>
      have hlen : i = lines.length := by
        rw [List.getElem?_eq_none_iff] at hl; omega
      simp only [hl, Option.some.injEq, Prod.mk.injEq] at h
      rw [← h.1, ← hlen]
      exact hinv
    | some line =>
      simp only [hl] at h
      cases hs : parseStep env recur lines tpl i g line with
      | none => simp only [hs] at h; cases h
      | some st =>
        cases st with
        | fail g2 err => simp only [hs, Option.some.injEq, Prod.mk.injEq] at h; cases h.2
        | next i2 g2 =>
          simp only [hs] at h
          have hlt : i < lines.length := (List.getElem?_eq_some_iff.mp hl).1
          obtain ⟨hc1, hc2⟩ := parseStep_cursor env recur lines tpl i g line i2 g2 hs
          obtain ⟨hP, hnx⟩ := parseStep_placed env recur hrec lines tpl i g line hl htpl hinv
            i2 g2 hs
          exact ih i2 g2 (by omega) (hc2 hlt) hnx hP h

/-- C18: when Parse reads a file and succeeds, the Elements of the Template,
those under its top-level Elements and those under its blocks, taken in
pre-order, have strictly increasing line numbers; no two of all these Elements
have the same line number, so a line gave one Element at most; every Element
has as its line number the 1-based index of a line of the file, that line as
its text and the indent of the line as its indentation; and the children of an
Element are indented deeper than it by 1 at least, those of a block being of
depth 1 at least. -/
theorem Parse_elements_in_order (env : Env) (fuel : Nat) (g : Generator) (path b : String)
    (g2 : Generator) (t : Ptr) (hu : Uncached g path) (hread : env.ReadFile path = .ok b)
    (h : Parse env fuel g path = some (g2, .ok t)) :
    ((preorderAll (g2.store t).Elements).map (·.LineNo)).Pairwise (· < ·) ∧
    ((blocksPreorder (g2.store t).Blocks).map (·.LineNo)).Pairwise (· < ·) ∧
    ((preorderAll (g2.store t).Elements ++ blocksPreorder (g2.store t).Blocks).map
      (·.LineNo)).Nodup ∧
    (∀ e ∈ preorderAll (g2.store t).Elements ++ blocksPreorder (g2.store t).Blocks,
      1 ≤ e.LineNo ∧ (Split (formatLf b) '\n')[e.LineNo - 1]? = some e.Text ∧
      e.Indent = indent e.Text ∧ ∀ c ∈ e.Children, e.Indent + 1 ≤ c.Indent) ∧
    (∀ kv ∈ (g2.store t).Blocks, ∀ c ∈ kv.2.Children, indentTop + 1 ≤ c.Indent) := by
  cases fuel with
  | zero => simp [Parse] at h
  | succ n =>
    rw [Parse_miss env n g path b hu hread] at h
    cases hloop : parseFrom env (Parse env n) (Split (formatLf b) '\n') g.next 0
        (NewTemplate g path).1 with
    | none => simp only [hloop] at h; cases h
    | some lr =>
      obtain ⟨g3, oerr⟩ := lr
      cases oerr with
      | some err => simp only [hloop] at h; cases h
      | none =>
        simp only [hloop, Option.some.injEq, Prod.mk.injEq, Except.ok.injEq] at h
        obtain ⟨hg, ht⟩ := h
        subst ht
        have hstart : ((NewTemplate g path).1.store g.next).Placed (Split (formatLf b) '\n') 0 := by
          have hs : (NewTemplate g path).1.store g.next = ⟨path, none, none, [], []⟩ := by
            simp [NewTemplate]
          rw [hs]
          exact ⟨by simpa [preorderAll] using Placed.nil _ 0 0,
            by simpa [blocksPreorder] using Placed.nil _ 0 0,
            fun e he => by simp [preorderAll] at he, fun kv hkv => by cases hkv⟩
        have hP := parseFrom_placed env (Parse env n) (Parse_frame env n)
          (Split (formatLf b) '\n') g.next g3 (Split (formatLf b) '\n').length 0
          (NewTemplate g path).1 (by omega) (Nat.zero_le _)
          (by simp [NewTemplate]) hstart hloop
        have hstore : g2.store g.next = g3.store g.next := by
          rw [← hg]; split <;> rfl
        rw [hstore]
        obtain ⟨hPE, hPB, hdis, hdepth⟩ := hP
        refine ⟨hPE.1, hPB.1, ?_, ?_, hdepth⟩
        · rw [List.map_append, List.nodup_append]
          refine ⟨(hPE.1.imp (fun hab => Nat.ne_of_lt hab)),
            (hPB.1.imp (fun hab => Nat.ne_of_lt hab)), ?_⟩
          intro x hx hx2
          simp only [List.mem_map] at hx hx2
          obtain ⟨e, he, rfl⟩ := hx
          obtain ⟨c, hc, hce⟩ := hx2
          exact hdis e he c hc hce.symm
        · intro e he
          rcases List.mem_append.mp he with he | he
          · exact (hPE.2 e he).2.2
          · exact (hPB.2 e he).2.2

/-- C18, on an instance: Parse of base.gold, three lines nested one under the
other, gives Elements with the line numbers 1, 2 and 3 in pre-order. -/
theorem Parse_elements_in_order_witness :
    ∃ g2, Parse sampleEnv 1 (NewGenerator false) "base.gold" = some (g2, .ok 0) ∧
      (preorderAll (g2.store 0).Elements).map (·.LineNo) = [1, 2, 3] ∧
      ((preorderAll (g2.store 0).Elements).map (·.LineNo)).Pairwise (· < ·) :=
  ⟨_, rfl, rfl,
    (Parse_elements_in_order sampleEnv 1 (NewGenerator false) "base.gold"
      "html\n  body\n    p\n" _ 0 rfl rfl rfl).1⟩

/-! ## Blank lines: the recursive calls -/

theorem SameButLineNo.write (tpl q : Nat) (f : Template → Template) (g1 g2 : Generator)
    (hf : q = tpl → ∀ a b : Template, a.eraseLineNo = b.eraseLineNo →
      (f a).eraseLineNo = (f b).eraseLineNo)
    (hs : SameButLineNo tpl g1 g2) : SameButLineNo tpl (g1.modify q f) (g2.modify q f) := by
  obtain ⟨hc, hg, hn, hst, ht⟩ := hs
  refine ⟨hc, hg, hn, ?_, ?_⟩
  · intro p hp
    by_cases hpq : p = q
    · subst hpq
      rw [Generator.modify_store_same, Generator.modify_store_same, hst p hp]
    · rw [Generator.modify_store_other g1 q p f hpq, Generator.modify_store_other g2 q p f hpq]
      exact hst p hp
  · by_cases hq : q = tpl
    · subst hq
      rw [Generator.modify_store_same, Generator.modify_store_same]
      exact hf rfl _ _ ht
    · have hne : tpl ≠ q := fun h => hq h.symm
      rw [Generator.modify_store_other g1 q tpl f hne, Generator.modify_store_other g2 q tpl f hne]
      exact ht

theorem Template.eraseLineNo_sub (a b : Template) (s : Option Ptr)
    (h : a.eraseLineNo = b.eraseLineNo) :
    ({ a with Sub := s } : Template).eraseLineNo = ({ b with Sub := s } : Template).eraseLineNo := by
  simp only [Template.eraseLineNo, Template.mk.injEq] at h ⊢
  exact ⟨h.1, h.2.1, trivial, h.2.2.2.1, h.2.2.2.2⟩

theorem Template.eraseLineNo_super (a b : Template) (s : Option Ptr)
    (h : a.eraseLineNo = b.eraseLineNo) :
    ({ a with Super := s } : Template).eraseLineNo =
      ({ b with Super := s } : Template).eraseLineNo := by
  simp only [Template.eraseLineNo, Template.mk.injEq] at h ⊢
  exact ⟨h.1, trivial, h.2.2.1, h.2.2.2.1, h.2.2.2.2⟩

/-- A turn of the loop of Parse on a Template other than tpl takes the same
course on two generators that are the same but for the line numbers tpl holds. -/
theorem parseStep_blind (env : Env)
    (recur : Generator → String → Option (Generator × Except String Ptr)) (tpl : Nat)
    (hrec : LineNoBlind tpl recur) (lines : List String) (t : Nat) (ht : t ≠ tpl) (i : Nat)
    (g1 g2 : Generator) (line : String) (htpl : tpl < g1.next) (hs : SameButLineNo tpl g1 g2) :
    (parseStep env recur lines t i g1 line = none ∧
      parseStep env recur lines t i g2 line = none) ∨
    (∃ h1 h2 err, parseStep env recur lines t i g1 line = some (.fail h1 err) ∧
      parseStep env recur lines t i g2 line = some (.fail h2 err) ∧
      SameButLineNo tpl h1 h2 ∧ g1.next ≤ h1.next) ∨
    (∃ i2 h1 h2, parseStep env recur lines t i g1 line = some (.next i2 h1) ∧
      parseStep env recur lines t i g2 line = some (.next i2 h2) ∧
      SameButLineNo tpl h1 h2 ∧ g1.next ≤ h1.next) := by
  have hstore : g1.store t = g2.store t := hs.2.2.2.1 t ht
  have hmod : ∀ f : Template → Template,
      SameButLineNo tpl (g1.modify t f) (g2.modify t f) :=
    fun f => SameButLineNo.write tpl t f g1 g2 (fun h => absurd h ht) hs
  cases hE : empty line with
  | true =>
    rw [parseStep_blank env recur lines t i g1 line hE,
      parseStep_blank env recur lines t i g2 line hE]
    exact Or.inr (Or.inr ⟨_, _, _, rfl, rfl, hs, Nat.le_refl _⟩)
  | false =>
    cases hT : topElement line with
    | false =>
      rw [parseStep_indented env recur lines t i g1 line hE hT,
        parseStep_indented env recur lines t i g2 line hE hT]
      exact Or.inr (Or.inr ⟨_, _, _, rfl, rfl, hs, Nat.le_refl _⟩)
    | true =>
      cases hX : isExtends line with
      | true =>
        by_cases hn : (Split (TrimSpace line) ' ').length = 2
        · rw [parseStep_extends env recur lines t i g1 line hE hT hX hn,
            parseStep_extends env recur lines t i g2 line hE hT hX hn, hstore]
          rcases hrec g1 g2 _ htpl hs with ⟨hn1, hn2⟩ | ⟨h1, h2, res, hr1, hr2, hs2, hnx⟩
          · rw [hn1, hn2]; exact Or.inl ⟨rfl, rfl⟩
          · rw [hr1, hr2]
            cases res with
            | error err => exact Or.inr (Or.inl ⟨_, _, _, rfl, rfl, hs2, hnx⟩)
            | ok superTpl =>
              refine Or.inr (Or.inr ⟨_, _, _, rfl, rfl, ?_, hnx⟩)
              refine SameButLineNo.write tpl t _ _ _ (fun h => absurd h ht) ?_
              exact SameButLineNo.write tpl superTpl _ _ _
                (fun _ a b hab => Template.eraseLineNo_sub a b _ hab) hs2
        · rw [parseStep_extends_arity env recur lines t i g1 line hE hT hX hn,
            parseStep_extends_arity env recur lines t i g2 line hE hT hX hn]
          exact Or.inr (Or.inl ⟨_, _, _, rfl, rfl, hs, Nat.le_refl _⟩)
      | false =>
        cases hSB : ((g1.store t).Super.isSome && isBlock line) with
        | true =>
          have hSB2 : ((g2.store t).Super.isSome && isBlock line) = true := by
            rw [← hstore]; exact hSB
          simp only [Bool.and_eq_true] at hSB hSB2
          by_cases hn : (Split (TrimSpace line) ' ').length = 2
          · rw [parseStep_block env recur lines t i g1 line hE hT hX hSB.1 hSB.2 hn,
              parseStep_block env recur lines t i g2 line hE hT hX hSB2.1 hSB2.2 hn]
            obtain ⟨r, hr⟩ := appendChildren_isSome env
              (.block ⟨(Split (TrimSpace line) ' ').getD 1 "", t, []⟩) lines (i + 1) indentTop
              false ""
            rw [hr]
            cases he : r.err with
            | some err =>
              simp only [he]
              exact Or.inr (Or.inl ⟨_, _, _, rfl, rfl, hmod _, Nat.le_refl _⟩)
            | none =>
              simp only [he]
              exact Or.inr (Or.inr ⟨_, _, _, rfl, rfl, hmod _, Nat.le_refl _⟩)
          · rw [parseStep_block_arity env recur lines t i g1 line hE hT hX hSB.1 hSB.2 hn,
              parseStep_block_arity env recur lines t i g2 line hE hT hX hSB2.1 hSB2.2 hn]
            exact Or.inr (Or.inl ⟨_, _, _, rfl, rfl, hs, Nat.le_refl _⟩)
        | false =>
          have hSB2 : ((g2.store t).Super.isSome && isBlock line) = false := by
            rw [← hstore]; exact hSB
          rw [parseStep_element env recur lines t i g1 line hE hT hX hSB,
            parseStep_element env recur lines t i g2 line hE hT hX hSB2]
          cases hnew : NewElement env line (i + 1) indentTop none (some t) none with
          | error err => exact Or.inr (Or.inl ⟨_, _, _, rfl, rfl, hs, Nat.le_refl _⟩)
          | ok e =>
            obtain ⟨r, hr⟩ := appendChildren_isSome env (.element e) lines (i + 1) indentTop
              e.RawContent e.Typ
            simp only [hr]
            cases he : r.err with
            | some err =>
              simp only [he]
              exact Or.inr (Or.inl ⟨_, _, _, rfl, rfl, hmod _, Nat.le_refl _⟩)
            | none =>
              simp only [he]
              exact Or.inr (Or.inr ⟨_, _, _, rfl, rfl, hmod _, Nat.le_refl _⟩)

/-- The loop of Parse on a Template other than tpl takes the same course on two
generators that are the same but for the line numbers tpl holds. -/
theorem parseLoop_blind (env : Env)
    (recur : Generator → String → Option (Generator × Except String Ptr)) (tpl : Nat)
    (hrec : LineNoBlind tpl recur) (lines : List String) (t : Nat) (ht : t ≠ tpl) (fuel : Nat) :
    ∀ i g1 g2, tpl < g1.next → SameButLineNo tpl g1 g2 →
      (parseLoop env recur lines t fuel i g1 = none ∧
        parseLoop env recur lines t fuel i g2 = none) ∨
      ∃ h1 h2 err, parseLoop env recur lines t fuel i g1 = some (h1, err) ∧
        parseLoop env recur lines t fuel i g2 = some (h2, err) ∧
        SameButLineNo tpl h1 h2 ∧ g1.next ≤ h1.next := by
  induction fuel with
  | zero =>
    intro i g1 g2 _ hs
    cases hl : lines[i]? with
    | none =>
      right
      exact ⟨g1, g2, none, by simp [parseLoop, hl], by simp [parseLoop, hl], hs, Nat.le_refl _⟩
    | some line =>
      left
      exact ⟨by simp [parseLoop, hl], by simp [parseLoop, hl]⟩
  | succ n ih =>
    intro i g1 g2 htpl hs
    cases hl : lines[i]? with
    | none =>
      right
      exact ⟨g1, g2, none, by simp [parseLoop, hl], by simp [parseLoop, hl], hs, Nat.le_refl _⟩
    | some line =>
      rw [parseLoop, parseLoop]
      simp only [hl]
      rcases parseStep_blind env recur tpl hrec lines t ht i g1 g2 line htpl hs with
        ⟨hn1, hn2⟩ | ⟨h1, h2, err, hs1, hs2, hsame, hnx⟩ | ⟨i2, h1, h2, hs1, hs2, hsame, hnx⟩
      · rw [hn1, hn2]; exact Or.inl ⟨rfl, rfl⟩
      · rw [hs1, hs2]
        exact Or.inr ⟨h1, h2, some err, rfl, rfl, hsame, hnx⟩
      · rw [hs1, hs2]
        rcases ih i2 h1 h2 (by omega) hsame with ⟨hn1, hn2⟩ | ⟨k1, k2, err, hk1, hk2, hk, hnx2⟩
        · exact Or.inl ⟨hn1, hn2⟩
        · exact Or.inr ⟨k1, k2, err, hk1, hk2, hk, by omega⟩

/-- The method Parse is not steered by the line numbers an allocated Template
holds. -/
theorem Parse_lineNoBlind (env : Env) (tpl : Nat) (fuel : Nat) :
    LineNoBlind tpl (Parse env fuel) := by
  induction fuel with
  | zero => intro g1 g2 path _ _; exact Or.inl ⟨rfl, rfl⟩
  | succ n ih =>
    intro g1 g2 path htpl hs
    obtain ⟨hc, hg, hn, hst, ht⟩ := hs
    cases hhit : (if g1.cache then g1.gtemplates.lookup path else none) with
    | some t =>
      have hhit2 : (if g2.cache then g2.gtemplates.lookup path else none) = some t := by
        rw [← hc, ← hg]; exact hhit
      right
      refine ⟨g1, g2, .ok t, ?_, ?_, ⟨hc, hg, hn, hst, ht⟩, Nat.le_refl _⟩
      · rw [Parse]; simp only [hhit]
      · rw [Parse]; simp only [hhit2]
    | none =>
      have hhit2 : (if g2.cache then g2.gtemplates.lookup path else none) = none := by
        rw [← hc, ← hg]; exact hhit
      cases hread : env.ReadFile path with
      | error err =>
        right
        refine ⟨g1, g2, .error err, ?_, ?_, ⟨hc, hg, hn, hst, ht⟩, Nat.le_refl _⟩
        · rw [Parse]; simp only [hhit, hread]
        · rw [Parse]; simp only [hhit2, hread]
      | ok b =>
        rw [Parse_miss env n g1 path b hhit hread, Parse_miss env n g2 path b hhit2 hread]
        have hne : g1.next ≠ tpl := by omega
        have hnew : SameButLineNo tpl (NewTemplate g1 path).1 (NewTemplate g2 path).1 := by
          refine ⟨hc, hg, by simp [NewTemplate, hn], ?_, ?_⟩
          · intro p hp
            simp only [NewTemplate, ← hn]
            by_cases hpn : p = g1.next
            · subst hpn; simp
            · rw [Function.update_noteq hpn, Function.update_noteq hpn]
              exact hst p hp
          · simp only [NewTemplate, ← hn]
            have hne2 : tpl ≠ g1.next := fun h => hne h.symm
            rw [Function.update_noteq hne2, Function.update_noteq hne2]
            exact ht
        have hloop := parseLoop_blind env (Parse env n) tpl ih (Split (formatLf b) '\n') g1.next
          hne ((Split (formatLf b) '\n').length - 0) 0 _ _
          (by simp only [NewTemplate]; omega) hnew
        rw [← hn]
        simp only [parseFrom]
        rcases hloop with ⟨hn1, hn2⟩ | ⟨k1, k2, err, hk1, hk2, hk, hnx⟩
        · rw [hn1, hn2]; exact Or.inl ⟨rfl, rfl⟩
        · rw [hk1, hk2]
          have hnx2 : g1.next ≤ k1.next := by
            have : (NewTemplate g1 path).1.next = g1.next + 1 := rfl
            omega
          cases err with
          | some e => exact Or.inr ⟨k1, k2, .error e, rfl, rfl, hk, hnx2⟩
          | none =>
            right
            refine ⟨_, _, .ok g1.next, rfl, rfl, ?_, ?_⟩
            · obtain ⟨kc, kg, kn, kst, kt⟩ := hk
              rw [← kc]
              split
              · exact ⟨kc, by simp [Generator.storeTemplate, kg], kn, kst, kt⟩
              · exact ⟨kc, kg, kn, kst, kt⟩
            · split <;> exact hnx2

/-! ## Blank lines: the cursor -/

theorem nonBlankBefore_blank (lines : List String) (i : Nat) (l : String)
    (hl : lines[i]? = some l) (hE : empty l = true) :
    nonBlankBefore lines (i + 1) = nonBlankBefore lines i := by
  simp only [nonBlankBefore, nonBlank, List.take_succ, hl, Option.toList, List.filter_append]
  simp [List.filter, hE]

theorem nonBlankBefore_line (lines : List String) (i : Nat) (l : String)
    (hl : lines[i]? = some l) (hE : empty l = false) :
    (nonBlank lines)[nonBlankBefore lines i]? = some l ∧
      nonBlankBefore lines (i + 1) = nonBlankBefore lines i + 1 := by
  constructor
  · have hlt : i < lines.length := (List.getElem?_eq_some_iff.mp hl).1
    have hsplit : lines = lines.take i ++ l :: lines.drop (i + 1) := by
      have hd : lines.drop i = l :: lines.drop (i + 1) := by
        rw [List.drop_eq_getElem_cons hlt]
        congr 1
        exact (List.getElem?_eq_some_iff.mp hl).2
      rw [← hd, List.take_append_drop]
    have hnb : nonBlank lines =
        nonBlank (lines.take i) ++ l :: nonBlank (lines.drop (i + 1)) := by
      conv_lhs => rw [hsplit]
      simp [nonBlank, List.filter_append, List.filter, hE]
    rw [hnb]
    simp only [nonBlankBefore]
    rw [List.getElem?_append_right (Nat.le_refl _)]
    simp
  · simp only [nonBlankBefore, nonBlank, List.take_succ, hl, Option.toList, List.filter_append]
    simp [List.filter, hE]

theorem nonBlankBefore_end (lines : List String) (i : Nat) (hl : lines[i]? = none) :
    (nonBlank lines)[nonBlankBefore lines i]? = none := by
  have hlen : lines.length ≤ i := by rw [List.getElem?_eq_none_iff] at hl; exact hl
  simp only [nonBlankBefore, List.take_of_length_le hlen]
  rw [List.getElem?_eq_none_iff]

/-! ## Blank lines: the tree builder -/

theorem eraseLineNos_append (a b : List Element) :
    eraseLineNos (a ++ b) = eraseLineNos a ++ eraseLineNos b := by
  induction a with
  | nil => simp [eraseLineNos]
  | cons x xs ih => simp [eraseLineNos, ih]

theorem Container.eraseLineNo_children (c : Container) :
    c.eraseLineNo.Children = eraseLineNos c.Children := by
  cases c with
  | block b => rfl
  | element e => cases e; simp [Container.eraseLineNo, Container.Children, Element.eraseLineNo]

theorem Container.eraseLineNos_children_eq (p1 p2 : Container)
    (hp : p1.eraseLineNo = p2.eraseLineNo) :
    eraseLineNos p1.Children = eraseLineNos p2.Children := by
  rw [← Container.eraseLineNo_children, ← Container.eraseLineNo_children, hp]

theorem Container.eraseLineNo_withChildren (c1 c2 : Container) (cs1 cs2 : List Element)
    (hc : c1.eraseLineNo = c2.eraseLineNo) (hcs : eraseLineNos cs1 = eraseLineNos cs2) :
    (c1.withChildren cs1).eraseLineNo = (c2.withChildren cs2).eraseLineNo := by
  cases c1 with
  | block b1 =>
    cases c2 with
    | block b2 =>
      simp only [Container.eraseLineNo, Container.block.injEq, Block.eraseLineNo, Block.mk.injEq,
        Container.withChildren] at hc ⊢
      exact ⟨hc.1, hc.2.1, hcs⟩
    | element e2 => simp [Container.eraseLineNo] at hc
  | element e1 =>
    cases c2 with
    | block b2 => simp [Container.eraseLineNo] at hc
    | element e2 =>
      cases e1; cases e2
      simp only [Container.eraseLineNo, Container.element.injEq, Element.eraseLineNo,
        Element.mk.injEq, Container.withChildren, true_and] at hc ⊢
      exact ⟨hc.1, hc.2.1, hc.2.2.1, hc.2.2.2.1, hcs⟩

/-- Under a classification that ignores line numbers, NewElement gives on one
line with two line numbers the same error, or two Elements that differ in their
line number only. -/
theorem NewElement_lineNo (env : Env) (hcls : env.IgnoresLineNo) (l : String)
    (n m ind : Nat) (par par2 : Option Element) (tp : Option Ptr) (bl bl2 : Option Block)
    (hpar : par.map Element.eraseLineNo = par2.map Element.eraseLineNo)
    (hbl : bl.map Block.eraseLineNo = bl2.map Block.eraseLineNo) :
    (∃ err, NewElement env l n ind par tp bl = .error err ∧
      NewElement env l m ind par2 tp bl2 = .error err) ∨
    (∃ k : Kind, NewElement env l n ind par tp bl = .ok ⟨l, n, ind, k.RawContent, k.Typ, []⟩ ∧
      NewElement env l m ind par2 tp bl2 = .ok ⟨l, m, ind, k.RawContent, k.Typ, []⟩) := by
  unfold NewElement
  rw [hcls l n m ind par par2 tp bl bl2 hpar hbl]
  cases env.classify l m ind par2 tp bl2 with
  | error err => left; exact ⟨err, rfl, rfl⟩
  | ok k => right; exact ⟨k, rfl, rfl⟩

theorem newChild_lineNo (env : Env) (hcls : env.IgnoresLineNo) (p1 p2 : Container)
    (l : String) (i j ind : Nat) (hp : p1.eraseLineNo = p2.eraseLineNo) :
    (∃ err, newChild env p1 l i ind = .error err ∧ newChild env p2 l j ind = .error err) ∨
    (∃ k : Kind, newChild env p1 l i ind = .ok ⟨l, i + 1, ind, k.RawContent, k.Typ, []⟩ ∧
      newChild env p2 l j ind = .ok ⟨l, j + 1, ind, k.RawContent, k.Typ, []⟩) := by
  cases p1 with
  | block b1 =>
    cases p2 with
    | block b2 =>
      simp only [Container.eraseLineNo, Container.block.injEq] at hp
      exact NewElement_lineNo env hcls l (i + 1) (j + 1) ind none none none (some b1) (some b2)
        rfl (by simp [hp])
    | element e2 => simp [Container.eraseLineNo] at hp
  | element e1 =>
    cases p2 with
    | block b2 => simp [Container.eraseLineNo] at hp
    | element e2 =>
      simp only [Container.eraseLineNo, Container.element.injEq] at hp
      exact NewElement_lineNo env hcls l (i + 1) (j + 1) ind (some e1) (some e2) none none none
        (by simp [hp]) rfl

/-- A turn of the loop of appendChildren on two lists of lines with the same
line, not blank, under the two cursors takes the same course: the return, with
an error on both sides or on neither, or the admission of the line. -/
theorem appendChildrenBody_same_line (env : Env) (p1 p2 : Container) (ls lt : List String)
    (i j pI : Nat) (raw : Bool) (ty : String) (l : String)
    (h1 : ls[i]? = some l) (h2 : lt[j]? = some l) (hE : empty l = false) :
    (∃ e1 e2 : Option String, e1.isSome = e2.isSome ∧ ∀ r1 r2,
      appendChildrenBody env r1 p1 ls i pI raw ty = some ⟨p1.Children, i, e1⟩ ∧
      appendChildrenBody env r2 p2 lt j pI raw ty = some ⟨p2.Children, j, e2⟩) ∨
    (∀ r1 r2,
      appendChildrenBody env r1 p1 ls i pI raw ty =
        admitChild env r1 p1 l (indent l) ls i pI raw ty ∧
      appendChildrenBody env r2 p2 lt j pI raw ty =
        admitChild env r2 p2 l (indent l) lt j pI raw ty) := by
  by_cases hlow : indent l < pI + 1
  · left
    refine ⟨none, none, rfl, fun r1 r2 => ?_⟩
    simp [appendChildrenBody, h1, h2, hE, hlow]
  · by_cases hc1 : (raw || ty == env.TypeContent) = true
    · right
      intro r1 r2
      constructor
      · simp only [appendChildrenBody, h1, hE, hc1, hlow]; simp
      · simp only [appendChildrenBody, h2, hE, hc1, hlow]; simp
    · by_cases hc2 : (ty == env.TypeBlock) = true
      · left
        refine ⟨some (blockChildError (i + 1)), some (blockChildError (j + 1)), rfl,
          fun r1 r2 => ?_⟩
        constructor
        · simp only [appendChildrenBody, h1, hE, hc1, hc2, hlow]; simp
        · simp only [appendChildrenBody, h2, hE, hc1, hc2, hlow]; simp
      · by_cases hc3 : indent l = pI + 1
        · right
          intro r1 r2
          constructor
          · simp only [appendChildrenBody, h1, hE, hc1, hc2, hlow, hc3]; simp
          · simp only [appendChildrenBody, h2, hE, hc1, hc2, hlow, hc3]; simp
        · left
          refine ⟨some (indentError (i + 1)), some (indentError (j + 1)), rfl,
            fun r1 r2 => ?_⟩
          constructor
          · simp only [appendChildrenBody, h1, hE, hc1, hc2, hlow, hc3]; simp
          · simp only [appendChildrenBody, h2, hE, hc1, hc2, hlow, hc3]; simp

/-- Deleting the blank lines changes neither the children appendChildren gives
a parent, but for their line numbers, nor whether it returns an error, and the
cursor at a return without error is the one that stands for the cursor on all
the lines. -/
theorem appendChildren_nonBlank (env : Env) (hcls : env.IgnoresLineNo) (lines : List String)
    (n : Nat) :
    ∀ i p1 p2 pI raw ty r1 r2, lines.length - i ≤ n → p1.eraseLineNo = p2.eraseLineNo →
      appendChildren env p1 lines i pI raw ty = some r1 →
      appendChildren env p2 (nonBlank lines) (nonBlankBefore lines i) pI raw ty = some r2 →
      eraseLineNos r1.children = eraseLineNos r2.children ∧ r1.err.isSome = r2.err.isSome ∧
        (r1.err = none → r2.cursor = nonBlankBefore lines r1.cursor) := by
  have hbase : ∀ i p1 p2 pI raw ty r1 r2, lines[i]? = none →
      p1.eraseLineNo = p2.eraseLineNo →
      appendChildren env p1 lines i pI raw ty = some r1 →
      appendChildren env p2 (nonBlank lines) (nonBlankBefore lines i) pI raw ty = some r2 →
      eraseLineNos r1.children = eraseLineNos r2.children ∧ r1.err.isSome = r2.err.isSome ∧
        (r1.err = none → r2.cursor = nonBlankBefore lines r1.cursor) := by
    intro i p1 p2 pI raw ty r1 r2 hl hp h1 h2
    rw [appendChildren_eq] at h1 h2
    simp only [appendChildrenBody, hl, nonBlankBefore_end lines i hl, Option.some.injEq] at h1 h2
    subst h1 h2
    exact ⟨Container.eraseLineNos_children_eq p1 p2 hp, rfl, fun _ => rfl⟩
  induction n with
  | zero =>
    intro i p1 p2 pI raw ty r1 r2 hn hp h1 h2
    have hl : lines[i]? = none := by rw [List.getElem?_eq_none_iff]; omega
    exact hbase i p1 p2 pI raw ty r1 r2 hl hp h1 h2
  | succ n ih =>
    intro i p1 p2 pI raw ty r1 r2 hn hp h1 h2
    cases hl : lines[i]? with
    | none => exact hbase i p1 p2 pI raw ty r1 r2 hl hp h1 h2
    | some l =>
      have hlt : i < lines.length := (List.getElem?_eq_some_iff.mp hl).1
      cases hE : empty l with
      | true =>
        rw [appendChildren_eq] at h1
        simp only [appendChildrenBody, hl, hE, if_true] at h1
        rw [← nonBlankBefore_blank lines i l hl hE] at h2
        exact ih (i + 1) p1 p2 pI raw ty r1 r2 (by omega) hp h1 h2
      | false =>
        obtain ⟨hl2, hnb⟩ := nonBlankBefore_line lines i l hl hE
        rw [appendChildren_eq] at h1 h2
        rcases appendChildrenBody_same_line env p1 p2 lines (nonBlank lines) i
            (nonBlankBefore lines i) pI raw ty l hl hl2 hE with
          ⟨e1, e2, he, hb⟩ | hb
        · rw [(hb (appendChildren env) (appendChildren env)).1] at h1
          rw [(hb (appendChildren env) (appendChildren env)).2] at h2
          simp only [Option.some.injEq] at h1 h2
          subst h1 h2
          exact ⟨Container.eraseLineNos_children_eq p1 p2 hp, he, fun _ => rfl⟩
        · rw [(hb (appendChildren env) (appendChildren env)).1] at h1
          rw [(hb (appendChildren env) (appendChildren env)).2] at h2
          rcases newChild_lineNo env hcls p1 p2 l i (nonBlankBefore lines i) (indent l) hp with
            ⟨err, hc1, hc2⟩ | ⟨k, hc1, hc2⟩
          · rw [admitChild_error env p1 lines i pI raw ty l (indent l) err hc1] at h1
            rw [admitChild_error env p2 (nonBlank lines) _ pI raw ty l (indent l) err hc2] at h2
            simp only [Option.some.injEq] at h1 h2
            subst h1 h2
            exact ⟨Container.eraseLineNos_children_eq p1 p2 hp, rfl, fun h => by cases h⟩
          · obtain ⟨rc1, hrc1, ha1⟩ := admitChild_ok env p1 lines i pI raw ty l (indent l) _ hc1
            obtain ⟨rc2, hrc2, ha2⟩ := admitChild_ok env p2 (nonBlank lines)
              (nonBlankBefore lines i) pI raw ty l (indent l) _ hc2
            rw [ha1] at h1
            rw [ha2] at h2
            rw [← hnb] at hrc2
            obtain ⟨hkids, herr, hcur⟩ := ih (i + 1) _ _ (indent l) k.RawContent k.Typ rc1 rc2
              (by omega) (by simp [Container.eraseLineNo, Element.eraseLineNo, eraseLineNos])
              hrc1 hrc2
            have hchildren : eraseLineNos (p1.Children ++
                  [{ (⟨l, i + 1, indent l, k.RawContent, k.Typ, []⟩ : Element) with
                    Children := rc1.children }]) =
                eraseLineNos (p2.Children ++
                  [{ (⟨l, nonBlankBefore lines i + 1, indent l, k.RawContent, k.Typ, []⟩ :
                    Element) with Children := rc2.children }]) := by
              rw [eraseLineNos_append, eraseLineNos_append,
                Container.eraseLineNos_children_eq p1 p2 hp]
              simp [eraseLineNos, Element.eraseLineNo, hkids]
            cases he1 : rc1.err with
            | some e =>
              have he2 : rc2.err.isSome = true := by rw [← herr, he1]; rfl
              obtain ⟨e2, he2⟩ := Option.isSome_iff_exists.mp he2
              simp only [he1, Option.some.injEq] at h1
              simp only [he2, Option.some.injEq] at h2
              subst h1 h2
              exact ⟨hchildren, rfl, fun h => by cases h⟩
            | none =>
              have he2 : rc2.err = none := by
                have : rc2.err.isSome = false := by rw [← herr, he1]; rfl
                simpa using this
              simp only [he1] at h1
              simp only [he2] at h2
              rw [hcur he1] at h2
              have hge := (appendChildren_cursor env _ lines (i + 1) (indent l) _ _ rc1 hrc1).1
              exact ih rc1.cursor _ _ pI raw ty r1 r2 (by omega)
                (Container.eraseLineNo_withChildren p1 p2 _ _ hp hchildren) h1 h2

/-! ## Blank lines: the loop of Parse -/

theorem Template.eraseLineNo_links (t1 t2 : Template) (h : t1.eraseLineNo = t2.eraseLineNo) :
    t1.Path = t2.Path ∧ t1.Super = t2.Super ∧ t1.Sub = t2.Sub := by
  simp only [Template.eraseLineNo, Template.mk.injEq] at h
  exact ⟨h.1, h.2.1, h.2.2.1⟩

theorem Template.eraseLineNo_appendElement (t1 t2 : Template) (e1 e2 : Element)
    (ht : t1.eraseLineNo = t2.eraseLineNo) (he : e1.eraseLineNo = e2.eraseLineNo) :
    (t1.AppendElement e1).eraseLineNo = (t2.AppendElement e2).eraseLineNo := by
  simp only [Template.eraseLineNo, Template.AppendElement, Template.mk.injEq] at ht ⊢
  refine ⟨ht.1, ht.2.1, ht.2.2.1, ht.2.2.2.1, ?_⟩
  rw [eraseLineNos_append, eraseLineNos_append, ht.2.2.2.2]
  simp [eraseLineNos, he]

theorem map_filter_key_lineNo (name : String) (bs : List (String × Block)) :
    (bs.filter fun kv => kv.1 != name).map (fun kv => (kv.1, kv.2.eraseLineNo)) =
      (bs.map fun kv => (kv.1, kv.2.eraseLineNo)).filter fun kv => kv.1 != name := by
  induction bs with
  | nil => rfl
  | cons kv rest ih =>
    by_cases h : (kv.1 != name) = true
    · simp [List.filter, h, ih]
    · simp only [Bool.not_eq_true] at h
      simp [List.filter, h, ih]

theorem Template.eraseLineNo_addBlock (t1 t2 : Template) (name : String) (b1 b2 : Block)
    (ht : t1.eraseLineNo = t2.eraseLineNo) (hb : b1.eraseLineNo = b2.eraseLineNo) :
    (t1.AddBlock name b1).eraseLineNo = (t2.AddBlock name b2).eraseLineNo := by
  simp only [Template.eraseLineNo, Template.AddBlock, Template.mk.injEq] at ht ⊢
  refine ⟨ht.1, ht.2.1, ht.2.2.1, ?_, ht.2.2.2.2⟩
  rw [List.map_append, List.map_append, map_filter_key_lineNo, map_filter_key_lineNo,
    ht.2.2.2.1]
  simp [hb]

theorem SameButLineNo.write_tpl (tpl : Nat) (f1 f2 : Template → Template) (g1 g2 : Generator)
    (hs : SameButLineNo tpl g1 g2)
    (hf : (f1 (g1.store tpl)).eraseLineNo = (f2 (g2.store tpl)).eraseLineNo) :
    SameButLineNo tpl (g1.modify tpl f1) (g2.modify tpl f2) := by
  obtain ⟨hc, hg, hn, hst, _⟩ := hs
  refine ⟨hc, hg, hn, ?_, ?_⟩
  · intro p hp
    rw [Generator.modify_store_other g1 tpl p f1 hp, Generator.modify_store_other g2 tpl p f2 hp]
    exact hst p hp
  · rw [Generator.modify_store_same, Generator.modify_store_same]
    exact hf

theorem SameButLineNo.eraseLineNo_eq (tpl : Nat) (g1 g2 : Generator)
    (hs : SameButLineNo tpl g1 g2) : g1.eraseLineNo = g2.eraseLineNo := by
  obtain ⟨hc, hg, hn, hst, ht⟩ := hs
  cases g1; cases g2
  simp only [Generator.eraseLineNo, Generator.mk.injEq] at hc hg hn hst ht ⊢
  refine ⟨hc, hg, ?_, hn⟩
  funext p
  by_cases hp : p = tpl
  · subst hp; exact ht
  · rw [hst p hp]

/-- A turn of the loop of Parse, for a line that is not blank, on all the lines
and on the lines that are not blank: the two turns take the same course, from
two generators that are the same but for the line numbers of the Template under
construction. -/
theorem parseStep_nonBlank (env : Env) (hcls : env.IgnoresLineNo)
    (recur : Generator → String → Option (Generator × Except String Ptr)) (tpl : Nat)
    (hrec : LineNoBlind tpl recur) (lines : List String) (i : Nat) (g1 g2 : Generator)
    (l : String) (hl : lines[i]? = some l) (hE : empty l = false) (htpl : tpl < g1.next)
    (hs : SameButLineNo tpl g1 g2) :
    (parseStep env recur lines tpl i g1 l = none ∧
      parseStep env recur (nonBlank lines) tpl (nonBlankBefore lines i) g2 l = none) ∨
    (∃ h1 h2 e1 e2, parseStep env recur lines tpl i g1 l = some (.fail h1 e1) ∧
      parseStep env recur (nonBlank lines) tpl (nonBlankBefore lines i) g2 l =
        some (.fail h2 e2) ∧ SameButLineNo tpl h1 h2) ∨
    (∃ i2 h1 h2, parseStep env recur lines tpl i g1 l = some (.next i2 h1) ∧
      parseStep env recur (nonBlank lines) tpl (nonBlankBefore lines i) g2 l =
        some (.next (nonBlankBefore lines i2) h2) ∧ SameButLineNo tpl h1 h2 ∧
      tpl < h1.next) := by
  obtain ⟨_, hnb⟩ := nonBlankBefore_line lines i l hl hE
  obtain ⟨hPath, hSuper, _⟩ := Template.eraseLineNo_links _ _ hs.2.2.2.2
  cases hT : topElement l with
  | false =>
    rw [parseStep_indented env recur lines tpl i g1 l hE hT,
      parseStep_indented env recur (nonBlank lines) tpl _ g2 l hE hT, ← hnb]
    exact Or.inr (Or.inr ⟨_, _, _, rfl, rfl, hs, htpl⟩)
  | true =>
    cases hX : isExtends l with
    | true =>
      by_cases hn : (Split (TrimSpace l) ' ').length = 2
      · rw [parseStep_extends env recur lines tpl i g1 l hE hT hX hn,
          parseStep_extends env recur (nonBlank lines) tpl _ g2 l hE hT hX hn, hPath, ← hnb]
        rcases hrec g1 g2 _ htpl hs with ⟨hn1, hn2⟩ | ⟨h1, h2, res, hr1, hr2, hs2, hnx⟩
        · rw [hn1, hn2]; exact Or.inl ⟨rfl, rfl⟩
        · rw [hr1, hr2]
          cases res with
          | error err => exact Or.inr (Or.inl ⟨_, _, _, _, rfl, rfl, hs2⟩)
          | ok superTpl =>
            refine Or.inr (Or.inr ⟨_, _, _, rfl, rfl, ?_, ?_⟩)
            · refine SameButLineNo.write tpl tpl _ _ _
                (fun _ a b hab => Template.eraseLineNo_super a b _ hab) ?_
              exact SameButLineNo.write tpl superTpl _ _ _
                (fun _ a b hab => Template.eraseLineNo_sub a b _ hab) hs2
            · simp only [Generator.modify_next]; omega
      · rw [parseStep_extends_arity env recur lines tpl i g1 l hE hT hX hn,
          parseStep_extends_arity env recur (nonBlank lines) tpl _ g2 l hE hT hX hn]
        exact Or.inr (Or.inl ⟨_, _, _, _, rfl, rfl, hs⟩)
    | false =>
      cases hSB : ((g1.store tpl).Super.isSome && isBlock l) with
      | true =>
        have hSB2 : ((g2.store tpl).Super.isSome && isBlock l) = true := by
          rw [← hSuper]; exact hSB
        simp only [Bool.and_eq_true] at hSB hSB2
        by_cases hn : (Split (TrimSpace l) ' ').length = 2
        · rw [parseStep_block env recur lines tpl i g1 l hE hT hX hSB.1 hSB.2 hn,
            parseStep_block env recur (nonBlank lines) tpl _ g2 l hE hT hX hSB2.1 hSB2.2 hn,
            ← hnb]
          obtain ⟨r1, hr1⟩ := appendChildren_isSome env
            (.block ⟨(Split (TrimSpace l) ' ').getD 1 "", tpl, []⟩) lines (i + 1) indentTop
            false ""
          obtain ⟨r2, hr2⟩ := appendChildren_isSome env
            (.block ⟨(Split (TrimSpace l) ' ').getD 1 "", tpl, []⟩) (nonBlank lines)
            (nonBlankBefore lines (i + 1)) indentTop false ""
          obtain ⟨hkids, herr, hcur⟩ := appendChildren_nonBlank env hcls lines
            (lines.length - (i + 1)) (i + 1) _ _ indentTop false "" r1 r2 (Nat.le_refl _) rfl
            hr1 hr2
          rw [hr1, hr2]
          have hsame : SameButLineNo tpl
              (g1.modify tpl fun t => t.AddBlock ((Split (TrimSpace l) ' ').getD 1 "")
                ⟨(Split (TrimSpace l) ' ').getD 1 "", tpl, r1.children⟩)
              (g2.modify tpl fun t => t.AddBlock ((Split (TrimSpace l) ' ').getD 1 "")
                ⟨(Split (TrimSpace l) ' ').getD 1 "", tpl, r2.children⟩) :=
            SameButLineNo.write_tpl tpl _ _ g1 g2 hs
              (Template.eraseLineNo_addBlock _ _ _ _ _ hs.2.2.2.2
                (by simp [Block.eraseLineNo, hkids]))
          cases he1 : r1.err with
          | some e =>
            have he2 : r2.err.isSome = true := by rw [← herr, he1]; rfl
            obtain ⟨e2, he2⟩ := Option.isSome_iff_exists.mp he2
            simp only [he1, he2]
            exact Or.inr (Or.inl ⟨_, _, _, _, rfl, rfl, hsame⟩)
          | none =>
            have he2 : r2.err = none := by
              have : r2.err.isSome = false := by rw [← herr, he1]; rfl
              simpa using this
            simp only [he1, he2, hcur he1]
            exact Or.inr (Or.inr ⟨_, _, _, rfl, rfl, hsame, by simpa using htpl⟩)
        · rw [parseStep_block_arity env recur lines tpl i g1 l hE hT hX hSB.1 hSB.2 hn,
            parseStep_block_arity env recur (nonBlank lines) tpl _ g2 l hE hT hX hSB2.1 hSB2.2
              hn]
          exact Or.inr (Or.inl ⟨_, _, _, _, rfl, rfl, hs⟩)
      | false =>
        have hSB2 : ((g2.store tpl).Super.isSome && isBlock l) = false := by
          rw [← hSuper]; exact hSB
        rw [parseStep_element env recur lines tpl i g1 l hE hT hX hSB,
          parseStep_element env recur (nonBlank lines) tpl _ g2 l hE hT hX hSB2, ← hnb]
        rcases NewElement_lineNo env hcls l (i + 1) (nonBlankBefore lines (i + 1)) indentTop
            none none (some tpl) none none rfl rfl with ⟨err, hc1, hc2⟩ | ⟨k, hc1, hc2⟩
        · rw [hc1, hc2]
          exact Or.inr (Or.inl ⟨_, _, _, _, rfl, rfl, hs⟩)
        · rw [hc1, hc2]
          obtain ⟨r1, hr1⟩ := appendChildren_isSome env
            (.element ⟨l, i + 1, indentTop, k.RawContent, k.Typ, []⟩) lines (i + 1) indentTop
            k.RawContent k.Typ
          obtain ⟨r2, hr2⟩ := appendChildren_isSome env
            (.element ⟨l, nonBlankBefore lines (i + 1), indentTop, k.RawContent, k.Typ, []⟩)
            (nonBlank lines) (nonBlankBefore lines (i + 1)) indentTop k.RawContent k.Typ
          obtain ⟨hkids, herr, hcur⟩ := appendChildren_nonBlank env hcls lines
            (lines.length - (i + 1)) (i + 1) _ _ indentTop k.RawContent k.Typ r1 r2
            (Nat.le_refl _)
            (by simp [Container.eraseLineNo, Element.eraseLineNo, eraseLineNos]) hr1 hr2
          simp only [hr1, hr2]
          have hsame : SameButLineNo tpl
              (g1.modify tpl fun t => t.AppendElement
                { (⟨l, i + 1, indentTop, k.RawContent, k.Typ, []⟩ : Element) with
                  Children := r1.children })
              (g2.modify tpl fun t => t.AppendElement
                { (⟨l, nonBlankBefore lines (i + 1), indentTop, k.RawContent, k.Typ, []⟩ :
                  Element) with Children := r2.children }) :=
            SameButLineNo.write_tpl tpl _ _ g1 g2 hs
              (Template.eraseLineNo_appendElement _ _ _ _ hs.2.2.2.2
                (by simp [Element.eraseLineNo, hkids]))
          cases he1 : r1.err with
          | some e =>
            have he2 : r2.err.isSome = true := by rw [← herr, he1]; rfl
            obtain ⟨e2, he2⟩ := Option.isSome_iff_exists.mp he2
            simp only [he1, he2]
            exact Or.inr (Or.inl ⟨_, _, _, _, rfl, rfl, hsame⟩)
          | none =>
            have he2 : r2.err = none := by
              have : r2.err.isSome = false := by rw [← herr, he1]; rfl
              simpa using this
            simp only [he1, he2, hcur he1]
            exact Or.inr (Or.inr ⟨_, _, _, rfl, rfl, hsame, by simpa using htpl⟩)

/-- The loop of Parse on all the lines and on the lines that are not blank,
from two generators that are the same but for the line numbers of the Template
under construction: both return or neither does, both with an error or both
without, and the generators are again the same but for these line numbers. -/
theorem parseFrom_nonBlank (env : Env) (hcls : env.IgnoresLineNo)
    (recur : Generator → String → Option (Generator × Except String Ptr)) (tpl : Nat)
    (hrec : LineNoBlind tpl recur) (lines : List String) (n : Nat) :
    ∀ i g1 g2, lines.length - i ≤ n → tpl < g1.next → SameButLineNo tpl g1 g2 →
      (parseFrom env recur lines tpl i g1 = none ∧
        parseFrom env recur (nonBlank lines) tpl (nonBlankBefore lines i) g2 = none) ∨
      ∃ h1 h2 e1 e2, parseFrom env recur lines tpl i g1 = some (h1, e1) ∧
        parseFrom env recur (nonBlank lines) tpl (nonBlankBefore lines i) g2 = some (h2, e2) ∧
        SameButLineNo tpl h1 h2 ∧ e1.isSome = e2.isSome := by
  have hbase : ∀ i g1 g2, lines[i]? = none → SameButLineNo tpl g1 g2 →
      ∃ h1 h2 e1 e2, parseFrom env recur lines tpl i g1 = some (h1, e1) ∧
        parseFrom env recur (nonBlank lines) tpl (nonBlankBefore lines i) g2 = some (h2, e2) ∧
        SameButLineNo tpl h1 h2 ∧ e1.isSome = e2.isSome := by
    intro i g1 g2 hl hs
    refine ⟨g1, g2, none, none, ?_, ?_, hs, rfl⟩
    · rw [parseFrom_eq]; simp only [hl]
    · rw [parseFrom_eq]; simp only [nonBlankBefore_end lines i hl]
  induction n with
  | zero =>
    intro i g1 g2 hn _ hs
    exact Or.inr (hbase i g1 g2 (by rw [List.getElem?_eq_none_iff]; omega) hs)
  | succ n ih =>
    intro i g1 g2 hn htpl hs
    cases hl : lines[i]? with
    | none => exact Or.inr (hbase i g1 g2 hl hs)
    | some l =>
      have hlt : i < lines.length := (List.getElem?_eq_some_iff.mp hl).1
      cases hE : empty l with
      | true =>
        have h1 : parseFrom env recur lines tpl i g1 =
            parseFrom env recur lines tpl (i + 1) g1 := by
          rw [parseFrom_eq]
          simp only [hl, parseStep_blank env recur lines tpl i g1 l hE]
        rw [h1, ← nonBlankBefore_blank lines i l hl hE]
        exact ih (i + 1) g1 g2 (by omega) htpl hs
      | false =>
        obtain ⟨hl2, _⟩ := nonBlankBefore_line lines i l hl hE
        rw [parseFrom_eq env recur lines, parseFrom_eq env recur (nonBlank lines)]
        simp only [hl, hl2]
        rcases parseStep_nonBlank env hcls recur tpl hrec lines i g1 g2 l hl hE htpl hs with
          ⟨hn1, hn2⟩ | ⟨h1, h2, e1, e2, hs1, hs2, hsame⟩ | ⟨i2, h1, h2, hs1, hs2, hsame, hnx⟩
        · rw [hn1, hn2]; exact Or.inl ⟨rfl, rfl⟩
        · rw [hs1, hs2]
          exact Or.inr ⟨h1, h2, some e1, some e2, rfl, rfl, hsame, rfl⟩
        · rw [hs1, hs2]
          have hc := (parseStep_cursor env recur lines tpl i g1 l i2 h1 hs1).1
          exact ih i2 h1 h2 (by omega) hnx hsame

theorem SameButLineNo.itself (tpl : Nat) (g : Generator) : SameButLineNo tpl g g :=
  ⟨rfl, rfl, rfl, fun _ _ => rfl, rfl⟩

/-- C13: under a classification that does not depend on line numbers, deleting
all the blank lines of a list of lines changes neither whether the loop of
Parse returns, nor whether it returns an error, nor the generator it leaves but
for the line numbers of the Elements: the trees keep their shape, the texts of
their nodes, their indentation depths and their classification. -/
theorem parseLines_blank_lines (env : Env) (hcls : env.IgnoresLineNo) (fuel : Nat)
    (lines : List String) (tpl : Nat) (g : Generator) (htpl : tpl < g.next) :
    (parseLines env (Parse env fuel) lines tpl g).map
        (fun r => (r.1.eraseLineNo, r.2.isSome)) =
      (parseLines env (Parse env fuel) (nonBlank lines) tpl g).map
        (fun r => (r.1.eraseLineNo, r.2.isSome)) := by
  rw [parseLines_eq_parseFrom, parseLines_eq_parseFrom]
  have h0 : nonBlankBefore lines 0 = 0 := rfl
  rcases parseFrom_nonBlank env hcls (Parse env fuel) tpl (Parse_lineNoBlind env tpl fuel) lines
      lines.length 0 g g (by omega) htpl (SameButLineNo.itself tpl g) with
    ⟨hn1, hn2⟩ | ⟨h1, h2, e1, e2, hp1, hp2, hsame, he⟩
  · rw [h0] at hn2
    rw [hn1, hn2]
  · rw [h0] at hp2
    rw [hp1, hp2]
    simp only [Option.map_some', Option.some.injEq, Prod.mk.injEq]
    exact ⟨SameButLineNo.eraseLineNo_eq tpl h1 h2 hsame, he⟩

/-- C13, on an instance: a div with a paragraph under it and a span, with two
blank lines in between. -/
theorem parseLines_blank_lines_witness :
    nonBlank ["div", "", "  p", " ", "span"] = ["div", "  p", "span"] ∧
    (parseLines contentEnv (Parse contentEnv 1) ["div", "", "  p", " ", "span"] 0
        (NewTemplate (NewGenerator false) "div.gold").1).map
        (fun r => (((preorderAll (r.1.store 0).Elements).map fun e => (e.LineNo, e.Text)),
          r.2)) = some ([(1, "div"), (3, "  p"), (5, "span")], none) ∧
    (parseLines contentEnv (Parse contentEnv 1) ["div", "", "  p", " ", "span"] 0
        (NewTemplate (NewGenerator false) "div.gold").1).map
        (fun r => (r.1.eraseLineNo, r.2.isSome)) =
      (parseLines contentEnv (Parse contentEnv 1) (nonBlank ["div", "", "  p", " ", "span"]) 0
        (NewTemplate (NewGenerator false) "div.gold").1).map
        (fun r => (r.1.eraseLineNo, r.2.isSome)) :=
  ⟨by decide, by decide!,
    parseLines_blank_lines contentEnv (fun _ _ _ _ _ _ _ _ _ _ _ => rfl) 1
      ["div", "", "  p", " ", "span"] 0 (NewTemplate (NewGenerator false) "div.gold").1
      (by decide)⟩

end Gold
